import Mathlib

/-!
Server configuration store: `pkg/server/config/config.go`.

A shallow embedding of the Go package `config` and of the parts of the Go
standard library it calls (`path/filepath`, `os`, `encoding/json`), followed by
theorems about `GetConfig`, `Save`, the log-path accessors,
`DeleteWorkspaceLogs` and the package initialiser.

Modelling choices for the standard library (Linux):

* A Go string is a list of characters.  `filepath.Join`, `filepath.Clean` and
  `filepath.Dir` follow the Unix implementation of `path/filepath`.
* The filesystem is a tree of directories and regular files with case-sensitive
  names and without symbolic links.  Every node records its permission bits and
  which of the three permission triplets applies to the process (owner, group
  or other).  A path is refused as a whole when it is empty (`ENOENT`), holds a
  NUL byte (`EINVAL`) or is `PATH_MAX` bytes or longer (`ENAMETOOLONG`).  A
  lookup walks down from the root: a regular file on the way gives `ENOTDIR`,
  a directory the process may not search gives `EACCES`, a name longer than
  `NAME_MAX` bytes gives `ENAMETOOLONG`, a missing entry gives `ENOENT`.
  Reading and writing a file, and creating or removing an entry of a
  directory, need the read or write permission; a privileged process passes
  every permission check.  `RemoveAll` does not examine the permissions inside
  the tree it removes.  A relative path is resolved through the location of
  the working directory, walking down from the root, so that the directories
  above the working directory are asked for the search permission as well;
  what is stated from the shape of the tree alone is stated for an absolute
  user configuration directory.
* `json.MarshalIndent` and `json.Unmarshal` for `types.ServerConfig` (a type
  declared outside this package) are parameters, collected in `Codec`.
* `getDefaultConfig` (declared outside this file) is a parameter of `init`.
-/

namespace Config

/-! ## Strings and paths -/

/-- Go strings. -/
abbrev Str := List Char

/-- A location in the filesystem tree: the names on the way down from the root. -/
abbrev Loc := List Str

/-- The element `.` of a path. -/
def dot : Str := ['.']

/-- The element `..` of a path. -/
def dotdot : Str := ['.', '.']

/-- Split a string at every `/` (as `strings.Split(s, "/")`). -/
def splitSlash : Str → List Str
  | [] => [[]]
  | c :: cs =>
    if c = '/' then [] :: splitSlash cs
    else
      match splitSlash cs with
      | [] => [[c]]
      | x :: xs => (c :: x) :: xs

/-- Concatenate with `/` between the elements (as `strings.Join(elems, "/")`). -/
def joinSlash : List Str → Str
  | [] => []
  | [x] => x
  | x :: y :: ys => x ++ '/' :: joinSlash (y :: ys)

/-- Whether the path starts with `/` (`filepath.IsAbs` on Unix). -/
def isRooted : Str → Bool
  | c :: _ => c = '/'
  | [] => false

/-- A path element that names a directory entry: not empty, not `.`, not `..`. -/
def isName (c : Str) : Bool := c ≠ [] && c ≠ dot && c ≠ dotdot

/-- An identifier that is a single path element: a name without `/`. -/
def isPlain (c : Str) : Bool := isName c && !c.contains '/'

/-- The state of `filepath.Clean` while it scans the elements of a path: the
number of leading `..` elements written so far and the names written after
them. -/
structure CleanState where
  ups : Nat
  names : List Str

/-- One element seen by `filepath.Clean`: empty elements and `.` are dropped;
`..` removes the last name, is dropped at the root of a rooted path, and is kept
at the start of a relative path; any other element is appended. -/
def cleanStep (rooted : Bool) (st : CleanState) (c : Str) : CleanState :=
  if c = [] then st
  else if c = dot then st
  else if c = dotdot then
    match st.names with
    | _ :: _ => { st with names := st.names.dropLast }
    | [] => if rooted then st else { st with ups := st.ups + 1 }
  else { st with names := st.names ++ [c] }

/-- The elements of the cleaned path. -/
def CleanState.elems (st : CleanState) : List Str :=
  List.replicate st.ups dotdot ++ st.names

/-- Write out a cleaned path: a rooted path starts with `/`, an empty relative
path is `.`. -/
def render (rooted : Bool) (elems : List Str) : Str :=
  if rooted then '/' :: joinSlash elems
  else
    match elems with
    | [] => dot
    | _ :: _ => joinSlash elems

/-- Go `filepath.Clean` (Unix). -/
def Clean (path : Str) : Str :=
  match path with
  | [] => dot
  | _ :: _ =>
    render (isRooted path)
      ((splitSlash path).foldl (cleanStep (isRooted path)) ⟨0, []⟩).elems

/-- Go `filepath.Join` (Unix): leading empty elements are ignored, the rest is
joined with `/` and cleaned; the result is empty when every element is. -/
def Join : List Str → Str
  | [] => []
  | e :: es => if e = [] then Join es else Clean (joinSlash (e :: es))

/-- The part of a path up to and including its last `/`. -/
def dirPart : Str → Str
  | [] => []
  | c :: cs => if cs.contains '/' then c :: dirPart cs else if c = '/' then [c] else []

/-- Go `filepath.Dir` (Unix): everything up to the last `/`, cleaned. -/
def Dir (path : Str) : Str := Clean (dirPart path)

/-- Follow path elements from a location: empty elements and `.` stay, `..`
goes to the parent (the root is its own parent), a name goes down. -/
def walkStep (here : Loc) (c : Str) : Loc :=
  if c = [] then here
  else if c = dot then here
  else if c = dotdot then here.dropLast
  else here ++ [c]

/-- Follow a list of path elements from a location. -/
def walk (base : Loc) (elems : List Str) : Loc := elems.foldl walkStep base

/-- The non-empty elements of a path. -/
def elemsOf (path : Str) : List Str := (splitSlash path).filter (fun c => c ≠ [])

/-! ## Errors -/

/-- The error numbers the filesystem calls report. -/
inductive Errno where
  | ENOENT
  | ENOTDIR
  | EISDIR
  | EEXIST
  | EINVAL
  | EBUSY
  | EACCES
  | ENAMETOOLONG
  | ENOTEMPTY
  deriving DecidableEq, Repr

/-- Go `error` values: an error of a filesystem call, or any other error,
identified by its message. -/
inductive Error where
  | sys (e : Errno)
  | msg (text : String)
  deriving DecidableEq, Repr

/-- Equality of results can be decided. -/
instance instDecidableEqExcept {ε α : Type} [DecidableEq ε] [DecidableEq α] :
    DecidableEq (Except ε α)
  | Except.ok a, Except.ok b =>
    if h : a = b then isTrue (by rw [h]) else isFalse (fun h2 => h (by injection h2))
  | Except.error a, Except.error b =>
    if h : a = b then isTrue (by rw [h]) else isFalse (fun h2 => h (by injection h2))
  | Except.ok _, Except.error _ => isFalse (fun h => by cases h)
  | Except.error _, Except.ok _ => isFalse (fun h => by cases h)

/-- Go `os.IsNotExist`. -/
def IsNotExist (err : Error) : Bool := err = Error.sys Errno.ENOENT

/-! ## The filesystem -/

/-- Which permission triplet of a node applies to the process: the process
owns the node, or is in the node's group, or neither. -/
inductive Who where
  | user
  | group
  | other
  deriving DecidableEq, Repr

/-- The permission bits of a node and the triplet that applies to the
process. -/
structure Mode where
  perm : Nat
  who : Who
  deriving DecidableEq, Repr

/-- The triplet (read 4, write 2, search 1) that applies to the process. -/
def Mode.bits (m : Mode) : Nat :=
  match m.who with
  | Who.user => (m.perm / 64) % 8
  | Who.group => (m.perm / 8) % 8
  | Who.other => m.perm % 8

/-- Whether the process may read a node. -/
def mayRead (privileged : Bool) (m : Mode) : Bool := privileged || (m.bits / 4) % 2 = 1

/-- Whether the process may write a file, or create and remove entries of a
directory. -/
def mayWrite (privileged : Bool) (m : Mode) : Bool := privileged || (m.bits / 2) % 2 = 1

/-- Whether the process may look names up in a directory. -/
def maySearch (privileged : Bool) (m : Mode) : Bool := privileged || m.bits % 2 = 1

/-- A node of the filesystem tree. `absent` stands for a name that has no
entry in its directory. -/
inductive Node where
  | absent
  | file (mode : Mode) (data : Str)
  | dir (mode : Mode) (kids : Str → Node)

/-- What `os.Stat` reports about a node. -/
structure FileInfo where
  isDir : Bool
  perm : Nat
  deriving DecidableEq, Repr

/-- The state the package runs in: the filesystem tree, the working directory
and file-mode creation mask of the process, whether the process is privileged,
and what `os.UserConfigDir()` returns. -/
structure World where
  root : Node
  cwd : Loc
  umask : Nat
  privileged : Bool
  userConfigDir : Except Error Str

/-- The longest name of a directory entry, in bytes (`NAME_MAX`). -/
def nameMax : Nat := 255

/-- The length, counting the closing NUL byte, that a path must stay below
(`PATH_MAX`). -/
def pathMax : Nat := 4096

/-- The number of bytes of a character in UTF-8. -/
def charBytes (c : Char) : Nat :=
  if c.toNat < 128 then 1 else if c.toNat < 2048 then 2 else if c.toNat < 65536 then 3 else 4

/-- The length of a string in bytes. -/
def byteLen : Str → Nat
  | [] => 0
  | c :: cs => charBytes c + byteLen cs

/-- Whether a name is too long for a directory entry. -/
def nameTooLong (c : Str) : Bool := nameMax < byteLen c

/-- The error of a path that is refused before any lookup: the empty path, a
path with a NUL byte, a path of `PATH_MAX` bytes or more. -/
def pathError (path : Str) : Option Errno :=
  if path = [] then some Errno.ENOENT
  else if path.contains (Char.ofNat 0) then some Errno.EINVAL
  else if pathMax ≤ byteLen path then some Errno.ENAMETOOLONG
  else none

/-- The permission bits a new node gets: the requested bits without those of
the mask. -/
def maskPerm (perm umask : Nat) : Nat := (perm &&& 0o777) &&& (0o777 ^^^ (umask &&& 0o777))

/-- The mode of a node the process creates: the masked bits, owned by the
process. -/
def newMode (perm umask : Nat) : Mode := ⟨maskPerm perm umask, Who.user⟩

/-- The state with another filesystem tree. -/
def World.setRoot (w : World) (root : Node) : World := { w with root := root }

/-- An empty directory. -/
def emptyDir (mode : Mode) : Node := Node.dir mode (fun _ => Node.absent)

/-- What is in the tree at a location, whatever the permissions: a missing
entry on the way gives `ENOENT`, a regular file on the way gives `ENOTDIR`. -/
def Node.find : Node → Loc → Except Errno Node
  | Node.absent, _ => Except.error Errno.ENOENT
  | Node.file p d, [] => Except.ok (Node.file p d)
  | Node.dir p k, [] => Except.ok (Node.dir p k)
  | Node.file _ _, _ :: _ => Except.error Errno.ENOTDIR
  | Node.dir _ kids, c :: rest => Node.find (kids c) rest

/-- Replace the node at a location that can be reached through directories. -/
def Node.update (f : Node → Node) : Node → Loc → Node
  | n, [] => f n
  | Node.dir m kids, c :: rest =>
    Node.dir m (fun d => if d = c then Node.update f (kids c) rest else kids d)
  | n, _ :: _ => n

/-- What stops the lookup of a name in a directory: no search permission, or a
name that is too long. -/
def stepError (privileged : Bool) (m : Mode) (c : Str) : Option Errno :=
  if maySearch privileged m then (if nameTooLong c then some Errno.ENAMETOOLONG else none)
  else some Errno.EACCES

/-- Look a location up as the system does, from the root down: a missing entry
gives `ENOENT`, a regular file on the way `ENOTDIR`, a directory on the way
that the process may not search `EACCES`, a name that is too long
`ENAMETOOLONG`. -/
def Node.resolve (privileged : Bool) : Node → Loc → Except Errno Node
  | Node.absent, _ => Except.error Errno.ENOENT
  | Node.file p d, [] => Except.ok (Node.file p d)
  | Node.dir p k, [] => Except.ok (Node.dir p k)
  | Node.file _ _, _ :: _ => Except.error Errno.ENOTDIR
  | Node.dir m kids, c :: rest =>
    match stepError privileged m c with
    | some e => Except.error e
    | none => Node.resolve privileged (kids c) rest

/-- The stat information of a node. -/
def Node.info : Node → Except Errno FileInfo
  | Node.absent => Except.error Errno.ENOENT
  | Node.file m _ => Except.ok ⟨false, m.perm⟩
  | Node.dir m _ => Except.ok ⟨true, m.perm⟩

/-- Stat a location. -/
def statAt (privileged : Bool) (root : Node) (loc : Loc) : Except Errno FileInfo :=
  match Node.resolve privileged root loc with
  | Except.error e => Except.error e
  | Except.ok n => n.info

/-- The location where path resolution starts: the root for a rooted path, the
working directory otherwise. -/
def World.base (w : World) (path : Str) : Loc := if isRooted path then [] else w.cwd

/-- The location a path denotes. -/
def World.locate (w : World) (path : Str) : Loc := walk (w.base path) (splitSlash path)

/-- What is in the tree at a path, whatever the permissions; the empty path
denotes nothing. -/
def World.lookup (w : World) (path : Str) : Except Errno Node :=
  match path with
  | [] => Except.error Errno.ENOENT
  | _ :: _ => Node.find w.root (w.locate path)

/-- The node a path resolves to for the process. -/
def World.resolve (w : World) (path : Str) : Except Errno Node :=
  match pathError path with
  | some e => Except.error e
  | none => Node.resolve w.privileged w.root (w.locate path)

/-- Go `os.Stat`. -/
def Stat (w : World) (path : Str) : Except Errno FileInfo :=
  match w.resolve path with
  | Except.error e => Except.error e
  | Except.ok n => n.info

/-- Go `os.ReadFile`: the file has to resolve and the process needs the read
permission; a directory cannot be read as a file. -/
def ReadFile (w : World) (path : Str) : Except Errno Str :=
  match w.resolve path with
  | Except.error e => Except.error e
  | Except.ok (Node.file m d) =>
    if mayRead w.privileged m then Except.ok d else Except.error Errno.EACCES
  | Except.ok (Node.dir m _) =>
    if mayRead w.privileged m then Except.error Errno.EISDIR else Except.error Errno.EACCES
  | Except.ok Node.absent => Except.error Errno.ENOENT

/-- Whether the process may read the regular file at a path. -/
def World.readable (w : World) (path : Str) : Bool :=
  match w.lookup path with
  | Except.ok (Node.file m _) => mayRead w.privileged m
  | _ => false

/-- Whether the last non-empty element of a path is a name. -/
def lastIsName (path : Str) : Bool :=
  match (elemsOf path).getLast? with
  | some c => isName c
  | none => false

/-- Create a directory at a location whose last step is a name: the entry has
to be free, and its parent a directory that the process may search and
write. -/
def mkdirAt (privileged : Bool) (root : Node) (loc : Loc) (mode : Mode) : Except Errno Node :=
  match Node.resolve privileged root loc with
  | Except.ok _ => Except.error Errno.EEXIST
  | Except.error Errno.ENOENT =>
    match Node.resolve privileged root loc.dropLast with
    | Except.error e => Except.error e
    | Except.ok (Node.dir pm _) =>
      if mayWrite privileged pm then Except.ok (Node.update (fun _ => emptyDir mode) root loc)
      else Except.error Errno.EACCES
    | Except.ok _ => Except.error Errno.ENOTDIR
  | Except.error e => Except.error e

/-- The system call `mkdir` for the path made of `elems` below `base`. A path
that ends in `.`, `..` or has no element cannot be created: it exists
(`EEXIST`) or its lookup fails. -/
def mkdirElems (privileged : Bool) (umask : Nat) (root : Node) (base : Loc) (elems : List Str)
    (perm : Nat) : Except Errno Node :=
  match elems.getLast? with
  | some c =>
    if isName c then mkdirAt privileged root (walk base elems) (newMode perm umask)
    else
      match Node.resolve privileged root (walk base elems) with
      | Except.error e => Except.error e
      | Except.ok _ => Except.error Errno.EEXIST
  | none =>
    match Node.resolve privileged root (walk base elems) with
    | Except.error e => Except.error e
    | Except.ok _ => Except.error Errno.EEXIST

/-- Walking down to a location the process is not stopped before the end:
every step on the way is a missing entry or a directory that the process may
search, entered by a name that is not too long. -/
def wayClear (privileged : Bool) : Node → Loc → Bool
  | _, [] => true
  | Node.dir m kids, c :: rest =>
    maySearch privileged m && !nameTooLong c && wayClear privileged (kids c) rest
  | Node.file _ _, _ :: _ => false
  | Node.absent, _ :: _ => true

/-- The first step of `os.MkdirAll`: when the path can be stat-ed the call is
over, with success for a directory and `ENOTDIR` otherwise. -/
def fastPath (privileged : Bool) (root : Node) (loc : Loc) : Option (Except Errno Unit) :=
  match statAt privileged root loc with
  | Except.ok info => some (if info.isDir then Except.ok () else Except.error Errno.ENOTDIR)
  | Except.error _ => none

/-- The last step of `os.MkdirAll`: `mkdir` for the path itself; when that
fails and the path is a directory all the same, the call succeeds. -/
def mkdirLast (privileged : Bool) (umask : Nat) (base : Loc) (perm : Nat) (elems : List Str)
    (root : Node) : Except Errno Unit × Node :=
  match mkdirElems privileged umask root base elems perm with
  | Except.ok root1 => (Except.ok (), root1)
  | Except.error e =>
    match statAt privileged root (walk base elems) with
    | Except.ok info => if info.isDir then (Except.ok (), root) else (Except.error e, root)
    | Except.error _ => (Except.error e, root)

/-- Go `os.MkdirAll` on the elements of a path, last element first. If the path
can be stat-ed the call is over; otherwise the parent path (when the path has
one) is created first, then the directory itself. The tree is returned also on
failure, since the parents made so far stay. -/
def mkdirAllRev (privileged : Bool) (umask : Nat) (base : Loc) (perm : Nat) :
    List Str → Node → Except Errno Unit × Node
  | [], root =>
    match fastPath privileged root (walk base []) with
    | some r => (r, root)
    | none => mkdirLast privileged umask base perm [] root
  | c :: up, root =>
    match fastPath privileged root (walk base (c :: up).reverse) with
    | some r => (r, root)
    | none =>
      match (if up = [] then (Except.ok (), root)
        else mkdirAllRev privileged umask base perm up root) with
      | (Except.error e, root1) => (Except.error e, root1)
      | (Except.ok (), root1) => mkdirLast privileged umask base perm (c :: up).reverse root1

/-- The parent path that `os.MkdirAll` creates first: the path without its
trailing separators, its last element and the separator before that element;
there is none when nothing or only the root is left. -/
def parentOf (path : Str) : Option Str :=
  match ((path.reverse.dropWhile (fun c => c = '/')).dropWhile (fun c => c ≠ '/')) with
  | _ :: c :: rest => some (c :: rest).reverse
  | _ => none

/-- Go `os.MkdirAll` for a path that the system refuses with the error `e`, so
that neither the stat nor the `mkdir` of the path itself can succeed: the
parent path is created first, by `os.MkdirAll` again, and when that has
succeeded the call fails with `e`. The number bounds the depth of the
recursion. -/
def refusedAll (perm : Nat) : Nat → World → Str → Errno → Except Errno Unit × World
  | 0, w, _, e => (Except.error e, w)
  | n + 1, w, path, e =>
    match parentOf path with
    | none => (Except.error e, w)
    | some par =>
      match pathError par with
      | some e1 => refusedAll perm n w par e1
      | none =>
        match mkdirAllRev w.privileged w.umask (w.base par) perm (elemsOf par).reverse w.root with
        | (Except.ok (), root1) => (Except.error e, w.setRoot root1)
        | (Except.error e2, root1) => (Except.error e2, w.setRoot root1)

/-- Go `os.MkdirAll`. -/
def MkdirAll (w : World) (path : Str) (perm : Nat) : Except Errno Unit × World :=
  match pathError path with
  | some e => refusedAll perm path.length w path e
  | none =>
    match mkdirAllRev w.privileged w.umask (w.base path) perm (elemsOf path).reverse w.root with
    | (r, root1) => (r, w.setRoot root1)

/-- Go `os.WriteFile`: open with `O_WRONLY|O_CREATE|O_TRUNC` and write. A
missing file is created, owned by the process, with the requested permission
bits less the mask, when the process may write its directory; an existing file
is truncated and keeps its mode, when the process may write it; a directory
cannot be opened for writing. -/
def WriteFile (w : World) (name : Str) (data : Str) (perm : Nat) : Except Errno Unit × World :=
  match pathError name with
  | some e => (Except.error e, w)
  | none =>
    if lastIsName name then
      match Node.resolve w.privileged w.root (w.locate name) with
      | Except.ok (Node.dir _ _) => (Except.error Errno.EISDIR, w)
      | Except.ok (Node.file m _) =>
        if mayWrite w.privileged m then
          (Except.ok (), w.setRoot (Node.update (fun _ => Node.file m data) w.root (w.locate name)))
        else (Except.error Errno.EACCES, w)
      | Except.ok Node.absent => (Except.error Errno.ENOENT, w)
      | Except.error Errno.ENOENT =>
        match Node.resolve w.privileged w.root (w.locate name).dropLast with
        | Except.ok (Node.dir pm _) =>
          if mayWrite w.privileged pm then
            (Except.ok (), w.setRoot
              (Node.update (fun _ => Node.file (newMode perm w.umask) data) w.root (w.locate name)))
          else (Except.error Errno.EACCES, w)
        | _ => (Except.error Errno.ENOENT, w)
      | Except.error e => (Except.error e, w)
    else
      match Node.resolve w.privileged w.root (w.locate name) with
      | Except.error e => (Except.error e, w)
      | Except.ok (Node.dir _ _) => (Except.error Errno.EISDIR, w)
      | Except.ok _ => (Except.error Errno.ENOTDIR, w)

/-- Whether a path is `.` or ends in `/.`, as Go `os.endsWithDot`. -/
def endsWithDot (path : Str) : Bool :=
  path = dot || (dirPart path ≠ [] && path = dirPart path ++ dot)

/-- Remove everything inside a directory that the process may read, write and
search; anything else stays as it is. -/
def clearIfAllowed (privileged : Bool) : Node → Node
  | Node.dir m kids =>
    if mayRead privileged m && mayWrite privileged m && maySearch privileged m then emptyDir m
    else Node.dir m kids
  | other => other

/-- Go `os.RemoveAll`. Nothing is done for the empty path and for a path that
does not exist; the path `.` is refused. A path whose last element is a name
is removed with everything below it when the process may write the directory
that holds it; if it may not, the call fails after the content of the path has
been removed as far as the process is allowed to. The root directory and a
path that ends in `..` cannot be removed: the content goes and the call
fails. -/
def RemoveAll (w : World) (path : Str) : Except Errno Unit × World :=
  match path with
  | [] => (Except.ok (), w)
  | _ :: _ =>
    if endsWithDot path then (Except.error Errno.EINVAL, w)
    else
      match pathError path with
      | some e => (Except.error e, w)
      | none =>
        match Node.resolve w.privileged w.root (w.locate path) with
        | Except.error Errno.ENOENT => (Except.ok (), w)
        | Except.error e => (Except.error e, w)
        | Except.ok _ =>
          if lastIsName path then
            match Node.resolve w.privileged w.root (w.locate path).dropLast with
            | Except.ok (Node.dir pm _) =>
              if mayWrite w.privileged pm then
                (Except.ok (),
                  w.setRoot (Node.update (fun _ => Node.absent) w.root (w.locate path)))
              else
                (Except.error Errno.EACCES,
                  w.setRoot (Node.update (clearIfAllowed w.privileged) w.root (w.locate path)))
            | _ => (Except.error Errno.ENOENT, w)
          else
            (Except.error (if w.locate path = [] then Errno.EBUSY else Errno.ENOTEMPTY),
              w.setRoot (Node.update (clearIfAllowed w.privileged) w.root (w.locate path)))

/-! ## encoding/json -/

/-- The two functions of `encoding/json` the package uses, at the type
`types.ServerConfig`. -/
structure Codec (Cfg : Type) where
  MarshalIndent : Cfg → Str → Str → Except Error Str
  Unmarshal : Str → Except Error Cfg

/-! ## Package config -/

/-- Go string literals of the package. -/
def strDaytona : Str := "daytona".toList

def strServer : Str := "server".toList

def strLogs : Str := "logs".toList

def strLog : Str := "log".toList

def strConfigJson : Str := "config.json".toList

/-- The path `GetConfigDir` computes from the user configuration directory. -/
def configDirPath (userConfigDir : Str) : Str := Join [userConfigDir, strDaytona, strServer]

/-- The path `configFilePath` computes. -/
def configFile (userConfigDir : Str) : Str := Join [configDirPath userConfigDir, strConfigJson]

/-- The path `GetWorkspaceLogsDir` computes. -/
def logsDirPath (userConfigDir : Str) : Str := Join [configDirPath userConfigDir, strLogs]

/-- The path `DeleteWorkspaceLogs` removes. -/
def workspaceDir (userConfigDir workspaceId : Str) : Str :=
  Join [logsDirPath userConfigDir, workspaceId]

/-- The path `GetWorkspaceLogFilePath` computes. -/
def workspaceLog (userConfigDir workspaceId : Str) : Str :=
  Join [logsDirPath userConfigDir, workspaceId, strLog]

/-- The directory of the log file of a project. -/
def projectDir (userConfigDir workspaceId projectId : Str) : Str :=
  Join [logsDirPath userConfigDir, workspaceId, projectId]

/-- The path `GetProjectLogFilePath` computes. -/
def projectLog (userConfigDir workspaceId projectId : Str) : Str :=
  Join [logsDirPath userConfigDir, workspaceId, projectId, strLog]

/-- Go `GetConfigDir`. -/
def GetConfigDir (w : World) : Except Error Str :=
  match w.userConfigDir with
  | Except.error err => Except.error err
  | Except.ok userConfigDir => Except.ok (Join [userConfigDir, strDaytona, strServer])

/-- Go `configFilePath`. -/
def configFilePath (w : World) : Except Error Str :=
  match GetConfigDir w with
  | Except.error err => Except.error err
  | Except.ok configDir => Except.ok (Join [configDir, strConfigJson])

/-- Go `GetConfig`. -/
def GetConfig {Cfg : Type} (J : Codec Cfg) (w : World) : Except Error Cfg × World :=
  match configFilePath w with
  | Except.error err => (Except.error err, w)
  | Except.ok configFilePath =>
    match Stat w configFilePath with
    | Except.error e =>
      if IsNotExist (Error.sys e) then (Except.error (Error.msg "config file does not exist"), w)
      else (Except.error (Error.sys e), w)
    | Except.ok _ =>
      match ReadFile w configFilePath with
      | Except.error e => (Except.error (Error.sys e), w)
      | Except.ok configContent =>
        match J.Unmarshal configContent with
        | Except.error err => (Except.error err, w)
        | Except.ok c => (Except.ok c, w)

/-- Go `Save`. -/
def Save {Cfg : Type} (J : Codec Cfg) (c : Cfg) (w : World) : Except Error Unit × World :=
  match configFilePath w with
  | Except.error err => (Except.error err, w)
  | Except.ok configFilePath =>
    match J.MarshalIndent c [] [' ', ' '] with
    | Except.error err => (Except.error err, w)
    | Except.ok configContent =>
      match MkdirAll w (Dir configFilePath) 0o700 with
      | (Except.error e, w1) => (Except.error (Error.sys e), w1)
      | (Except.ok (), w1) =>
        match WriteFile w1 configFilePath configContent 0o600 with
        | (Except.error e, w2) => (Except.error (Error.sys e), w2)
        | (Except.ok (), w2) => (Except.ok (), w2)

/-- Go `GetWorkspaceLogsDir`. -/
def GetWorkspaceLogsDir (w : World) : Except Error Str :=
  match GetConfigDir w with
  | Except.error err => Except.error err
  | Except.ok configDir => Except.ok (Join [configDir, strLogs])

/-- Go `GetWorkspaceLogFilePath`. -/
def GetWorkspaceLogFilePath (workspaceId : Str) (w : World) : Except Error Str × World :=
  match GetWorkspaceLogsDir w with
  | Except.error err => (Except.error err, w)
  | Except.ok projectLogsDir =>
    let filePath := Join [projectLogsDir, workspaceId, strLog]
    match MkdirAll w (Dir filePath) 0o755 with
    | (Except.error e, w1) => (Except.error (Error.sys e), w1)
    | (Except.ok (), w1) => (Except.ok filePath, w1)

/-- Go `DeleteWorkspaceLogs`. -/
def DeleteWorkspaceLogs (workspaceId : Str) (w : World) : Except Error Unit × World :=
  match GetWorkspaceLogsDir w with
  | Except.error err => (Except.error err, w)
  | Except.ok logsDir =>
    let workspaceLogsDir := Join [logsDir, workspaceId]
    match Stat w workspaceLogsDir with
    | Except.error e =>
      if IsNotExist (Error.sys e) then (Except.ok (), w)
      else (Except.error (Error.sys e), w)
    | Except.ok _ =>
      match RemoveAll w workspaceLogsDir with
      | (Except.error e, w1) => (Except.error (Error.sys e), w1)
      | (Except.ok (), w1) => (Except.ok (), w1)

/-- Go `GetProjectLogFilePath`. -/
def GetProjectLogFilePath (workspaceId : Str) (projectId : Str) (w : World) :
    Except Error Str × World :=
  match GetWorkspaceLogsDir w with
  | Except.error err => (Except.error err, w)
  | Except.ok projectLogsDir =>
    let filePath := Join [projectLogsDir, workspaceId, projectId, strLog]
    match MkdirAll w (Dir filePath) 0o755 with
    | (Except.error e, w1) => (Except.error (Error.sys e), w1)
    | (Except.ok (), w1) => (Except.ok filePath, w1)

/-- How the package initialiser ends: it returns, or `log.Fatal` terminates the
process with a message. -/
inductive InitResult where
  | returned (w : World)
  | fatal (message : String) (w : World)

/-- Go `init`. The function `getDefaultConfig` is declared outside this file and
is taken as a parameter; it may read and change the state. -/
def init {Cfg : Type} (J : Codec Cfg) (getDefaultConfig : World → Except Error Cfg × World)
    (w : World) : InitResult :=
  match GetConfig J w with
  | (Except.ok _, w1) => InitResult.returned w1
  | (Except.error _, w1) =>
    match getDefaultConfig w1 with
    | (Except.error _, w2) => InitResult.fatal "failed to get default config" w2
    | (Except.ok c, w2) =>
      match Save J c w2 with
      | (Except.error _, w3) => InitResult.fatal "failed to save default config file" w3
      | (Except.ok (), w3) => InitResult.returned w3


/-! ## Concrete states

Small concrete inputs on which the functions are evaluated. -/

/-- A string literal as a Go string. -/
def lit (s : String) : Str := s.toList

/-- A codec for a configuration record that is a single boolean, written as
`true` or `false`; anything else does not decode. -/
def sampleCodec : Codec Bool where
  MarshalIndent := fun b _ _ => Except.ok (if b then lit "true" else lit "false")
  Unmarshal := fun data =>
    if data = lit "true" then Except.ok true
    else if data = lit "false" then Except.ok false
    else Except.error (Error.msg "invalid character")

/-- A directory that holds one entry. -/
def dirWith (mode : Mode) (name : Str) (child : Node) : Node :=
  Node.dir mode (fun d => if d = name then child else Node.absent)

/-- A state with the directory `/home/u/.config` and nothing else, for an
unprivileged process that owns `/home/u` and what is below it; the user
configuration directory is `/home/u/.config`, the mask is `022`. -/
def sampleWorld : World where
  root := dirWith ⟨0o755, Who.other⟩ (lit "home") (dirWith ⟨0o755, Who.other⟩ (lit "u")
    (dirWith ⟨0o700, Who.user⟩ (lit ".config") (emptyDir ⟨0o700, Who.user⟩)))
  cwd := []
  umask := 0o022
  privileged := false
  userConfigDir := Except.ok (lit "/home/u/.config")

/-- The user configuration directory of `sampleWorld`. -/
def sampleDir : Str := lit "/home/u/.config"

/-- The state `sampleWorld` with a regular file at `/home/u/.config/daytona`. -/
def blockedWorld : World :=
  (WriteFile sampleWorld (lit "/home/u/.config/daytona") [] 0o644).2

/-- The state `sampleWorld` with a regular file at
`/home/u/.config/daytona/server/logs`. -/
def blockedLogsWorld : World :=
  (WriteFile (MkdirAll sampleWorld (lit "/home/u/.config/daytona/server") 0o700).2
    (lit "/home/u/.config/daytona/server/logs") [] 0o644).2

/-- The state `sampleWorld` after a configuration has been saved and its file
has been overwritten with text that is not JSON. -/
def corruptWorld : World :=
  (WriteFile (Save sampleCodec true sampleWorld).2 (configFile sampleDir) (lit "not json") 0o600).2

/-- The state `sampleWorld` with a `config.json` of mode 0200: its owner, the
process, may write it and may not read it. -/
def writeOnlyWorld : World :=
  (WriteFile (MkdirAll sampleWorld (lit "/home/u/.config/daytona/server") 0o700).2
    (configFile sampleDir) (lit "false") 0o200).2

/-- A codec that loses the record: every record is encoded as `null`, and
`null` decodes to the record `false`, as `encoding/json` does for a record
whose only field is excluded from the encoding. -/
def lossyCodec : Codec Bool where
  MarshalIndent := fun _ _ _ => Except.ok (lit "null")
  Unmarshal := fun data =>
    if data = lit "null" then Except.ok false else Except.error (Error.msg "invalid character")

/-- A `getDefaultConfig` that returns the record `true` and leaves the state
alone. -/
def sampleDefault (w : World) : Except Error Bool × World := (Except.ok true, w)

/-- The state `sampleWorld` after a configuration has been saved, the log
directory of workspace `v1` has been made and its log file has been written. -/
def busyWorld : World :=
  (WriteFile (GetWorkspaceLogFilePath (lit "v1") (Save sampleCodec true sampleWorld).2).2
    (workspaceLog sampleDir (lit "v1")) (lit "started") 0o644).2

/-- The state `busyWorld` with the mask 0100, which takes the search bit of the
owner from every directory that is made. -/
def maskedWorld : World :=
  { busyWorld with umask := 0o100 }

/-- The state `busyWorld` after the log directory of project `p1` of workspace
`w1` has been made and its log file has been written. -/
def fullWorld : World :=
  (WriteFile (GetProjectLogFilePath (lit "w1") (lit "p1") busyWorld).2
    (projectLog sampleDir (lit "w1") (lit "p1")) (lit "built") 0o644).2

/-! ## Notions used in the proofs -/

/-- The invariant of the scan of `filepath.Clean`: the names written are names
without `/`, and a rooted path has no leading `..`. -/
def CleanState.Good (rooted : Bool) (st : CleanState) : Prop :=
  (∀ x ∈ st.names, isName x = true ∧ '/' ∉ x) ∧ (rooted = true → st.ups = 0)

/-- The state `filepath.Clean` reaches at the end of a path. -/
def cleanScan (path : Str) : CleanState :=
  (splitSlash path).foldl (cleanStep (isRooted path)) ⟨0, []⟩

/-- Two states that differ in the filesystem tree only. -/
def SameEnv (w w1 : World) : Prop :=
  w1.cwd = w.cwd ∧ w1.umask = w.umask ∧ w1.privileged = w.privileged ∧
    w1.userConfigDir = w.userConfigDir

/-- The elements of a cleaned path, read from the last to the first: names,
then elements that are not names. -/
def RevShape : List Str → Prop
  | [] => True
  | c :: up => (isName c = true ∧ RevShape up) ∨ (∀ x ∈ c :: up, isName x = false)

/-! ## Lemmas on paths -/

theorem splitSlash_ne_nil (s : Str) : splitSlash s ≠ [] := by
  induction s with
  | nil => simp [splitSlash]
  | cons c cs ih =>
    unfold splitSlash
    split_ifs
    · simp
    · cases h : splitSlash cs <;> simp

theorem splitSlash_append_slash (a b : Str) :
    splitSlash (a ++ '/' :: b) = splitSlash a ++ splitSlash b := by
  induction a with
  | nil => simp [splitSlash]
  | cons c a ih =>
    by_cases hc : c = '/'
    · simp [splitSlash, hc, ih]
    · have h1 : splitSlash (c :: (a ++ '/' :: b)) =
          (match splitSlash (a ++ '/' :: b) with
            | [] => [[c]]
            | x :: xs => (c :: x) :: xs) := by
        rw [splitSlash]; simp [hc]
      have h2 : splitSlash (c :: a) =
          (match splitSlash a with
            | [] => [[c]]
            | x :: xs => (c :: x) :: xs) := by
        rw [splitSlash]; simp [hc]
      rw [List.cons_append, h1, h2, ih]
      cases h : splitSlash a with
      | nil => exact absurd h (splitSlash_ne_nil a)
      | cons x xs => simp

theorem splitSlash_noSlash (c : Str) (h : '/' ∉ c) : splitSlash c = [c] := by
  induction c with
  | nil => simp [splitSlash]
  | cons x xs ih =>
    have hx : x ≠ '/' := fun e => h (by simp [e])
    have hxs : '/' ∉ xs := fun e => h (by simp [e])
    rw [splitSlash]; simp [hx, ih hxs]

theorem splitSlash_mem_noSlash (s : Str) : ∀ x ∈ splitSlash s, '/' ∉ x := by
  induction s with
  | nil => simp [splitSlash]
  | cons c cs ih =>
    by_cases hc : c = '/'
    · intro x hx
      rw [splitSlash] at hx
      simp [hc] at hx
      rcases hx with rfl | hx
      · simp
      · exact ih x hx
    · intro x hx
      rw [splitSlash] at hx
      simp only [hc, if_false] at hx
      cases h : splitSlash cs with
      | nil => exact absurd h (splitSlash_ne_nil cs)
      | cons y ys =>
        rw [h] at hx
        simp at hx
        rcases hx with rfl | hx
        · have := ih y (by simp [h])
          intro hm
          simp at hm
          rcases hm with hm | hm
          · exact hc hm.symm
          · exact this hm
        · exact ih x (by simp [h, hx])

theorem splitSlash_joinSlash (es : List Str) (hne : es ≠ []) (h : ∀ x ∈ es, '/' ∉ x) :
    splitSlash (joinSlash es) = es := by
  induction es with
  | nil => exact absurd rfl hne
  | cons x xs ih =>
    cases xs with
    | nil => simpa [joinSlash] using splitSlash_noSlash x (h x (by simp))
    | cons y ys =>
      rw [joinSlash, splitSlash_append_slash, ih (by simp) (fun z hz => h z (by simp [hz])),
        splitSlash_noSlash x (h x (by simp))]
      rfl

theorem splitSlash_joinSlash_map (a : Str) (es : List Str) :
    splitSlash (joinSlash (a :: es)) = splitSlash a ++ es.flatMap splitSlash := by
  induction es generalizing a with
  | nil => simp [joinSlash]
  | cons y ys ih =>
    rw [joinSlash, splitSlash_append_slash, ih]
    simp


theorem walk_append (B : Loc) (xs ys : List Str) : walk B (xs ++ ys) = walk (walk B xs) ys := by
  simp [walk, List.foldl_append]

theorem walk_cons (B : Loc) (c : Str) (cs : List Str) : walk B (c :: cs) = walk (walkStep B c) cs :=
  rfl

theorem walk_nil (B : Loc) : walk B [] = B := rfl

theorem elem_cases (c : Str) : c = [] ∨ c = dot ∨ c = dotdot ∨ isName c = true := by
  by_cases h1 : c = []
  · exact Or.inl h1
  · by_cases h2 : c = dot
    · exact Or.inr (Or.inl h2)
    · by_cases h3 : c = dotdot
      · exact Or.inr (Or.inr (Or.inl h3))
      · exact Or.inr (Or.inr (Or.inr (by simp [isName, h1, h2, h3])))

theorem isName_ne (c : Str) (h : isName c = true) : c ≠ [] ∧ c ≠ dot ∧ c ≠ dotdot := by
  simpa [isName, and_assoc] using h

theorem walkStep_nil (B : Loc) : walkStep B [] = B := by simp [walkStep]

theorem walkStep_dot (B : Loc) : walkStep B dot = B := by simp [walkStep, dot]

theorem walkStep_dotdot (B : Loc) : walkStep B dotdot = B.dropLast := by
  simp [walkStep, dotdot, dot]

theorem walkStep_name (B : Loc) (c : Str) (h : isName c = true) : walkStep B c = B ++ [c] := by
  obtain ⟨h1, h2, h3⟩ := isName_ne c h
  simp [walkStep, h1, h2, h3]

theorem walk_names (B : Loc) (ns : List Str) (h : ∀ x ∈ ns, isName x = true) :
    walk B ns = B ++ ns := by
  induction ns generalizing B with
  | nil => simp [walk]
  | cons n ns ih =>
    rw [walk_cons, walkStep_name B n (h n (by simp)), ih _ (fun x hx => h x (by simp [hx]))]
    simp

theorem walk_filter (B : Loc) (cs : List Str) :
    walk B (cs.filter (fun c => c ≠ [])) = walk B cs := by
  induction cs generalizing B with
  | nil => rfl
  | cons c cs ih =>
    by_cases hc : c = []
    · have h2 : (c :: cs).filter (fun c => c ≠ []) = cs.filter (fun c => c ≠ []) := by
        simp [hc]
      rw [walk_cons, h2, ih, hc, walkStep_nil]
    · have h2 : (c :: cs).filter (fun c => c ≠ []) = c :: cs.filter (fun c => c ≠ []) := by
        simp [hc]
      rw [walk_cons, h2, walk_cons, ih]

theorem cleanStep_nil (r : Bool) (st : CleanState) : cleanStep r st [] = st := by
  simp [cleanStep]

theorem cleanStep_dot (r : Bool) (st : CleanState) : cleanStep r st dot = st := by
  simp [cleanStep, dot]

theorem cleanStep_name (r : Bool) (st : CleanState) (c : Str) (h : isName c = true) :
    cleanStep r st c = ⟨st.ups, st.names ++ [c]⟩ := by
  obtain ⟨h1, h2, h3⟩ := isName_ne c h
  simp [cleanStep, h1, h2, h3]

theorem cleanStep_dotdot_cons (r : Bool) (st : CleanState) (h : st.names ≠ []) :
    cleanStep r st dotdot = ⟨st.ups, st.names.dropLast⟩ := by
  cases hn : st.names with
  | nil => exact absurd hn h
  | cons n ns => simp [cleanStep, dotdot, dot, hn]

theorem cleanStep_dotdot_rooted (st : CleanState) (h : st.names = []) :
    cleanStep true st dotdot = st := by
  simp [cleanStep, dotdot, dot, h]

theorem cleanStep_dotdot_relative (st : CleanState) (h : st.names = []) :
    cleanStep false st dotdot = ⟨st.ups + 1, st.names⟩ := by
  simp [cleanStep, dotdot, dot, h]

theorem cleanStep_good (r : Bool) (st : CleanState) (c : Str) (hst : st.Good r) (hc : '/' ∉ c) :
    (cleanStep r st c).Good r := by
  rcases elem_cases c with h | h | h | h
  · rw [h, cleanStep_nil]; exact hst
  · rw [h, cleanStep_dot]; exact hst
  · subst h
    by_cases hn : st.names = []
    · cases r with
      | true => rw [cleanStep_dotdot_rooted st hn]; exact hst
      | false =>
        rw [cleanStep_dotdot_relative st hn]
        exact ⟨hst.1, by simp⟩
    · rw [cleanStep_dotdot_cons r st hn]
      exact ⟨fun x hx => hst.1 x (List.mem_of_mem_dropLast hx), hst.2⟩
  · rw [cleanStep_name r st c h]
    refine ⟨?_, hst.2⟩
    intro x hx
    simp at hx
    rcases hx with hx | rfl
    · exact hst.1 x hx
    · exact ⟨h, hc⟩

theorem foldl_cleanStep_good (r : Bool) (cs : List Str) (st : CleanState) (hst : st.Good r)
    (hcs : ∀ c ∈ cs, '/' ∉ c) : (cs.foldl (cleanStep r) st).Good r := by
  induction cs generalizing st with
  | nil => exact hst
  | cons c cs ih =>
    exact ih _ (cleanStep_good r st c hst (hcs c (by simp))) (fun x hx => hcs x (by simp [hx]))

theorem walk_cleanStep (r : Bool) (B : Loc) (hB : r = true → B = []) (st : CleanState)
    (hst : st.Good r) (c : Str) :
    walk B (cleanStep r st c).elems = walk B (st.elems ++ [c]) := by
  have hnames : ∀ x ∈ st.names, isName x = true := fun x hx => (hst.1 x hx).1
  rw [walk_append, walk_cons, walk_nil]
  rcases elem_cases c with h | h | h | h
  · rw [h, cleanStep_nil, walkStep_nil]
  · rw [h, cleanStep_dot, walkStep_dot]
  · subst h
    rw [walkStep_dotdot]
    by_cases hn : st.names = []
    · cases r with
      | true =>
        rw [cleanStep_dotdot_rooted st hn]
        have hu := hst.2 rfl
        have hb := hB rfl
        simp [CleanState.elems, hn, hu, hb, walk]
      | false =>
        rw [cleanStep_dotdot_relative st hn]
        simp only [CleanState.elems, hn, List.append_nil]
        rw [List.replicate_succ', walk_append, walk_cons, walk_nil, walkStep_dotdot]
    · rw [cleanStep_dotdot_cons r st hn]
      simp only [CleanState.elems]
      rw [walk_append, walk_append, walk_names _ st.names hnames,
        walk_names _ st.names.dropLast (fun x hx => hnames x (List.mem_of_mem_dropLast hx)),
        List.dropLast_append_of_ne_nil _ hn]
  · rw [walkStep_name _ c h, cleanStep_name r st c h]
    simp only [CleanState.elems]
    rw [← List.append_assoc, walk_append _ _ [c], walk_cons, walk_nil, walkStep_name _ c h]

theorem walk_foldl_cleanStep (r : Bool) (B : Loc) (hB : r = true → B = []) (cs : List Str)
    (hcs : ∀ c ∈ cs, '/' ∉ c) (st : CleanState) (hst : st.Good r) :
    walk B (cs.foldl (cleanStep r) st).elems = walk B (st.elems ++ cs) := by
  induction cs generalizing st with
  | nil => simp
  | cons c cs ih =>
    have h1 := ih (fun x hx => hcs x (by simp [hx])) (cleanStep r st c)
      (cleanStep_good r st c hst (hcs c (by simp)))
    rw [List.foldl_cons, h1, walk_append, walk_cleanStep r B hB st hst c, ← walk_append]
    simp


theorem Clean_eq_render (path : Str) (h : path ≠ []) :
    Clean path = render (isRooted path) (cleanScan path).elems := by
  cases path with
  | nil => exact absurd rfl h
  | cons c cs => rfl

theorem cleanScan_good (path : Str) : (cleanScan path).Good (isRooted path) :=
  foldl_cleanStep_good _ _ _ ⟨by simp, by simp⟩ (splitSlash_mem_noSlash path)

theorem isName_noSlash_of_dotdot : '/' ∉ dotdot ∧ dotdot ≠ [] := by
  constructor <;> decide

theorem good_elems (r : Bool) (st : CleanState) (h : st.Good r) :
    ∀ x ∈ st.elems, x ≠ [] ∧ '/' ∉ x := by
  intro x hx
  simp only [CleanState.elems, List.mem_append] at hx
  rcases hx with hx | hx
  · have := List.eq_of_mem_replicate hx
    subst this
    exact ⟨isName_noSlash_of_dotdot.2, isName_noSlash_of_dotdot.1⟩
  · exact ⟨(isName_ne x (h.1 x hx).1).1, (h.1 x hx).2⟩

theorem splitSlash_slash_cons (s : Str) : splitSlash ('/' :: s) = [] :: splitSlash s := by
  simp [splitSlash]

theorem isRooted_joinSlash (x : Str) (xs : List Str) (hx : x ≠ []) :
    isRooted (joinSlash (x :: xs)) = isRooted x := by
  cases x with
  | nil => exact absurd rfl hx
  | cons c cs =>
    cases xs with
    | nil => rfl
    | cons y ys => rfl

theorem isRooted_of_noSlash (x : Str) (h : '/' ∉ x) : isRooted x = false := by
  cases x with
  | nil => rfl
  | cons c cs =>
    have : c ≠ '/' := fun e => h (by simp [e])
    simp [isRooted, this]

theorem isRooted_append (a b : Str) (h : a ≠ []) : isRooted (a ++ b) = isRooted a := by
  cases a with
  | nil => exact absurd rfl h
  | cons c cs => rfl

theorem isRooted_render (r : Bool) (es : List Str) (h : ∀ x ∈ es, x ≠ [] ∧ '/' ∉ x) :
    isRooted (render r es) = r := by
  cases r with
  | true => simp [render, isRooted]
  | false =>
    cases es with
    | nil => simp [render, isRooted, dot]
    | cons x xs =>
      simp only [render, Bool.false_eq_true, if_false]
      rw [isRooted_joinSlash x xs (h x (by simp)).1]
      exact isRooted_of_noSlash x (h x (by simp)).2

theorem joinSlash_ne_nil (x : Str) (xs : List Str) (hx : x ≠ []) : joinSlash (x :: xs) ≠ [] := by
  cases x with
  | nil => exact absurd rfl hx
  | cons c cs =>
    cases xs with
    | nil => simp [joinSlash]
    | cons y ys => simp [joinSlash]

theorem render_ne_nil (r : Bool) (es : List Str) (h : ∀ x ∈ es, x ≠ [] ∧ '/' ∉ x) :
    render r es ≠ [] := by
  cases r with
  | true => simp [render]
  | false =>
    cases es with
    | nil => simp [render, dot]
    | cons x xs =>
      simp only [render, Bool.false_eq_true, if_false]
      exact joinSlash_ne_nil x xs (h x (by simp)).1

theorem Clean_ne_nil (path : Str) : Clean path ≠ [] := by
  cases path with
  | nil => simp [Clean, dot]
  | cons c cs =>
    rw [Clean_eq_render _ (by simp)]
    exact render_ne_nil _ _ (good_elems _ _ (cleanScan_good _))

theorem isRooted_Clean (path : Str) : isRooted (Clean path) = isRooted path := by
  cases path with
  | nil => simp [Clean, dot, isRooted]
  | cons c cs =>
    rw [Clean_eq_render _ (by simp)]
    exact isRooted_render _ _ (good_elems _ _ (cleanScan_good _))

theorem splitSlash_render (r : Bool) (es : List Str) (h : ∀ x ∈ es, x ≠ [] ∧ '/' ∉ x) :
    splitSlash (render r es) =
      if r then (if es = [] then [[], []] else [] :: es)
      else (if es = [] then [dot] else es) := by
  cases r with
  | true =>
    simp only [render, if_true]
    rw [splitSlash_slash_cons]
    by_cases he : es = []
    · simp [he, joinSlash, splitSlash]
    · simp only [he, if_false]
      rw [splitSlash_joinSlash es he (fun x hx => (h x hx).2)]
  | false =>
    cases es with
    | nil => simp [render, dot, splitSlash]
    | cons x xs =>
      simp only [render, Bool.false_eq_true, if_false]
      rw [splitSlash_joinSlash _ (by simp) (fun y hy => (h y hy).2)]
      simp

theorem walk_splitSlash_render (B : Loc) (r : Bool) (es : List Str)
    (h : ∀ x ∈ es, x ≠ [] ∧ '/' ∉ x) : walk B (splitSlash (render r es)) = walk B es := by
  rw [splitSlash_render r es h]
  cases r with
  | true =>
    by_cases he : es = []
    · simp [he, walk_cons, walkStep_nil, walk_nil]
    · simp [he, walk_cons, walkStep_nil]
  | false =>
    by_cases he : es = []
    · simp [he, walk_cons, walkStep_dot, walk_nil]
    · simp [he]

theorem base_eq_nil (w : World) (path : Str) (h : isRooted path = true) : w.base path = [] := by
  simp [World.base, h]

theorem base_congr (w : World) (p q : Str) (h : isRooted p = isRooted q) : w.base p = w.base q := by
  simp [World.base, h]

/-- Cleaning a path does not change the location it denotes. -/
theorem locate_Clean (w : World) (path : Str) : w.locate (Clean path) = w.locate path := by
  cases path with
  | nil => simp [Clean, World.locate, World.base, isRooted, dot, splitSlash, walk, walkStep]
  | cons c cs =>
    have hb : w.base (Clean (c :: cs)) = w.base (c :: cs) := base_congr w _ _ (isRooted_Clean _)
    unfold World.locate
    rw [hb, Clean_eq_render _ (by simp),
      walk_splitSlash_render _ _ _ (good_elems _ _ (cleanScan_good _))]
    unfold cleanScan
    rw [walk_foldl_cleanStep _ _ (fun hr => base_eq_nil w _ hr) _ (splitSlash_mem_noSlash _) _
      ⟨by simp, by simp⟩]
    simp [CleanState.elems]

theorem locate_append_slash (w : World) (a b : Str) (ha : a ≠ []) :
    w.locate (a ++ '/' :: b) = walk (w.locate a) (splitSlash b) := by
  unfold World.locate
  rw [base_congr w (a ++ '/' :: b) a (isRooted_append a _ ha), splitSlash_append_slash,
    walk_append]

theorem Join_cons (a : Str) (es : List Str) (ha : a ≠ []) :
    Join (a :: es) = Clean (joinSlash (a :: es)) := by
  simp [Join, ha]

/-- The location of a joined path: the elements after the first are followed
from the location of the first. -/
theorem locate_Join (w : World) (a : Str) (es : List Str) (ha : a ≠ []) :
    w.locate (Join (a :: es)) = walk (w.locate a) (es.flatMap splitSlash) := by
  rw [Join_cons a es ha, locate_Clean]
  unfold World.locate
  rw [base_congr w _ a (isRooted_joinSlash a es ha), splitSlash_joinSlash_map, walk_append]

theorem Join_ne_nil (a : Str) (es : List Str) (ha : a ≠ []) : Join (a :: es) ≠ [] := by
  rw [Join_cons a es ha]
  exact Clean_ne_nil _


theorem joinSlash_snoc (es : List Str) (n : Str) (h : es ≠ []) :
    joinSlash (es ++ [n]) = joinSlash es ++ '/' :: n := by
  induction es with
  | nil => exact absurd rfl h
  | cons x xs ih =>
    cases xs with
    | nil => simp [joinSlash]
    | cons y ys =>
      have := ih (by simp)
      simp only [List.cons_append] at this ⊢
      rw [joinSlash, this, joinSlash]
      simp

theorem dirPart_noSlash (n : Str) (h : '/' ∉ n) : dirPart n = [] := by
  cases n with
  | nil => rfl
  | cons c cs =>
    have h1 : c ≠ '/' := fun e => h (by simp [e])
    have h2 : '/' ∉ cs := fun e => h (by simp [e])
    simp [dirPart, h1, h2]

theorem dirPart_append_slash (x n : Str) (h : '/' ∉ n) : dirPart (x ++ '/' :: n) = x ++ ['/'] := by
  induction x with
  | nil => simp [dirPart, h]
  | cons c cs ih =>
    simp only [List.cons_append]
    rw [dirPart]
    simp [ih]

theorem cleanScan_snoc (s n : Str) (hs : s ≠ []) (hn : isName n = true) (hn2 : '/' ∉ n) :
    cleanScan (s ++ '/' :: n) = ⟨(cleanScan s).ups, (cleanScan s).names ++ [n]⟩ := by
  unfold cleanScan
  rw [isRooted_append s _ hs, splitSlash_append_slash, splitSlash_noSlash n hn2, List.foldl_append]
  simp only [List.foldl_cons, List.foldl_nil]
  rw [cleanStep_name _ _ n hn]

theorem locate_dirPart_render (w : World) (r : Bool) (es : List Str) (n : Str)
    (h : ∀ x ∈ es, x ≠ [] ∧ '/' ∉ x) (hn : '/' ∉ n) :
    w.locate (dirPart (render r (es ++ [n]))) = walk (if r then [] else w.cwd) es := by
  by_cases he : es = []
  · subst he
    cases r with
    | true =>
      have h1 : render true ([] ++ [n]) = [] ++ '/' :: n := by simp [render, joinSlash]
      rw [h1, dirPart_append_slash _ _ hn]
      simp [World.locate, World.base, isRooted, splitSlash, walk, walkStep]
    | false =>
      have h1 : render false ([] ++ [n]) = n := by simp [render, joinSlash]
      rw [h1, dirPart_noSlash _ hn]
      simp [World.locate, World.base, isRooted, splitSlash, walk, walkStep]
  · obtain ⟨x, xs, rfl⟩ := List.exists_cons_of_ne_nil he
    cases r with
    | true =>
      have h1 : render true (x :: xs ++ [n]) = ('/' :: joinSlash (x :: xs)) ++ '/' :: n := by
        simp only [render, if_true]
        rw [joinSlash_snoc _ _ he]
        simp
      rw [h1, dirPart_append_slash _ _ hn]
      have h2 : ('/' :: joinSlash (x :: xs)) ++ ['/'] = ('/' :: joinSlash (x :: xs)) ++ '/' :: [] :=
        rfl
      rw [h2, locate_append_slash _ _ _ (by simp)]
      simp only [World.locate, World.base, isRooted, decide_True, if_true]
      rw [splitSlash_slash_cons, splitSlash_joinSlash _ he (fun y hy => (h y hy).2)]
      simp [splitSlash, walk_cons, walkStep_nil, walk_nil]
    | false =>
      have h1 : render false (x :: xs ++ [n]) = joinSlash (x :: xs) ++ '/' :: n := by
        simp only [render, Bool.false_eq_true, if_false, List.cons_append]
        have := joinSlash_snoc (x :: xs) n he
        simpa using this
      rw [h1, dirPart_append_slash _ _ hn]
      have h2 : joinSlash (x :: xs) ++ ['/'] = joinSlash (x :: xs) ++ '/' :: [] := rfl
      rw [h2, locate_append_slash _ _ _ (joinSlash_ne_nil x xs (h x (by simp)).1)]
      have h3 : isRooted (joinSlash (x :: xs)) = false := by
        rw [isRooted_joinSlash x xs (h x (by simp)).1]
        exact isRooted_of_noSlash x (h x (by simp)).2
      simp only [World.locate, World.base, h3, Bool.false_eq_true, if_false]
      rw [splitSlash_joinSlash _ he (fun y hy => (h y hy).2)]
      simp [splitSlash, walk_cons, walkStep_nil, walk_nil]

/-- The directory of a cleaned path that ends in a name is the location of the
path before the name. -/
theorem locate_Dir_Clean_snoc (w : World) (s n : Str) (hs : s ≠ []) (hn : isPlain n = true) :
    w.locate (Dir (Clean (s ++ '/' :: n))) = w.locate s := by
  have hn1 : isName n = true := by
    simp [isPlain] at hn; exact hn.1
  have hn2 : '/' ∉ n := by
    simp [isPlain] at hn; exact hn.2
  unfold Dir
  rw [locate_Clean, Clean_eq_render _ (by simp), cleanScan_snoc s n hs hn1 hn2]
  have hg := cleanScan_good s
  have he : (⟨(cleanScan s).ups, (cleanScan s).names ++ [n]⟩ : CleanState).elems =
      (cleanScan s).elems ++ [n] := by
    simp [CleanState.elems]
  rw [he, locate_dirPart_render w _ _ n (good_elems _ _ hg) hn2, isRooted_append s _ hs]
  unfold cleanScan
  rw [walk_foldl_cleanStep (isRooted s) _ (by intro hr; simp [hr]) _ (splitSlash_mem_noSlash _) _
    ⟨by simp, by simp⟩]
  simp [CleanState.elems, World.locate, World.base]

theorem locate_Clean_snoc (w : World) (s n : Str) (hs : s ≠ []) (hn : isPlain n = true) :
    w.locate (Clean (s ++ '/' :: n)) = w.locate s ++ [n] := by
  have hn1 : isName n = true := by
    simp [isPlain] at hn; exact hn.1
  have hn2 : '/' ∉ n := by
    simp [isPlain] at hn; exact hn.2
  rw [locate_Clean, locate_append_slash _ _ _ hs, splitSlash_noSlash n hn2, walk_cons, walk_nil,
    walkStep_name _ _ hn1]

theorem elemsOf_render (r : Bool) (es : List Str) (h : ∀ x ∈ es, x ≠ [] ∧ '/' ∉ x) :
    elemsOf (render r es) = if es = [] then (if r then [] else [dot]) else es := by
  unfold elemsOf
  rw [splitSlash_render r es h]
  have hf : es.filter (fun c => c ≠ []) = es := by
    rw [List.filter_eq_self]
    intro x hx
    simpa using (h x hx).1
  cases r with
  | true =>
    by_cases he : es = []
    · simp [he]
    · simp only [he, if_true, if_false]
      rw [List.filter_cons]
      simpa using hf
  | false =>
    by_cases he : es = []
    · simp [he, dot]
    · simp only [he, if_false, Bool.false_eq_true]
      exact hf

/-- The elements of a cleaned path: elements that are not names (`.` or
leading `..`) followed by names. -/
theorem elemsOf_Clean (path : Str) :
    ∃ dd ns : List Str, elemsOf (Clean path) = dd ++ ns ∧ (∀ x ∈ dd, isName x = false) ∧
      (∀ x ∈ ns, isName x = true) := by
  cases path with
  | nil => exact ⟨[dot], [], by decide, by decide, by simp⟩
  | cons c cs =>
    have hg := cleanScan_good (c :: cs)
    rw [Clean_eq_render _ (by simp), elemsOf_render _ _ (good_elems _ _ hg)]
    by_cases he : (cleanScan (c :: cs)).elems = []
    · rw [if_pos he]
      cases isRooted (c :: cs) with
      | true => exact ⟨[], [], by simp, by simp, by simp⟩
      | false => exact ⟨[dot], [], by simp, by decide, by simp⟩
    · rw [if_neg he]
      refine ⟨List.replicate (cleanScan (c :: cs)).ups dotdot, (cleanScan (c :: cs)).names, rfl, ?_,
        fun x hx => (hg.1 x hx).1⟩
      intro x hx
      have := List.eq_of_mem_replicate hx
      subst this
      decide

theorem lastIsName_Clean_snoc (s n : Str) (hs : s ≠ []) (hn : isPlain n = true) :
    lastIsName (Clean (s ++ '/' :: n)) = true := by
  have hn1 : isName n = true := by
    simp [isPlain] at hn; exact hn.1
  have hn2 : '/' ∉ n := by
    simp [isPlain] at hn; exact hn.2
  have hg := cleanScan_good (s ++ '/' :: n)
  unfold lastIsName
  rw [Clean_eq_render _ (by simp), elemsOf_render _ _ (good_elems _ _ hg),
    cleanScan_snoc s n hs hn1 hn2]
  simp [CleanState.elems, ← List.append_assoc, hn1]


/-! ## Cleaning a cleaned path -/

theorem foldl_cleanStep_names (r : Bool) (ns : List Str) (h : ∀ x ∈ ns, isName x = true)
    (st : CleanState) :
    ns.foldl (cleanStep r) st = ⟨st.ups, st.names ++ ns⟩ := by
  induction ns generalizing st with
  | nil => simp
  | cons n ns ih =>
    rw [List.foldl_cons, cleanStep_name r st n (h n (by simp)),
      ih (fun x hx => h x (by simp [hx]))]
    simp

theorem foldl_cleanStep_dotdots (k n : Nat) :
    (List.replicate n dotdot).foldl (cleanStep false) ⟨k, []⟩ = ⟨k + n, []⟩ := by
  induction n generalizing k with
  | zero => rfl
  | succ n ih =>
    rw [List.replicate_succ, List.foldl_cons, cleanStep_dotdot_relative _ rfl, ih]
    simp only [CleanState.mk.injEq, and_true]
    omega

/-- Scanning the elements of a cleaned path gives them back. -/
theorem foldl_cleanStep_elems (r : Bool) (st : CleanState) (h : st.Good r) :
    st.elems.foldl (cleanStep r) ⟨0, []⟩ = st := by
  unfold CleanState.elems
  rw [List.foldl_append]
  have hn : ∀ x ∈ st.names, isName x = true := fun x hx => (h.1 x hx).1
  cases r with
  | true =>
    have hu := h.2 rfl
    rw [hu]
    simp only [List.replicate_zero, List.foldl_nil]
    rw [foldl_cleanStep_names _ _ hn]
    cases st
    simp at hu ⊢
    exact hu.symm
  | false =>
    rw [foldl_cleanStep_dotdots, foldl_cleanStep_names _ _ hn]
    cases st
    simp

theorem cleanScan_render (r : Bool) (st : CleanState) (h : st.Good r) :
    cleanScan (render r st.elems) = st := by
  unfold cleanScan
  rw [isRooted_render r _ (good_elems r st h), splitSlash_render r _ (good_elems r st h)]
  cases r with
  | true =>
    by_cases he : st.elems = []
    · simp only [he, if_true, List.foldl_cons, List.foldl_nil, cleanStep_nil]
      have := foldl_cleanStep_elems true st h
      rw [he] at this
      exact this
    · simp only [he, if_true, if_false, List.foldl_cons, cleanStep_nil]
      exact foldl_cleanStep_elems true st h
  | false =>
    by_cases he : st.elems = []
    · simp only [he, if_true, Bool.false_eq_true, if_false, List.foldl_cons, List.foldl_nil,
        cleanStep_dot]
      have := foldl_cleanStep_elems false st h
      rw [he] at this
      exact this
    · simp only [he, Bool.false_eq_true, if_false]
      exact foldl_cleanStep_elems false st h

theorem Clean_render (r : Bool) (st : CleanState) (h : st.Good r) :
    Clean (render r st.elems) = render r st.elems := by
  rw [Clean_eq_render _ (render_ne_nil r _ (good_elems r st h)),
    isRooted_render r _ (good_elems r st h), cleanScan_render r st h]

/-- Cleaning is idempotent. -/
theorem Clean_Clean (path : Str) : Clean (Clean path) = Clean path := by
  cases path with
  | nil => decide
  | cons c cs =>
    rw [Clean_eq_render (c :: cs) (by simp)]
    exact Clean_render _ _ (cleanScan_good _)

theorem dirPart_render_snoc (r : Bool) (es : List Str) (n : Str)
    (h : ∀ x ∈ es, x ≠ [] ∧ '/' ∉ x) (hn : '/' ∉ n) :
    dirPart (render r (es ++ [n])) =
      if es = [] then (if r then ['/'] else []) else render r es ++ ['/'] := by
  by_cases he : es = []
  · subst he
    cases r with
    | true =>
      have h1 : render true ([] ++ [n]) = [] ++ '/' :: n := by simp [render, joinSlash]
      rw [h1, dirPart_append_slash _ _ hn]
      simp
    | false =>
      have h1 : render false ([] ++ [n]) = n := by simp [render, joinSlash]
      rw [h1, dirPart_noSlash _ hn]
      simp
  · obtain ⟨x, xs, rfl⟩ := List.exists_cons_of_ne_nil he
    cases r with
    | true =>
      have h1 : render true (x :: xs ++ [n]) = ('/' :: joinSlash (x :: xs)) ++ '/' :: n := by
        simp only [render, if_true]
        rw [joinSlash_snoc _ _ he]
        simp
      rw [h1, dirPart_append_slash _ _ hn]
      simp [render]
    | false =>
      have h1 : render false (x :: xs ++ [n]) = joinSlash (x :: xs) ++ '/' :: n := by
        simp only [render, Bool.false_eq_true, if_false, List.cons_append]
        have := joinSlash_snoc (x :: xs) n he
        simpa using this
      rw [h1, dirPart_append_slash _ _ hn]
      simp [render]

theorem cleanScan_append_slash (s : Str) (hs : s ≠ []) :
    cleanScan (s ++ ['/']) = cleanScan s := by
  unfold cleanScan
  have e : s ++ ['/'] = s ++ '/' :: [] := rfl
  rw [isRooted_append s _ hs, e, splitSlash_append_slash, List.foldl_append]
  simp [splitSlash, cleanStep_nil]

/-- The directory of a cleaned path that ends in a name is the cleaned path
without the name. -/
theorem Dir_render_snoc (r : Bool) (st : CleanState) (h : st.Good r) (n : Str) (hn : '/' ∉ n) :
    Dir (render r (st.elems ++ [n])) = render r st.elems := by
  unfold Dir
  rw [dirPart_render_snoc r _ n (good_elems r st h) hn]
  by_cases he : st.elems = []
  · rw [if_pos he, he]
    cases r <;> decide
  · rw [if_neg he]
    have hne := render_ne_nil r _ (good_elems r st h)
    rw [Clean_eq_render _ (by simp [hne]), isRooted_append _ _ hne,
      cleanScan_append_slash _ hne, isRooted_render r _ (good_elems r st h),
      cleanScan_render r st h]

theorem Dir_Clean_snoc (s n : Str) (hs : s ≠ []) (hn : isPlain n = true) :
    Dir (Clean (s ++ '/' :: n)) = Clean s := by
  have hn1 : isName n = true := by
    simp [isPlain] at hn; exact hn.1
  have hn2 : '/' ∉ n := by
    simp [isPlain] at hn; exact hn.2
  rw [Clean_eq_render _ (by simp), cleanScan_snoc s n hs hn1 hn2, isRooted_append s _ hs,
    Clean_eq_render s hs]
  have he : (⟨(cleanScan s).ups, (cleanScan s).names ++ [n]⟩ : CleanState).elems =
      (cleanScan s).elems ++ [n] := by
    simp [CleanState.elems]
  rw [he]
  exact Dir_render_snoc _ _ (cleanScan_good s) n hn2


/-! ## Lemmas on the filesystem tree -/

theorem find_absent (p : Loc) : Node.find Node.absent p = Except.error Errno.ENOENT := by
  cases p <;> rfl

theorem find_ok_ne_absent (n : Node) (p : Loc) (x : Node) (h : Node.find n p = Except.ok x) :
    x ≠ Node.absent := by
  induction p generalizing n with
  | nil =>
    cases n with
    | absent => simp [Node.find] at h
    | file m d => simp [Node.find] at h; subst h; simp
    | dir m k => simp [Node.find] at h; subst h; simp
  | cons c p ih =>
    cases n with
    | absent => simp [Node.find] at h
    | file m d => simp [Node.find] at h
    | dir m k => exact ih (k c) h

theorem find_nil_ok (n x : Node) (h : Node.find n [] = Except.ok x) : x = n := by
  cases n with
  | absent => simp [Node.find] at h
  | file m d => simp [Node.find] at h; exact h.symm
  | dir m k => simp [Node.find] at h; exact h.symm

/-- Looking up a longer location goes through the shorter one. -/
theorem find_append_ok (n : Node) (p r : Loc) (x : Node) (h : Node.find n p = Except.ok x) :
    Node.find n (p ++ r) = Node.find x r := by
  induction p generalizing n with
  | nil => rw [find_nil_ok n x h]; rfl
  | cons c p ih =>
    cases n with
    | absent => simp [Node.find] at h
    | file m d => simp [Node.find] at h
    | dir m k => exact ih (k c) h

theorem find_append_error (n : Node) (p r : Loc) (e : Errno)
    (h : Node.find n p = Except.error e) : Node.find n (p ++ r) = Except.error e := by
  induction p generalizing n with
  | nil =>
    cases n with
    | absent => rw [find_absent] at h ⊢; exact h
    | file m d => simp [Node.find] at h
    | dir m k => simp [Node.find] at h
  | cons c p ih =>
    cases n with
    | absent => rw [find_absent] at h ⊢; exact h
    | file m d => simpa [Node.find] using h
    | dir m k => exact ih (k c) h

theorem find_parent_dir (n : Node) (q : Loc) (c : Str) (x : Node)
    (h : Node.find n (q ++ [c]) = Except.ok x) :
    ∃ m k, Node.find n q = Except.ok (Node.dir m k) ∧ k c = x := by
  induction q generalizing n with
  | nil =>
    cases n with
    | absent => simp [Node.find] at h
    | file m d => simp [Node.find] at h
    | dir m k =>
      refine ⟨m, k, rfl, ?_⟩
      exact (find_nil_ok _ _ h).symm
  | cons a q ih =>
    cases n with
    | absent => simp [Node.find] at h
    | file m d => simp [Node.find] at h
    | dir m k => exact ih (k a) h

/-- An update below a location that can be reached happens inside the node
found there. -/
theorem find_update_append (f : Node → Node) (n : Node) (q r r2 : Loc) (x : Node)
    (h : Node.find n q = Except.ok x) :
    Node.find (Node.update f n (q ++ r)) (q ++ r2) = Node.find (Node.update f x r) r2 := by
  induction q generalizing n with
  | nil => rw [find_nil_ok n x h]; rfl
  | cons c q ih =>
    cases n with
    | absent => simp [Node.find] at h
    | file m d => simp [Node.find] at h
    | dir m k =>
      have := ih (k c) h
      simpa [Node.update, Node.find] using this

/-- An update does not change what is found at a location that is neither
above, at, nor below the updated one. -/
theorem find_update_apart (f : Node → Node) (n : Node) (p q : Loc) (h1 : ¬ p <+: q)
    (h2 : ¬ q <+: p) : Node.find (Node.update f n p) q = Node.find n q := by
  induction p generalizing n q with
  | nil => exact absurd List.nil_prefix h1
  | cons c p ih =>
    cases q with
    | nil => exact absurd List.nil_prefix h2
    | cons d q =>
      cases n with
      | absent => rfl
      | file m x => rfl
      | dir m k =>
        by_cases hd : d = c
        · subst hd
          have h1' : ¬ p <+: q := fun hp => h1 ((List.prefix_cons_inj d).mpr hp)
          have h2' : ¬ q <+: p := fun hp => h2 ((List.prefix_cons_inj d).mpr hp)
          simpa [Node.update, Node.find] using ih (k d) q h1' h2'
        · simp [Node.update, Node.find, hd]

/-- An update does not change how a location resolves that is not at or below
the updated one, up to what hangs below the node found. -/
theorem statAt_update (priv : Bool) (f : Node → Node) (n : Node) (p q : Loc) (h1 : ¬ p <+: q) :
    statAt priv (Node.update f n p) q = statAt priv n q := by
  induction p generalizing n q with
  | nil => exact absurd List.nil_prefix h1
  | cons c p ih =>
    cases n with
    | absent => rfl
    | file m x => rfl
    | dir m k =>
      cases q with
      | nil => rfl
      | cons d q =>
        by_cases hd : d = c
        · subst hd
          have h1' : ¬ p <+: q := fun hp => h1 ((List.prefix_cons_inj d).mpr hp)
          have := ih (k d) q h1'
          unfold statAt at this ⊢
          simp only [Node.update, Node.resolve, if_true]
          cases stepError priv m d with
          | some e => rfl
          | none => exact this
        · simp [statAt, Node.update, Node.resolve, hd]

/-- What is found at an updated entry of a directory. -/
theorem find_update_entry (f : Node → Node) (n : Node) (q : Loc) (c : Str) (r : Loc) (m : Mode)
    (k : Str → Node) (h : Node.find n q = Except.ok (Node.dir m k)) :
    Node.find (Node.update f n (q ++ [c])) (q ++ c :: r) = Node.find (f (k c)) r := by
  rw [find_update_append f n q [c] (c :: r) _ h]
  simp [Node.update, Node.find]

/-- A new empty directory at a free entry changes nothing that is found at a
location other than the entry and the locations above it. -/
theorem find_update_emptyDir (n : Node) (q : Loc) (c : Str) (perm m : Mode) (k : Str → Node)
    (hq : Node.find n q = Except.ok (Node.dir m k)) (hc : k c = Node.absent) (x : Loc)
    (hx : ¬ x <+: q ++ [c]) :
    Node.find (Node.update (fun _ => emptyDir perm) n (q ++ [c])) x = Node.find n x := by
  by_cases hle : q ++ [c] <+: x
  · obtain ⟨r, rfl⟩ := hle
    have hr : r ≠ [] := by
      rintro rfl
      exact hx (by simp)
    obtain ⟨a, r2, rfl⟩ := List.exists_cons_of_ne_nil hr
    have e1 : q ++ [c] ++ a :: r2 = q ++ c :: a :: r2 := by simp
    rw [e1, find_update_entry _ n q c _ m k hq, find_append_ok n q _ _ hq]
    simp [emptyDir, Node.find, hc, find_absent]
  · exact find_update_apart _ n _ x hle hx


/-! ## Lemmas on lookups with permission checks -/

theorem resolve_absent (priv : Bool) (p : Loc) :
    Node.resolve priv Node.absent p = Except.error Errno.ENOENT := by
  cases p <;> rfl

theorem resolve_nil_ok (priv : Bool) (n x : Node) (h : Node.resolve priv n [] = Except.ok x) :
    x = n := by
  cases n with
  | absent => simp [Node.resolve] at h
  | file m d => simp [Node.resolve] at h; exact h.symm
  | dir m k => simp [Node.resolve] at h; exact h.symm

theorem resolve_dir_cons (priv : Bool) (m : Mode) (k : Str → Node) (c : Str) (p : Loc) :
    Node.resolve priv (Node.dir m k) (c :: p) =
      match stepError priv m c with
      | some e => Except.error e
      | none => Node.resolve priv (k c) p := rfl

theorem resolve_dir_cons_ok (priv : Bool) (m : Mode) (k : Str → Node) (c : Str) (p : Loc)
    (h : stepError priv m c = none) :
    Node.resolve priv (Node.dir m k) (c :: p) = Node.resolve priv (k c) p := by
  rw [resolve_dir_cons, h]

/-- What resolves for the process is in the tree. -/
theorem find_of_resolve (priv : Bool) (n : Node) (p : Loc) (x : Node)
    (h : Node.resolve priv n p = Except.ok x) : Node.find n p = Except.ok x := by
  induction p generalizing n with
  | nil =>
    cases n with
    | absent => simp [Node.resolve] at h
    | file m d => simpa [Node.resolve, Node.find] using h
    | dir m k => simpa [Node.resolve, Node.find] using h
  | cons c p ih =>
    cases n with
    | absent => simp [Node.resolve] at h
    | file m d => simp [Node.resolve] at h
    | dir m k =>
      rw [resolve_dir_cons] at h
      cases hs : stepError priv m c with
      | some e => simp [hs] at h
      | none =>
        simp only [hs] at h
        exact ih (k c) h

theorem resolve_ok_ne_absent (priv : Bool) (n : Node) (p : Loc) (x : Node)
    (h : Node.resolve priv n p = Except.ok x) : x ≠ Node.absent :=
  find_ok_ne_absent n p x (find_of_resolve priv n p x h)

theorem resolve_append_ok (priv : Bool) (n : Node) (p r : Loc) (x : Node)
    (h : Node.resolve priv n p = Except.ok x) :
    Node.resolve priv n (p ++ r) = Node.resolve priv x r := by
  induction p generalizing n with
  | nil => rw [resolve_nil_ok priv n x h]; rfl
  | cons c p ih =>
    cases n with
    | absent => simp [Node.resolve] at h
    | file m d => simp [Node.resolve] at h
    | dir m k =>
      rw [resolve_dir_cons] at h
      rw [List.cons_append, resolve_dir_cons]
      cases hs : stepError priv m c with
      | some e => simp [hs] at h
      | none =>
        simp only [hs] at h ⊢
        exact ih (k c) h

theorem resolve_append_error (priv : Bool) (n : Node) (p r : Loc) (e : Errno)
    (h : Node.resolve priv n p = Except.error e) :
    Node.resolve priv n (p ++ r) = Except.error e := by
  induction p generalizing n with
  | nil =>
    cases n with
    | absent => rw [resolve_absent] at h ⊢; exact h
    | file m d => simp [Node.resolve] at h
    | dir m k => simp [Node.resolve] at h
  | cons c p ih =>
    cases n with
    | absent => rw [resolve_absent] at h ⊢; exact h
    | file m d => simpa [Node.resolve] using h
    | dir m k =>
      rw [resolve_dir_cons] at h
      rw [List.cons_append, resolve_dir_cons]
      cases hs : stepError priv m c with
      | some e2 => simpa [hs] using h
      | none =>
        simp only [hs] at h ⊢
        exact ih (k c) h

/-- The node that holds a resolved entry is a directory that resolves, may be
searched, and the name of the entry is not too long. -/
theorem resolve_parent_dir (priv : Bool) (n : Node) (q : Loc) (c : Str) (x : Node)
    (h : Node.resolve priv n (q ++ [c]) = Except.ok x) :
    ∃ m k, Node.resolve priv n q = Except.ok (Node.dir m k) ∧ k c = x ∧
      stepError priv m c = none := by
  induction q generalizing n with
  | nil =>
    cases n with
    | absent => simp [Node.resolve] at h
    | file m d => simp [Node.resolve] at h
    | dir m k =>
      rw [List.nil_append, resolve_dir_cons] at h
      cases hs : stepError priv m c with
      | some e => simp [hs] at h
      | none =>
        simp only [hs] at h
        exact ⟨m, k, rfl, (resolve_nil_ok priv _ _ h).symm, hs⟩
  | cons a q ih =>
    cases n with
    | absent => simp [Node.resolve] at h
    | file m d => simp [Node.resolve] at h
    | dir m k =>
      rw [List.cons_append, resolve_dir_cons] at h
      rw [resolve_dir_cons]
      cases hs : stepError priv m a with
      | some e => simp [hs] at h
      | none =>
        simp only [hs] at h ⊢
        exact ih (k a) h

/-- An entry that is reported missing in a directory that resolves is absent,
and the lookup of its name in the directory is not stopped. -/
theorem absent_of_resolve_enoent (priv : Bool) (n : Node) (q : Loc) (c : Str) (m : Mode)
    (k : Str → Node) (hq : Node.resolve priv n q = Except.ok (Node.dir m k))
    (h : Node.resolve priv n (q ++ [c]) = Except.error Errno.ENOENT) :
    k c = Node.absent ∧ stepError priv m c = none := by
  rw [resolve_append_ok priv n q [c] _ hq, resolve_dir_cons] at h
  cases hs : stepError priv m c with
  | some e =>
    simp only [hs] at h
    unfold stepError at hs
    split_ifs at hs <;> simp at hs <;> subst hs <;> simp at h
  | none =>
    simp only [hs] at h
    refine ⟨?_, rfl⟩
    cases hk : k c with
    | absent => rfl
    | file m2 d2 => rw [hk] at h; simp [Node.resolve] at h
    | dir m2 k2 => rw [hk] at h; simp [Node.resolve] at h

/-- An update below a location that resolves happens inside the node found
there. -/
theorem resolve_update_append (priv : Bool) (f : Node → Node) (n : Node) (q r r2 : Loc) (x : Node)
    (h : Node.resolve priv n q = Except.ok x) :
    Node.resolve priv (Node.update f n (q ++ r)) (q ++ r2) =
      Node.resolve priv (Node.update f x r) r2 := by
  induction q generalizing n with
  | nil => rw [resolve_nil_ok priv n x h]; rfl
  | cons c q ih =>
    cases n with
    | absent => simp [Node.resolve] at h
    | file m d => simp [Node.resolve] at h
    | dir m k =>
      rw [resolve_dir_cons] at h
      cases hs : stepError priv m c with
      | some e => simp [hs] at h
      | none =>
        simp only [hs] at h
        have := ih (k c) h
        simp only [List.cons_append, Node.update, resolve_dir_cons, hs, if_true]
        exact this

/-- How an updated entry of a directory resolves. -/
theorem resolve_update_entry (priv : Bool) (f : Node → Node) (n : Node) (q : Loc) (c : Str)
    (r : Loc) (m : Mode) (k : Str → Node)
    (h : Node.resolve priv n q = Except.ok (Node.dir m k)) (hs : stepError priv m c = none) :
    Node.resolve priv (Node.update f n (q ++ [c])) (q ++ c :: r) =
      Node.resolve priv (f (k c)) r := by
  rw [resolve_update_append priv f n q [c] (c :: r) _ h]
  simp [Node.update, resolve_dir_cons, hs]


/-! ## Lemmas on the filesystem calls -/

theorem SameEnv.refl (w : World) : SameEnv w w := ⟨rfl, rfl, rfl, rfl⟩

theorem SameEnv.setRoot (w : World) (r : Node) : SameEnv w (w.setRoot r) := ⟨rfl, rfl, rfl, rfl⟩

theorem SameEnv.locate {w w1 : World} (h : SameEnv w w1) (p : Str) : w1.locate p = w.locate p := by
  simp [World.locate, World.base, h.1]

theorem SameEnv.trans {a b c : World} (h1 : SameEnv a b) (h2 : SameEnv b c) : SameEnv a c :=
  ⟨h2.1.trans h1.1, h2.2.1.trans h1.2.1, h2.2.2.1.trans h1.2.2.1, h2.2.2.2.trans h1.2.2.2⟩

theorem pathError_ne_nil (p : Str) (h : pathError p = none) : p ≠ [] := by
  rintro rfl
  simp [pathError] at h

theorem lookup_eq_find (w : World) (p : Str) (hp : p ≠ []) :
    w.lookup p = Node.find w.root (w.locate p) := by
  cases p with
  | nil => exact absurd rfl hp
  | cons c cs => rfl

theorem resolve_eq (w : World) (p : Str) (hp : pathError p = none) :
    w.resolve p = Node.resolve w.privileged w.root (w.locate p) := by
  simp [World.resolve, hp]

theorem Stat_eq_statAt (w : World) (p : Str) (hp : pathError p = none) :
    Stat w p = statAt w.privileged w.root (w.locate p) := by
  unfold Stat statAt
  rw [resolve_eq w p hp]

theorem Stat_of_pathError (w : World) (p : Str) (e : Errno) (hp : pathError p = some e) :
    Stat w p = Except.error e := by
  simp [Stat, World.resolve, hp]

theorem info_ok_of_ne_absent (n : Node) (h : n ≠ Node.absent) : ∃ i, n.info = Except.ok i := by
  cases n with
  | absent => exact absurd rfl h
  | file m d => exact ⟨_, rfl⟩
  | dir m k => exact ⟨_, rfl⟩

theorem statAt_error_iff (priv : Bool) (root : Node) (loc : Loc) (e : Errno) :
    statAt priv root loc = Except.error e ↔ Node.resolve priv root loc = Except.error e := by
  unfold statAt
  cases h : Node.resolve priv root loc with
  | error e2 => simp
  | ok n =>
    obtain ⟨i, hi⟩ := info_ok_of_ne_absent n (resolve_ok_ne_absent _ _ _ _ h)
    simp [hi]

theorem statAt_ok (priv : Bool) (root : Node) (loc : Loc) (i : FileInfo)
    (h : statAt priv root loc = Except.ok i) :
    ∃ n, Node.resolve priv root loc = Except.ok n ∧ n.info = Except.ok i := by
  unfold statAt at h
  cases hr : Node.resolve priv root loc with
  | error e => simp [hr] at h
  | ok n => exact ⟨n, rfl, by simpa [hr] using h⟩

theorem walk_snoc_name (base : Loc) (init : List Str) (c : Str) (hc : isName c = true) :
    walk base (init ++ [c]) = walk base init ++ [c] := by
  rw [walk_append, walk_cons, walk_nil, walkStep_name _ _ hc]

theorem mkdirAt_ok (priv : Bool) (root root1 : Node) (q : Loc) (c : Str) (md : Mode)
    (h : mkdirAt priv root (q ++ [c]) md = Except.ok root1) :
    ∃ m k, Node.resolve priv root q = Except.ok (Node.dir m k) ∧ k c = Node.absent ∧
      stepError priv m c = none ∧ mayWrite priv m = true ∧
      root1 = Node.update (fun _ => emptyDir md) root (q ++ [c]) := by
  unfold mkdirAt at h
  rw [List.dropLast_concat] at h
  cases hf : Node.resolve priv root (q ++ [c]) with
  | ok n => simp [hf] at h
  | error e =>
    cases e <;> simp only [hf] at h <;> try (exact absurd h (by simp))
    cases hq : Node.resolve priv root q with
    | error e2 => simp [hq] at h
    | ok n =>
      cases n with
      | absent => simp [hq] at h
      | file m d => simp [hq] at h
      | dir m k =>
        simp only [hq] at h
        obtain ⟨h1, h2⟩ := absent_of_resolve_enoent priv root q c m k hq hf
        by_cases hw : mayWrite priv m = true
        · simp only [hw, if_true, Except.ok.injEq] at h
          exact ⟨m, k, rfl, h1, h2, hw, h.symm⟩
        · simp [hw] at h

theorem mkdirElems_ok (priv : Bool) (umask : Nat) (root root1 : Node) (base : Loc)
    (elems : List Str) (perm : Nat)
    (h : mkdirElems priv umask root base elems perm = Except.ok root1) :
    ∃ init c m k, elems = init ++ [c] ∧ isName c = true ∧
      Node.resolve priv root (walk base init) = Except.ok (Node.dir m k) ∧ k c = Node.absent ∧
      stepError priv m c = none ∧
      root1 = Node.update (fun _ => emptyDir (newMode perm umask)) root (walk base init ++ [c]) := by
  unfold mkdirElems at h
  cases hl : elems.getLast? with
  | none =>
    simp only [hl] at h
    cases hf : Node.resolve priv root (walk base elems) <;> simp [hf] at h
  | some c =>
    simp only [hl] at h
    obtain ⟨init, rfl⟩ := List.getLast?_eq_some_iff.mp hl
    by_cases hc : isName c = true
    · simp only [hc, if_true] at h
      rw [walk_snoc_name base init c hc] at h
      obtain ⟨m, k, h1, h2, h3, _, h5⟩ := mkdirAt_ok _ _ _ _ _ _ h
      exact ⟨init, c, m, k, rfl, hc, h1, h2, h3, h5⟩
    · simp only [hc] at h
      cases hf : Node.resolve priv root (walk base (init ++ [c])) <;> simp [hf] at h

/-- A directory made at a free entry resolves, as an empty directory. -/
theorem resolve_new_dir (priv : Bool) (root : Node) (q : Loc) (c : Str) (md m : Mode)
    (k : Str → Node) (hq : Node.resolve priv root q = Except.ok (Node.dir m k))
    (hs : stepError priv m c = none) :
    Node.resolve priv (Node.update (fun _ => emptyDir md) root (q ++ [c])) (q ++ [c]) =
      Except.ok (emptyDir md) := by
  rw [resolve_update_entry priv _ root q c [] m k hq hs]
  rfl

theorem fastPath_none (priv : Bool) (root : Node) (loc : Loc) (h : fastPath priv root loc = none) :
    ∃ e, statAt priv root loc = Except.error e := by
  unfold fastPath at h
  cases hs : statAt priv root loc with
  | ok i => simp [hs] at h
  | error e => exact ⟨e, rfl⟩

theorem fastPath_some (priv : Bool) (root : Node) (loc : Loc) (r : Except Errno Unit)
    (h : fastPath priv root loc = some r) :
    ∃ i, statAt priv root loc = Except.ok i ∧
      r = if i.isDir then Except.ok () else Except.error Errno.ENOTDIR := by
  unfold fastPath at h
  cases hs : statAt priv root loc with
  | ok i =>
    simp only [hs, Option.some.injEq] at h
    exact ⟨i, rfl, h.symm⟩
  | error e => simp [hs] at h

theorem fastPath_ok (priv : Bool) (root : Node) (loc : Loc)
    (h : fastPath priv root loc = some (Except.ok ())) :
    ∃ i, statAt priv root loc = Except.ok i ∧ i.isDir = true := by
  obtain ⟨i, h1, h2⟩ := fastPath_some priv root loc _ h
  refine ⟨i, h1, ?_⟩
  by_cases hd : i.isDir = true
  · exact hd
  · simp [hd] at h2

theorem mkdirLast_ok (priv : Bool) (umask : Nat) (base : Loc) (perm : Nat) (elems : List Str)
    (root root1 : Node) (h : mkdirLast priv umask base perm elems root = (Except.ok (), root1)) :
    mkdirElems priv umask root base elems perm = Except.ok root1 ∨
      (root1 = root ∧ ∃ i, statAt priv root (walk base elems) = Except.ok i ∧ i.isDir = true) := by
  unfold mkdirLast at h
  cases hm : mkdirElems priv umask root base elems perm with
  | ok r2 =>
    simp [hm] at h
    exact Or.inl (by rw [h])
  | error e =>
    simp only [hm] at h
    cases hs : statAt priv root (walk base elems) with
    | error e2 => simp [hs] at h
    | ok i =>
      simp only [hs] at h
      by_cases hd : i.isDir = true
      · simp [hd] at h
        exact Or.inr ⟨h.symm, i, rfl, hd⟩
      · simp [hd] at h

theorem mkdirAllRev_nil (priv : Bool) (umask : Nat) (base : Loc) (perm : Nat) (root : Node) :
    mkdirAllRev priv umask base perm [] root =
      match fastPath priv root (walk base []) with
      | some r => (r, root)
      | none => mkdirLast priv umask base perm [] root := by
  rw [mkdirAllRev]

theorem mkdirAllRev_cons (priv : Bool) (umask : Nat) (base : Loc) (perm : Nat) (c : Str)
    (up : List Str) (root : Node) :
    mkdirAllRev priv umask base perm (c :: up) root =
      match fastPath priv root (walk base (c :: up).reverse) with
      | some r => (r, root)
      | none =>
        match (if up = [] then (Except.ok (), root)
          else mkdirAllRev priv umask base perm up root) with
        | (Except.error e, root1) => (Except.error e, root1)
        | (Except.ok (), root1) => mkdirLast priv umask base perm (c :: up).reverse root1 := by
  rw [mkdirAllRev]

/-- The ways a successful `MkdirAll` ends: at once on a directory, or after the
parent path has been made (when there is one) with the last step. -/
theorem mkdirAllRev_cases (priv : Bool) (umask : Nat) (base : Loc) (perm : Nat) (c : Str)
    (up : List Str) (root root1 : Node)
    (h : mkdirAllRev priv umask base perm (c :: up) root = (Except.ok (), root1)) :
    (root1 = root ∧
      ∃ i, statAt priv root (walk base (c :: up).reverse) = Except.ok i ∧ i.isDir = true) ∨
    ((∃ e, statAt priv root (walk base (c :: up).reverse) = Except.error e) ∧
      ∃ rootm, (if up = [] then rootm = root
          else mkdirAllRev priv umask base perm up root = (Except.ok (), rootm)) ∧
        mkdirLast priv umask base perm (c :: up).reverse rootm = (Except.ok (), root1)) := by
  rw [mkdirAllRev_cons] at h
  cases hf : fastPath priv root (walk base (c :: up).reverse) with
  | some r =>
    simp only [hf, Prod.mk.injEq] at h
    obtain ⟨h1, h2⟩ := h
    subst h1
    exact Or.inl ⟨h2.symm, fastPath_ok _ _ _ hf⟩
  | none =>
    simp only [hf] at h
    refine Or.inr ⟨fastPath_none _ _ _ hf, ?_⟩
    by_cases hup : up = []
    · simp only [hup, if_true] at h ⊢
      exact ⟨root, rfl, h⟩
    · simp only [hup, if_false] at h ⊢
      cases hr : mkdirAllRev priv umask base perm up root with
      | mk res rootm =>
        cases res with
        | error e => simp [hr] at h
        | ok u => exact ⟨rootm, rfl, by simpa [hr] using h⟩

theorem mkdirAllRev_nil_ok (priv : Bool) (umask : Nat) (base : Loc) (perm : Nat)
    (root root1 : Node) (h : mkdirAllRev priv umask base perm [] root = (Except.ok (), root1)) :
    root1 = root ∧ ∃ i, statAt priv root base = Except.ok i ∧ i.isDir = true := by
  rw [mkdirAllRev_nil] at h
  cases hf : fastPath priv root (walk base []) with
  | some r =>
    simp only [hf, Prod.mk.injEq] at h
    obtain ⟨h1, h2⟩ := h
    subst h1
    exact ⟨h2.symm, fastPath_ok _ _ _ hf⟩
  | none =>
    simp only [hf] at h
    rcases mkdirLast_ok _ _ _ _ _ _ _ h with h1 | h1
    · obtain ⟨init, c, m, k, h2, _⟩ := mkdirElems_ok _ _ _ _ _ _ _ h1
      simp at h2
    · exact h1

theorem snoc_inj {init up : List Str} {c c2 : Str} (h : (c :: up).reverse = init ++ [c2]) :
    init = up.reverse ∧ c2 = c := by
  have : (c :: up).reverse = up.reverse ++ [c] := by simp
  rw [this] at h
  have h1 := List.append_inj_left' h rfl
  have h2 := List.append_inj_right' h rfl
  exact ⟨h1.symm, by simpa using h2.symm⟩

theorem not_le_of_not_le_snoc (x q : Loc) (c : Str) (h : ¬ x <+: q ++ [c]) : ¬ x <+: q :=
  fun hx => h (hx.trans (List.prefix_append q [c]))

/-- On a path without a name `MkdirAll` creates nothing. -/
theorem mkdirAllRev_noNames (priv : Bool) (umask : Nat) (base : Loc) (perm : Nat)
    (relems : List Str) (hn : ∀ x ∈ relems, isName x = false) (root root1 : Node)
    (h : mkdirAllRev priv umask base perm relems root = (Except.ok (), root1)) : root1 = root := by
  induction relems generalizing root1 with
  | nil => exact (mkdirAllRev_nil_ok _ _ _ _ _ _ h).1
  | cons c up ih =>
    rcases mkdirAllRev_cases _ _ _ _ _ _ _ _ h with h1 | ⟨_, rootm, h2, h3⟩
    · exact h1.1
    · have hm : rootm = root := by
        by_cases hup : up = []
        · simpa [hup] using h2
        · simp only [hup, if_false] at h2
          exact ih (fun x hx => hn x (by simp [hx])) rootm h2
      subst hm
      rcases mkdirLast_ok _ _ _ _ _ _ _ h3 with h4 | h4
      · obtain ⟨init, c2, m, k, e1, e2, _⟩ := mkdirElems_ok _ _ _ _ _ _ _ h4
        have := (snoc_inj e1).2
        subst this
        have := hn c2 (by simp)
        rw [e2] at this
        cases this
      · exact h4.1

/-- A successful `MkdirAll` changes nothing that is in the tree at a location
other than its target and the locations above it. -/
theorem mkdirAllRev_frame (priv : Bool) (umask : Nat) (base : Loc) (perm : Nat)
    (relems : List Str) (hshape : RevShape relems) (root root1 : Node)
    (h : mkdirAllRev priv umask base perm relems root = (Except.ok (), root1))
    (x : Loc) (hx : ¬ x <+: walk base relems.reverse) : Node.find root1 x = Node.find root x := by
  induction relems generalizing root1 with
  | nil => rw [(mkdirAllRev_nil_ok _ _ _ _ _ _ h).1]
  | cons c up ih =>
    rcases hshape with ⟨hc, hup⟩ | hno
    · rcases mkdirAllRev_cases _ _ _ _ _ _ _ _ h with h1 | ⟨_, rootm, h2, h3⟩
      · rw [h1.1]
      · have e0 : walk base (c :: up).reverse = walk base up.reverse ++ [c] := by
          rw [List.reverse_cons, walk_snoc_name _ _ _ hc]
        rw [e0] at hx
        have hm : Node.find rootm x = Node.find root x := by
          by_cases hu : up = []
          · simp only [hu, if_true] at h2
            rw [h2]
          · simp only [hu, if_false] at h2
            exact ih hup rootm h2 (not_le_of_not_le_snoc _ _ _ hx)
        rcases mkdirLast_ok _ _ _ _ _ _ _ h3 with h4 | h4
        · obtain ⟨init, c2, m, k, e1, e2, e3, e4, _, e5⟩ := mkdirElems_ok _ _ _ _ _ _ _ h4
          obtain ⟨e6, e7⟩ := snoc_inj e1
          subst e6 e7
          rw [e5, find_update_emptyDir rootm _ c2 _ m k (find_of_resolve _ _ _ _ e3) e4 x hx, hm]
        · rw [h4.1, hm]
    · rw [mkdirAllRev_noNames _ _ _ _ _ hno _ _ h]

/-- A successful `MkdirAll` of a path that is in the tree creates nothing. -/
theorem mkdirAllRev_present (priv : Bool) (umask : Nat) (base : Loc) (perm : Nat)
    (relems : List Str) (hshape : RevShape relems) (root root1 : Node) (n : Node)
    (hn : Node.find root (walk base relems.reverse) = Except.ok n)
    (h : mkdirAllRev priv umask base perm relems root = (Except.ok (), root1)) : root1 = root := by
  induction relems generalizing root1 n with
  | nil => exact (mkdirAllRev_nil_ok _ _ _ _ _ _ h).1
  | cons c up ih =>
    rcases hshape with ⟨hc, hup⟩ | hno
    · rcases mkdirAllRev_cases _ _ _ _ _ _ _ _ h with h1 | ⟨_, rootm, h2, h3⟩
      · exact h1.1
      · have e0 : walk base (c :: up).reverse = walk base up.reverse ++ [c] := by
          rw [List.reverse_cons, walk_snoc_name _ _ _ hc]
        rw [e0] at hn
        obtain ⟨pm, pk, hp, hpk⟩ := find_parent_dir root _ c n hn
        have hm : rootm = root := by
          by_cases hu : up = []
          · simpa [hu] using h2
          · simp only [hu, if_false] at h2
            exact ih hup rootm _ hp h2
        subst hm
        rcases mkdirLast_ok _ _ _ _ _ _ _ h3 with h4 | h4
        · obtain ⟨init, c2, m, k, e1, e2, e3, e4, _, e5⟩ := mkdirElems_ok _ _ _ _ _ _ _ h4
          obtain ⟨e6, e7⟩ := snoc_inj e1
          subst e6 e7
          have := find_of_resolve _ _ _ _ e3
          rw [hp] at this
          cases this
          rw [e4] at hpk
          exact absurd hpk.symm (find_ok_ne_absent _ _ _ hn)
        · exact h4.1
    · exact mkdirAllRev_noNames _ _ _ _ _ hno _ _ h

/-- What a successful `MkdirAll` has done at its target: a directory that could
be stat-ed is left alone; otherwise the target was reported missing, and is now
a new empty directory owned by the process with the requested permission bits
less the mask. -/
theorem mkdirAllRev_ok (priv : Bool) (umask : Nat) (base : Loc) (perm : Nat) (relems : List Str)
    (hshape : RevShape relems) (root root1 : Node)
    (h : mkdirAllRev priv umask base perm relems root = (Except.ok (), root1)) :
    (∀ i, statAt priv root (walk base relems.reverse) = Except.ok i →
      root1 = root ∧ i.isDir = true) ∧
    (∀ e, statAt priv root (walk base relems.reverse) = Except.error e →
      e = Errno.ENOENT ∧
      Node.resolve priv root1 (walk base relems.reverse) =
        Except.ok (emptyDir (newMode perm umask))) := by
  induction relems generalizing root1 with
  | nil =>
    obtain ⟨h1, i, h2, h3⟩ := mkdirAllRev_nil_ok _ _ _ _ _ _ h
    simp only [List.reverse_nil, walk_nil]
    refine ⟨fun i2 hi2 => ⟨h1, ?_⟩, fun e he => ?_⟩
    · rw [h2] at hi2; cases hi2; exact h3
    · rw [h2] at he; cases he
  | cons c up ih =>
    rcases mkdirAllRev_cases _ _ _ _ _ _ _ _ h with ⟨h1, i, h2, h3⟩ | ⟨⟨e, he⟩, rootm, h2, h3⟩
    · refine ⟨fun i2 hi2 => ⟨h1, ?_⟩, fun e he => ?_⟩
      · rw [h2] at hi2; cases hi2; exact h3
      · rw [h2] at he; cases he
    · refine ⟨fun i2 hi2 => (by rw [he] at hi2; cases hi2), fun e2 he2 => ?_⟩
      rw [he] at he2
      cases he2
      rcases hshape with ⟨hc, hup⟩ | hno
      · have e0 : walk base (c :: up).reverse = walk base up.reverse ++ [c] := by
          rw [List.reverse_cons, walk_snoc_name _ _ _ hc]
        rw [e0] at he ⊢
        rw [statAt_error_iff] at he
        rcases mkdirLast_ok _ _ _ _ _ _ _ h3 with h4 | h4
        · obtain ⟨init, c2, m, k, e1, e2, e3, e4, e4s, e5⟩ := mkdirElems_ok _ _ _ _ _ _ _ h4
          obtain ⟨e6, e7⟩ := snoc_inj e1
          subst e6 e7
          refine ⟨?_, ?_⟩
          · by_cases hu : up = []
            · simp only [hu, if_true] at h2
              subst h2
              have h6 : Node.resolve priv rootm (walk base up.reverse ++ [c2]) =
                  Node.resolve priv (Node.dir m k) [c2] := resolve_append_ok _ _ _ _ _ e3
              rw [h6, resolve_dir_cons_ok _ _ _ _ _ e4s, e4] at he
              simp [Node.resolve] at he
              exact he.symm
            · simp only [hu, if_false] at h2
              have hih := ih hup rootm h2
              cases hp : statAt priv root (walk base up.reverse) with
              | ok ip =>
                have := (hih.1 ip hp).1
                subst this
                have h6 : Node.resolve priv rootm (walk base up.reverse ++ [c2]) =
                    Node.resolve priv (Node.dir m k) [c2] := resolve_append_ok _ _ _ _ _ e3
                rw [h6, resolve_dir_cons_ok _ _ _ _ _ e4s, e4] at he
                simp [Node.resolve] at he
                exact he.symm
              | error ep =>
                have h7 := (hih.2 ep hp).1
                subst h7
                rw [statAt_error_iff] at hp
                rw [resolve_append_error _ _ _ _ _ hp] at he
                cases he
                rfl
          · rw [e5]
            exact resolve_new_dir _ _ _ _ _ _ _ e3 e4s
        · obtain ⟨h5, i, h6, _⟩ := h4
          obtain ⟨n, hn, _⟩ := statAt_ok _ _ _ _ h6
          rw [e0] at hn
          have hfm := find_of_resolve _ _ _ _ hn
          have hm : rootm = root := by
            by_cases hu : up = []
            · simpa [hu] using h2
            · simp only [hu, if_false] at h2
              have hfr : Node.find root (walk base up.reverse ++ [c]) = Except.ok n := by
                rw [← mkdirAllRev_frame _ _ _ _ _ hup _ _ h2 _
                  (by intro hp; have := hp.length_le; simp at this)]
                exact hfm
              obtain ⟨pm, pk, hp, _⟩ := find_parent_dir root _ c n hfr
              exact mkdirAllRev_present _ _ _ _ _ hup _ _ _ hp h2
          subst hm
          rw [hn] at he
          cases he
      · have hm : rootm = root := by
          by_cases hu : up = []
          · simpa [hu] using h2
          · simp only [hu, if_false] at h2
            exact mkdirAllRev_noNames _ _ _ _ _ (fun x hx => hno x (by simp [hx])) _ _ h2
        subst hm
        rcases mkdirLast_ok _ _ _ _ _ _ _ h3 with h4 | h4
        · obtain ⟨init, c2, m, k, e1, e2, _⟩ := mkdirElems_ok _ _ _ _ _ _ _ h4
          have := (snoc_inj e1).2
          subst this
          have := hno c2 (by simp)
          rw [e2] at this
          cases this
        · obtain ⟨_, i, h5, _⟩ := h4
          rw [he] at h5
          cases h5


theorem revShape_append (ns dd : List Str) (hns : ∀ x ∈ ns, isName x = true)
    (hdd : ∀ x ∈ dd, isName x = false) : RevShape (ns ++ dd) := by
  induction ns with
  | nil =>
    cases dd with
    | nil => exact True.intro
    | cons c up => exact Or.inr hdd
  | cons c l ih =>
    exact Or.inl ⟨hns c (by simp), ih (fun x hx => hns x (by simp [hx]))⟩

theorem revShape_Clean (path : Str) : RevShape (elemsOf (Clean path)).reverse := by
  obtain ⟨dd, ns, h1, h2, h3⟩ := elemsOf_Clean path
  rw [h1, List.reverse_append]
  exact revShape_append _ _ (fun x hx => h3 x (by simpa using hx))
    (fun x hx => h2 x (by simpa using hx))

theorem setRoot_self (w : World) : w.setRoot w.root = w := by
  cases w; rfl

theorem walk_elemsOf (w : World) (P : Str) :
    walk (w.base P) (elemsOf P).reverse.reverse = w.locate P := by
  rw [List.reverse_reverse]
  exact walk_filter _ _

theorem Stat_of_resolve (w : World) (P : Str) (n : Node) (h : w.resolve P = Except.ok n) :
    Stat w P = n.info := by
  unfold Stat
  rw [h]

theorem Stat_error_iff (w : World) (P : Str) (e : Errno) :
    Stat w P = Except.error e ↔ w.resolve P = Except.error e := by
  unfold Stat
  cases h : w.resolve P with
  | error e2 => simp
  | ok n =>
    have hn : n ≠ Node.absent := by
      unfold World.resolve at h
      cases hp : pathError P with
      | some e3 => simp [hp] at h
      | none =>
        simp only [hp] at h
        exact resolve_ok_ne_absent _ _ _ _ h
    obtain ⟨i, hi⟩ := info_ok_of_ne_absent n hn
    simp [hi]

/-- What a successful `MkdirAll` of a cleaned path has done. -/
theorem refusedAll_fails (perm n : Nat) (w : World) (P : Str) (e : Errno) :
    (refusedAll perm n w P e).1 ≠ Except.ok () := by
  induction n generalizing P e with
  | zero => simp [refusedAll]
  | succ n ih =>
    unfold refusedAll
    cases parentOf P with
    | none => simp
    | some par =>
      simp only
      cases pathError par with
      | some e1 => exact ih par e1
      | none =>
        simp only
        cases hm : mkdirAllRev w.privileged w.umask (w.base par) perm (elemsOf par).reverse
          w.root with
        | mk r root1 =>
          cases r with
          | error e2 => simp
          | ok u => simp

theorem MkdirAll_ok (w w1 : World) (P : Str) (perm : Nat) (hP : RevShape (elemsOf P).reverse)
    (h : MkdirAll w P perm = (Except.ok (), w1)) :
    SameEnv w w1 ∧ pathError P = none ∧
    (∀ i, Stat w P = Except.ok i → w1 = w ∧ i.isDir = true) ∧
    (∀ e, Stat w P = Except.error e →
      e = Errno.ENOENT ∧ w1.resolve P = Except.ok (emptyDir (newMode perm w.umask))) ∧
    (∃ m, Stat w1 P = Except.ok ⟨true, m⟩) ∧
    (∀ x, ¬ x <+: w.locate P → Node.find w1.root x = Node.find w.root x) ∧
    (∀ n, w.lookup P = Except.ok n → w1 = w) := by
  unfold MkdirAll at h
  cases hpe : pathError P with
  | some e =>
    simp only [hpe] at h
    exact absurd (congrArg Prod.fst h) (refusedAll_fails _ _ _ _ _)
  | none =>
    simp only [hpe] at h
    have hne := pathError_ne_nil P hpe
    cases hr : mkdirAllRev w.privileged w.umask (w.base P) perm (elemsOf P).reverse w.root with
    | mk res root1 =>
      simp only [hr, Prod.mk.injEq] at h
      obtain ⟨h1, h2⟩ := h
      subst h1 h2
      have hse : SameEnv w (w.setRoot root1) := SameEnv.setRoot w root1
      have hok := mkdirAllRev_ok _ _ _ _ _ hP _ _ hr
      rw [walk_elemsOf] at hok
      have hA : ∀ i, Stat w P = Except.ok i → w.setRoot root1 = w ∧ i.isDir = true := by
        intro i hi
        rw [Stat_eq_statAt _ _ hpe] at hi
        rw [(hok.1 i hi).1, setRoot_self]
        exact ⟨rfl, (hok.1 i hi).2⟩
      have hB : ∀ e, Stat w P = Except.error e → e = Errno.ENOENT ∧
          (w.setRoot root1).resolve P = Except.ok (emptyDir (newMode perm w.umask)) := by
        intro e he
        rw [Stat_eq_statAt _ _ hpe] at he
        refine ⟨(hok.2 e he).1, ?_⟩
        rw [resolve_eq _ _ hpe, hse.locate]
        exact (hok.2 e he).2
      refine ⟨hse, rfl, hA, hB, ?_, ?_, ?_⟩
      · cases hs : Stat w P with
        | error e =>
          refine ⟨(newMode perm w.umask).perm, ?_⟩
          rw [Stat_of_resolve _ _ _ (hB e hs).2]
          rfl
        | ok i =>
          rw [(hA i hs).1, hs]
          have := (hA i hs).2
          refine ⟨i.perm, ?_⟩
          cases i with
          | mk d p => simp at this; subst this; rfl
      · intro x hx
        exact mkdirAllRev_frame _ _ _ _ _ hP _ _ hr x (by rw [walk_elemsOf]; exact hx)
      · intro n hn
        rw [lookup_eq_find _ _ hne] at hn
        have := mkdirAllRev_present _ _ _ _ _ hP _ _ n (by rw [walk_elemsOf]; exact hn) hr
        rw [this, setRoot_self]

theorem lastIsName_split (F : Str) (h : lastIsName F = true) :
    ∃ init c, elemsOf F = init ++ [c] ∧ isName c = true := by
  unfold lastIsName at h
  cases hl : (elemsOf F).getLast? with
  | none => simp [hl] at h
  | some c =>
    simp only [hl] at h
    obtain ⟨init, hi⟩ := List.getLast?_eq_some_iff.mp hl
    exact ⟨init, c, hi, h⟩

theorem locate_of_lastIsName (w : World) (F : Str) (h : lastIsName F = true) :
    ∃ q c, w.locate F = q ++ [c] := by
  obtain ⟨init, c, h1, h2⟩ := lastIsName_split F h
  refine ⟨walk (w.base F) init, c, ?_⟩
  have : w.locate F = walk (w.base F) (elemsOf F) := (walk_filter _ _).symm
  rw [this, h1, walk_snoc_name _ _ _ h2]

/-- What a successful `WriteFile` has done: the file holds the data; a file that
was there keeps its mode, a new file is owned by the process and has the
requested bits less the mask. -/
theorem WriteFile_ok (w w2 : World) (F data : Str) (perm : Nat)
    (h : WriteFile w F data perm = (Except.ok (), w2)) :
    SameEnv w w2 ∧ pathError F = none ∧ ∃ q c m k md, w.locate F = q ++ [c] ∧
      Node.resolve w.privileged w.root q = Except.ok (Node.dir m k) ∧
      stepError w.privileged m c = none ∧
      w2.root = Node.update (fun _ => Node.file md data) w.root (q ++ [c]) ∧
      ((k c = Node.absent ∧ md = newMode perm w.umask) ∨ ∃ d0, k c = Node.file md d0) := by
  unfold WriteFile at h
  cases hpe : pathError F with
  | some e => simp [hpe] at h
  | none =>
    simp only [hpe] at h
    by_cases hl : lastIsName F = true
    · simp only [hl, if_true] at h
      obtain ⟨q, c, hqc⟩ := locate_of_lastIsName w _ hl
      rw [hqc, List.dropLast_concat] at h
      cases hf : Node.resolve w.privileged w.root (q ++ [c]) with
      | ok n =>
        cases n with
        | absent => exact absurd rfl (resolve_ok_ne_absent _ _ _ _ hf)
        | dir m2 k2 => simp [hf] at h
        | file m2 d2 =>
          simp only [hf] at h
          obtain ⟨m, k, h1, h2, h3⟩ := resolve_parent_dir _ _ _ _ _ hf
          by_cases hw : mayWrite w.privileged m2 = true
          · simp only [hw, if_true, Prod.mk.injEq, true_and] at h
            subst h
            exact ⟨SameEnv.setRoot _ _, rfl, q, c, m, k, m2, hqc, h1, h3, rfl, Or.inr ⟨d2, h2⟩⟩
          · simp [hw] at h
      | error e =>
        cases e <;> simp only [hf] at h <;> try (exact absurd h (by simp))
        cases hq : Node.resolve w.privileged w.root q with
        | error e2 => simp [hq] at h
        | ok n =>
          cases n with
          | absent => simp [hq] at h
          | file m d => simp [hq] at h
          | dir m k =>
            simp only [hq] at h
            obtain ⟨h1, h2⟩ := absent_of_resolve_enoent _ _ _ _ _ _ hq hf
            by_cases hw : mayWrite w.privileged m = true
            · simp only [hw, if_true, Prod.mk.injEq, true_and] at h
              subst h
              exact ⟨SameEnv.setRoot _ _, rfl, q, c, m, k, _, hqc, hq, h2, rfl,
                Or.inl ⟨h1, rfl⟩⟩
            · simp [hw] at h
    · simp only [hl] at h
      cases hf : Node.resolve w.privileged w.root (w.locate F) with
      | error e => simp [hf] at h
      | ok n => cases n <;> simp [hf] at h

/-- After a successful `WriteFile` the path resolves to a regular file that
holds the data. -/
theorem WriteFile_file (w w2 : World) (F data : Str) (perm : Nat)
    (h : WriteFile w F data perm = (Except.ok (), w2)) :
    ∃ md, w2.resolve F = Except.ok (Node.file md data) ∧
      w2.lookup F = Except.ok (Node.file md data) := by
  obtain ⟨hse, hpe, q, c, m, k, md, h1, h2, h3, h4, _⟩ := WriteFile_ok _ _ _ _ _ h
  have hr : w2.resolve F = Except.ok (Node.file md data) := by
    rw [resolve_eq _ _ hpe, hse.locate, h1, h4, hse.2.2.1,
      resolve_update_entry _ _ _ q c [] m k h2 h3]
    rfl
  refine ⟨md, hr, ?_⟩
  rw [lookup_eq_find _ _ (pathError_ne_nil F hpe)]
  rw [resolve_eq _ _ hpe] at hr
  exact find_of_resolve _ _ _ _ hr

/-- What a successful `RemoveAll` has done: nothing when the path was reported
missing, otherwise the node at the path is gone. -/
theorem RemoveAll_ok (w w1 : World) (P : Str) (h : RemoveAll w P = (Except.ok (), w1)) :
    SameEnv w w1 ∧
      ((w1 = w ∧ (P = [] ∨ (pathError P = none ∧
          Node.resolve w.privileged w.root (w.locate P) = Except.error Errno.ENOENT))) ∨
        (pathError P = none ∧ ∃ q c n, w.locate P = q ++ [c] ∧
          Node.resolve w.privileged w.root (q ++ [c]) = Except.ok n ∧
          w1.root = Node.update (fun _ => Node.absent) w.root (q ++ [c]))) := by
  cases P with
  | nil =>
    simp [RemoveAll] at h
    subst h
    exact ⟨SameEnv.refl _, Or.inl ⟨rfl, Or.inl rfl⟩⟩
  | cons a as =>
    unfold RemoveAll at h
    by_cases hdot : endsWithDot (a :: as) = true
    · simp [hdot] at h
    · simp only [hdot, Bool.false_eq_true, if_false] at h
      cases hpe : pathError (a :: as) with
      | some e => simp [hpe] at h
      | none =>
        simp only [hpe] at h
        cases hf : Node.resolve w.privileged w.root (w.locate (a :: as)) with
        | error e =>
          cases e <;> simp [hf] at h
          subst h
          exact ⟨SameEnv.refl _, Or.inl ⟨rfl, Or.inr ⟨rfl, rfl⟩⟩⟩
        | ok n =>
          simp only [hf] at h
          by_cases hl : lastIsName (a :: as) = true
          · simp only [hl, if_true] at h
            obtain ⟨q, c, hqc⟩ := locate_of_lastIsName w _ hl
            rw [hqc] at hf
            rw [hqc, List.dropLast_concat] at h
            obtain ⟨m, k, h1, _, _⟩ := resolve_parent_dir _ _ _ _ _ hf
            simp only [h1] at h
            by_cases hw : mayWrite w.privileged m = true
            · simp only [hw, if_true, Prod.mk.injEq, true_and] at h
              subst h
              exact ⟨SameEnv.setRoot _ _, Or.inr ⟨rfl, q, c, n, hqc, hf, rfl⟩⟩
            · simp [hw] at h
          · simp [hl] at h

theorem resolve_removed (priv : Bool) (root : Node) (q : Loc) (c : Str) (n : Node) (r : Loc)
    (h : Node.resolve priv root (q ++ [c]) = Except.ok n) :
    Node.resolve priv (Node.update (fun _ => Node.absent) root (q ++ [c])) (q ++ [c] ++ r) =
      Except.error Errno.ENOENT := by
  obtain ⟨m, k, hq, _, hs⟩ := resolve_parent_dir priv root q c n h
  have e1 : q ++ [c] ++ r = q ++ c :: r := by simp
  rw [e1, resolve_update_entry priv _ root q c r m k hq hs]
  exact resolve_absent priv r


/-! ## The paths of the package -/

theorem isPlain_name (n : Str) (h : isPlain n = true) : isName n = true ∧ '/' ∉ n := by
  simpa [isPlain] using h

theorem isPlain_strConfigJson : isPlain strConfigJson = true := by decide

theorem isPlain_strLogs : isPlain strLogs = true := by decide

theorem isPlain_strLog : isPlain strLog = true := by decide

theorem isPlain_strServer : isPlain strServer = true := by decide

theorem Join_two (a n : Str) (ha : a ≠ []) : Join [a, n] = Clean (a ++ '/' :: n) := by
  rw [Join_cons a _ ha]; rfl

theorem Join_three (a b n : Str) (ha : a ≠ []) :
    Join [a, b, n] = Clean ((a ++ '/' :: b) ++ '/' :: n) := by
  rw [Join_cons a _ ha]
  simp [joinSlash]

theorem Join_four (a b c n : Str) (ha : a ≠ []) :
    Join [a, b, c, n] = Clean (((a ++ '/' :: b) ++ '/' :: c) ++ '/' :: n) := by
  rw [Join_cons a _ ha]
  simp [joinSlash]

theorem configDirPath_ne_nil (U : Str) : configDirPath U ≠ [] := by
  unfold configDirPath
  by_cases hU : U = []
  · subst hU
    have : Join [[], strDaytona, strServer] = Clean (joinSlash [strDaytona, strServer]) := by
      decide
    rw [this]
    exact Clean_ne_nil _
  · exact Join_ne_nil _ _ hU

theorem locate_configDirPath (w : World) (U : Str) :
    w.locate (configDirPath U) = w.locate U ++ [strDaytona, strServer] := by
  unfold configDirPath
  by_cases hU : U = []
  · subst hU
    have h1 : Join [[], strDaytona, strServer] = Clean (strDaytona ++ '/' :: strServer) := by
      decide
    rw [h1, locate_Clean_snoc w _ _ (by decide) isPlain_strServer]
    have h2 : w.locate strDaytona = w.locate [] ++ [strDaytona] := by
      simp only [World.locate, World.base]
      have e1 : isRooted strDaytona = false := by decide
      have e2 : isRooted [] = false := rfl
      have e3 : splitSlash strDaytona = [strDaytona] := by decide
      have e4 : splitSlash [] = [[]] := rfl
      rw [e1, e2, e3, e4]
      simp only [Bool.false_eq_true, if_false, walk_cons, walk_nil, walkStep_nil]
      exact walkStep_name _ _ (by decide)
    rw [h2]
    simp
  · rw [Join_three U _ _ hU, locate_Clean_snoc w _ _ (by simp) isPlain_strServer,
      locate_append_slash w _ _ hU, splitSlash_noSlash strDaytona (by decide), walk_cons, walk_nil,
      walkStep_name _ _ (by decide)]
    simp

theorem configFile_ne_nil (U : Str) : configFile U ≠ [] :=
  Join_ne_nil _ _ (configDirPath_ne_nil U)

theorem logsDirPath_ne_nil (U : Str) : logsDirPath U ≠ [] :=
  Join_ne_nil _ _ (configDirPath_ne_nil U)

theorem workspaceDir_ne_nil (U wid : Str) : workspaceDir U wid ≠ [] :=
  Join_ne_nil _ _ (logsDirPath_ne_nil U)

theorem workspaceLog_ne_nil (U wid : Str) : workspaceLog U wid ≠ [] :=
  Join_ne_nil _ _ (logsDirPath_ne_nil U)

theorem projectLog_ne_nil (U wid pid : Str) : projectLog U wid pid ≠ [] :=
  Join_ne_nil _ _ (logsDirPath_ne_nil U)

theorem locate_configFile (w : World) (U : Str) :
    w.locate (configFile U) = w.locate (configDirPath U) ++ [strConfigJson] := by
  unfold configFile
  rw [Join_two _ _ (configDirPath_ne_nil U),
    locate_Clean_snoc w _ _ (configDirPath_ne_nil U) isPlain_strConfigJson]

theorem locate_Dir_configFile (w : World) (U : Str) :
    w.locate (Dir (configFile U)) = w.locate (configDirPath U) := by
  unfold configFile
  rw [Join_two _ _ (configDirPath_ne_nil U),
    locate_Dir_Clean_snoc w _ _ (configDirPath_ne_nil U) isPlain_strConfigJson]

theorem locate_logsDirPath (w : World) (U : Str) :
    w.locate (logsDirPath U) = w.locate (configDirPath U) ++ [strLogs] := by
  unfold logsDirPath
  rw [Join_two _ _ (configDirPath_ne_nil U),
    locate_Clean_snoc w _ _ (configDirPath_ne_nil U) isPlain_strLogs]

theorem locate_workspaceDir (w : World) (U wid : Str) :
    w.locate (workspaceDir U wid) = walk (w.locate (logsDirPath U)) (splitSlash wid) := by
  unfold workspaceDir
  rw [Join_two _ _ (logsDirPath_ne_nil U), locate_Clean,
    locate_append_slash w _ _ (logsDirPath_ne_nil U)]

theorem locate_workspaceDir_plain (w : World) (U wid : Str) (h : isPlain wid = true) :
    w.locate (workspaceDir U wid) = w.locate (logsDirPath U) ++ [wid] := by
  rw [locate_workspaceDir, splitSlash_noSlash wid (isPlain_name wid h).2, walk_cons, walk_nil,
    walkStep_name _ _ (isPlain_name wid h).1]

theorem locate_workspaceLog (w : World) (U wid : Str) :
    w.locate (workspaceLog U wid) = w.locate (workspaceDir U wid) ++ [strLog] := by
  unfold workspaceLog
  rw [Join_three _ _ _ (logsDirPath_ne_nil U), locate_Clean_snoc w _ _ (by simp) isPlain_strLog,
    locate_append_slash w _ _ (logsDirPath_ne_nil U), locate_workspaceDir]

theorem locate_Dir_workspaceLog (w : World) (U wid : Str) :
    w.locate (Dir (workspaceLog U wid)) = w.locate (workspaceDir U wid) := by
  unfold workspaceLog
  rw [Join_three _ _ _ (logsDirPath_ne_nil U), locate_Dir_Clean_snoc w _ _ (by simp) isPlain_strLog,
    locate_append_slash w _ _ (logsDirPath_ne_nil U), locate_workspaceDir]

theorem locate_projectLog (w : World) (U wid pid : Str) :
    w.locate (projectLog U wid pid) =
      walk (w.locate (workspaceDir U wid)) (splitSlash pid) ++ [strLog] := by
  unfold projectLog
  rw [Join_four _ _ _ _ (logsDirPath_ne_nil U), locate_Clean_snoc w _ _ (by simp) isPlain_strLog,
    locate_append_slash w _ _ (by simp), locate_append_slash w _ _ (logsDirPath_ne_nil U),
    locate_workspaceDir]

theorem locate_projectLog_plain (w : World) (U wid pid : Str) (h : isPlain pid = true) :
    w.locate (projectLog U wid pid) = w.locate (workspaceDir U wid) ++ [pid, strLog] := by
  rw [locate_projectLog, splitSlash_noSlash pid (isPlain_name pid h).2, walk_cons, walk_nil,
    walkStep_name _ _ (isPlain_name pid h).1]
  simp

theorem GetConfigDir_ok (w : World) (U : Str) (hU : w.userConfigDir = Except.ok U) :
    GetConfigDir w = Except.ok (configDirPath U) := by
  simp [GetConfigDir, hU, configDirPath]

theorem configFilePath_ok (w : World) (U : Str) (hU : w.userConfigDir = Except.ok U) :
    configFilePath w = Except.ok (configFile U) := by
  simp [configFilePath, GetConfigDir_ok w U hU, configFile]

theorem GetWorkspaceLogsDir_ok (w : World) (U : Str) (hU : w.userConfigDir = Except.ok U) :
    GetWorkspaceLogsDir w = Except.ok (logsDirPath U) := by
  simp [GetWorkspaceLogsDir, GetConfigDir_ok w U hU, logsDirPath]

theorem GetConfigDir_error (w : World) (e : Error) (hU : w.userConfigDir = Except.error e) :
    GetConfigDir w = Except.error e := by
  simp [GetConfigDir, hU]

theorem revShape_Dir (p : Str) : RevShape (elemsOf (Dir p)).reverse := revShape_Clean _


theorem Clean_configDirPath (U : Str) : Clean (configDirPath U) = configDirPath U := by
  unfold configDirPath
  by_cases hU : U = []
  · subst hU
    have : Join [[], strDaytona, strServer] = Clean (joinSlash [strDaytona, strServer]) := by
      decide
    rw [this, Clean_Clean]
  · rw [Join_cons U _ hU, Clean_Clean]

/-- The directory `Save` makes is the configuration directory. -/
theorem Dir_configFile (U : Str) : Dir (configFile U) = configDirPath U := by
  unfold configFile
  rw [Join_two _ _ (configDirPath_ne_nil U),
    Dir_Clean_snoc _ _ (configDirPath_ne_nil U) isPlain_strConfigJson, Clean_configDirPath]

/-- The directory `GetWorkspaceLogFilePath` makes is the one
`DeleteWorkspaceLogs` removes. -/
theorem Dir_workspaceLog (U wid : Str) : Dir (workspaceLog U wid) = workspaceDir U wid := by
  unfold workspaceLog workspaceDir
  rw [Join_three _ _ _ (logsDirPath_ne_nil U), Dir_Clean_snoc _ _ (by simp) isPlain_strLog,
    Join_two _ _ (logsDirPath_ne_nil U)]

theorem Dir_projectLog (U wid pid : Str) : Dir (projectLog U wid pid) = projectDir U wid pid := by
  unfold projectLog projectDir
  rw [Join_four _ _ _ _ (logsDirPath_ne_nil U), Dir_Clean_snoc _ _ (by simp) isPlain_strLog,
    Join_three _ _ _ (logsDirPath_ne_nil U)]

theorem revShape_configDirPath (U : Str) : RevShape (elemsOf (configDirPath U)).reverse := by
  rw [← Dir_configFile]
  exact revShape_Dir _

theorem revShape_workspaceDir (U wid : Str) : RevShape (elemsOf (workspaceDir U wid)).reverse := by
  rw [← Dir_workspaceLog]
  exact revShape_Dir _

theorem revShape_projectDir (U wid pid : Str) :
    RevShape (elemsOf (projectDir U wid pid)).reverse := by
  rw [← Dir_projectLog]
  exact revShape_Dir _


/-! ## GetConfig, Save and init -/

theorem stepError_of_clear (priv : Bool) (m : Mode) (c : Str) (h1 : maySearch priv m = true)
    (h2 : nameTooLong c = false) : stepError priv m c = none := by
  simp [stepError, h1, h2]

theorem maySearch_mono (priv : Bool) (m : Mode) (h : maySearch false m = true) :
    maySearch priv m = true := by
  simp only [maySearch, Bool.false_or] at h
  simp [maySearch, h]

theorem mayRead_mono (priv : Bool) (m : Mode) (h : mayRead false m = true) :
    mayRead priv m = true := by
  simp only [mayRead, Bool.false_or] at h
  simp [mayRead, h]

theorem resolve_error_of_wayClear (priv : Bool) (n : Node) (p : Loc) (e : Errno)
    (h : wayClear priv n p = true) (he : Node.resolve priv n p = Except.error e) :
    e = Errno.ENOENT := by
  induction p generalizing n with
  | nil =>
    cases n with
    | absent => simpa [Node.resolve] using he.symm
    | file m d => simp [Node.resolve] at he
    | dir m k => simp [Node.resolve] at he
  | cons c p ih =>
    cases n with
    | absent => rw [resolve_absent] at he; injection he with he; exact he.symm
    | file m d => simp [wayClear] at h
    | dir m k =>
      simp only [wayClear, Bool.and_eq_true, Bool.not_eq_true'] at h
      rw [resolve_dir_cons_ok _ _ _ _ _ (stepError_of_clear _ _ _ h.1.1 h.1.2)] at he
      exact ih (k c) h.2 he

theorem find_of_resolve_enoent (priv : Bool) (n : Node) (p : Loc)
    (h : Node.resolve priv n p = Except.error Errno.ENOENT) :
    Node.find n p = Except.error Errno.ENOENT := by
  induction p generalizing n with
  | nil =>
    cases n with
    | absent => rfl
    | file m d => simp [Node.resolve] at h
    | dir m k => simp [Node.resolve] at h
  | cons c p ih =>
    cases n with
    | absent => rfl
    | file m d => simp [Node.resolve] at h
    | dir m k =>
      rw [resolve_dir_cons] at h
      cases hs : stepError priv m c with
      | some e =>
        simp only [hs] at h
        unfold stepError at hs
        split_ifs at hs <;> simp at hs <;> subst hs <;> simp at h
      | none =>
        simp only [hs] at h
        exact ih (k c) h

theorem pathError_enoent (P : Str) (h : pathError P = some Errno.ENOENT) : P = [] := by
  unfold pathError at h
  split_ifs at h with h1 h2 h3
  · exact h1
  · simp at h
  · simp at h

/-- When stat reports that a path is missing, the lookup in the tree ends at a
missing entry. -/
theorem resolve_of_Stat_enoent (w : World) (P : Str) (hne : P ≠ [])
    (h : Stat w P = Except.error Errno.ENOENT) :
    pathError P = none ∧
      Node.resolve w.privileged w.root (w.locate P) = Except.error Errno.ENOENT := by
  rw [Stat_error_iff] at h
  unfold World.resolve at h
  cases hp : pathError P with
  | some e =>
    simp only [hp, Except.error.injEq] at h
    subst h
    exact absurd (pathError_enoent P hp) hne
  | none =>
    simp only [hp] at h
    exact ⟨rfl, h⟩

theorem Stat_error_of_wayClear (w : World) (P : Str) (e : Errno) (hp : pathError P = none)
    (h : wayClear w.privileged w.root (w.locate P) = true) (he : Stat w P = Except.error e) :
    e = Errno.ENOENT := by
  rw [Stat_eq_statAt _ _ hp, statAt_error_iff] at he
  exact resolve_error_of_wayClear _ _ _ _ h he

theorem GetConfig_snd {Cfg : Type} (J : Codec Cfg) (w : World) : (GetConfig J w).2 = w := by
  unfold GetConfig
  cases configFilePath w with
  | error e => rfl
  | ok F =>
    simp only
    cases Stat w F with
    | error e => simp only; split_ifs <;> rfl
    | ok i =>
      simp only
      cases ReadFile w F with
      | error e => rfl
      | ok b =>
        simp only
        cases J.Unmarshal b <;> rfl

/-- The outcome of `GetConfig` when the file can be stat-ed. -/
theorem GetConfig_of_stat {Cfg : Type} (J : Codec Cfg) (w : World) (U : Str)
    (hU : w.userConfigDir = Except.ok U) (i : FileInfo)
    (hs : Stat w (configFile U) = Except.ok i) :
    GetConfig J w =
      match ReadFile w (configFile U) with
      | Except.error e => (Except.error (Error.sys e), w)
      | Except.ok b =>
        match J.Unmarshal b with
        | Except.error err => (Except.error err, w)
        | Except.ok c => (Except.ok c, w) := by
  unfold GetConfig
  rw [configFilePath_ok w U hU]
  simp only [hs]

theorem GetConfig_of_stat_error {Cfg : Type} (J : Codec Cfg) (w : World) (U : Str)
    (hU : w.userConfigDir = Except.ok U) (e : Errno)
    (hs : Stat w (configFile U) = Except.error e) :
    GetConfig J w =
      if e = Errno.ENOENT then (Except.error (Error.msg "config file does not exist"), w)
      else (Except.error (Error.sys e), w) := by
  unfold GetConfig
  rw [configFilePath_ok w U hU]
  simp only [hs, IsNotExist]
  by_cases he : e = Errno.ENOENT
  · simp [he]
  · simp [he]

/-- The steps of a successful `Save`. -/
theorem Save_ok {Cfg : Type} (J : Codec Cfg) (c : Cfg) (w w1 : World)
    (h : Save J c w = (Except.ok (), w1)) :
    ∃ U b wm, w.userConfigDir = Except.ok U ∧ J.MarshalIndent c [] [' ', ' '] = Except.ok b ∧
      MkdirAll w (configDirPath U) 0o700 = (Except.ok (), wm) ∧
      WriteFile wm (configFile U) b 0o600 = (Except.ok (), w1) := by
  cases hU : w.userConfigDir with
  | error e =>
    unfold Save configFilePath at h
    rw [GetConfigDir_error w e hU] at h
    simp at h
  | ok U =>
    unfold Save at h
    rw [configFilePath_ok w U hU] at h
    simp only at h
    rw [Dir_configFile] at h
    cases hm : J.MarshalIndent c [] [' ', ' '] with
    | error e => simp [hm] at h
    | ok b =>
      simp only [hm] at h
      cases hd : MkdirAll w (configDirPath U) 0o700 with
      | mk r wm =>
        cases r with
        | error e => simp [hd] at h
        | ok u =>
          simp only [hd] at h
          cases hw : WriteFile wm (configFile U) b 0o600 with
          | mk r2 w2 =>
            cases r2 with
            | error e => simp [hw] at h
            | ok u2 =>
              simp only [hw, Prod.mk.injEq, true_and] at h
              subst h
              exact ⟨U, b, wm, rfl, rfl, hd, hw⟩

/-- The outcome of `GetConfig` in a state where `config.json` resolves to a
regular file: the decoded content when the process may read the file, the
error `EACCES` when it may not. -/
theorem GetConfig_of_file {Cfg : Type} (J : Codec Cfg) (w : World) (U : Str)
    (hU : w.userConfigDir = Except.ok U) (md : Mode) (b : Str)
    (hr : w.resolve (configFile U) = Except.ok (Node.file md b)) :
    GetConfig J w =
      if mayRead w.privileged md then
        match J.Unmarshal b with
        | Except.error err => (Except.error err, w)
        | Except.ok c => (Except.ok c, w)
      else (Except.error (Error.sys Errno.EACCES), w) := by
  have hs : Stat w (configFile U) = Except.ok ⟨false, md.perm⟩ := by
    rw [Stat_of_resolve _ _ _ hr]; rfl
  rw [GetConfig_of_stat J w U hU _ hs]
  unfold ReadFile
  rw [hr]
  by_cases hm : mayRead w.privileged md = true
  · simp [hm]
  · simp [hm]

theorem readable_of_lookup (w : World) (P : Str) (md : Mode) (b : Str)
    (h : w.lookup P = Except.ok (Node.file md b)) : w.readable P = mayRead w.privileged md := by
  unfold World.readable
  rw [h]

/-- The file that a successful `WriteFile` leaves, with its mode: the mode
asked for, less the mask, when the file has been created, and the mode it had
when it was there before. -/
theorem WriteFile_mode (w w2 : World) (F data : Str) (perm : Nat)
    (h : WriteFile w F data perm = (Except.ok (), w2)) :
    ∃ md, w2.resolve F = Except.ok (Node.file md data) ∧
      w2.lookup F = Except.ok (Node.file md data) ∧
      ((w.resolve F = Except.error Errno.ENOENT ∧ md = newMode perm w.umask) ∨
        ∃ d0, w.resolve F = Except.ok (Node.file md d0)) := by
  obtain ⟨hse, hpe, q, c, m, k, md, h1, h2, h3, h4, h5⟩ := WriteFile_ok _ _ _ _ _ h
  have hr : w2.resolve F = Except.ok (Node.file md data) := by
    rw [resolve_eq _ _ hpe, hse.locate, h1, h4, hse.2.2.1,
      resolve_update_entry _ _ _ q c [] m k h2 h3]
    rfl
  have hl : w2.lookup F = Except.ok (Node.file md data) := by
    rw [lookup_eq_find _ _ (pathError_ne_nil F hpe)]
    rw [resolve_eq _ _ hpe] at hr
    exact find_of_resolve _ _ _ _ hr
  have hbefore : w.resolve F = Node.resolve w.privileged (k c) [] := by
    rw [resolve_eq _ _ hpe, h1, resolve_append_ok _ _ q [c] _ h2,
      resolve_dir_cons_ok _ _ _ _ _ h3]
  refine ⟨md, hr, hl, ?_⟩
  rcases h5 with ⟨ha, hmd⟩ | ⟨d0, hf⟩
  · left
    rw [hbefore, ha]
    exact ⟨rfl, hmd⟩
  · right
    refine ⟨d0, ?_⟩
    rw [hbefore, hf]
    rfl

theorem configFile_not_le (w : World) (U : Str) :
    ¬ w.locate (configFile U) <+: w.locate (configDirPath U) := by
  rw [locate_configFile]
  intro hp
  have := hp.length_le
  simp at this

/-- What is found at `config.json` has the configuration directory above it. -/
theorem lookup_configDir_of_file (w : World) (U : Str) (n : Node)
    (h : Node.find w.root (w.locate (configFile U)) = Except.ok n) :
    ∃ d, w.lookup (configDirPath U) = Except.ok d := by
  rw [locate_configFile] at h
  obtain ⟨m, k, hq, _⟩ := find_parent_dir _ _ _ _ h
  exact ⟨_, by rw [lookup_eq_find _ _ (configDirPath_ne_nil U)]; exact hq⟩

/-- The file that a successful `Save` leaves: `config.json` holds the encoding
of the record, with mode `0600` less the mask when `Save` has created it and
with the mode it had when it was there before. -/
theorem Save_mode {Cfg : Type} (J : Codec Cfg) (c : Cfg) (w w1 : World)
    (h : Save J c w = (Except.ok (), w1)) :
    ∃ U b md, w.userConfigDir = Except.ok U ∧ SameEnv w w1 ∧
      J.MarshalIndent c [] [' ', ' '] = Except.ok b ∧
      w1.resolve (configFile U) = Except.ok (Node.file md b) ∧
      w1.lookup (configFile U) = Except.ok (Node.file md b) ∧
      ((w.lookup (configFile U) = Except.error Errno.ENOENT ∧ md = newMode 0o600 w.umask) ∨
        ∃ d0, w.resolve (configFile U) = Except.ok (Node.file md d0)) := by
  obtain ⟨U, b, wm, hU, hb, hmk, hwr⟩ := Save_ok J c w w1 h
  obtain ⟨hse1, _, _, _, _, hframe, hpres⟩ := MkdirAll_ok w wm _ _ (revShape_configDirPath U) hmk
  obtain ⟨hse2, hpe, _⟩ := WriteFile_ok wm w1 _ _ _ hwr
  obtain ⟨md, hres, hlook, hmode⟩ := WriteFile_mode wm w1 _ _ _ hwr
  have hfr : Node.find wm.root (wm.locate (configFile U)) =
      Node.find w.root (w.locate (configFile U)) := by
    rw [hse1.locate]
    exact hframe _ (configFile_not_le w U)
  refine ⟨U, b, md, hU, hse1.trans hse2, hb, hres, hlook, ?_⟩
  rcases hmode with ⟨hen, hmd⟩ | ⟨d0, hf⟩
  · left
    rw [resolve_eq _ _ hpe] at hen
    have := find_of_resolve_enoent _ _ _ hen
    rw [hfr] at this
    rw [lookup_eq_find _ _ (configFile_ne_nil U)]
    exact ⟨this, by rw [hmd, hse1.2.1]⟩
  · right
    have hf2 := hf
    rw [resolve_eq _ _ hpe] at hf2
    have hfind := find_of_resolve _ _ _ _ hf2
    rw [hfr] at hfind
    obtain ⟨d, hd⟩ := lookup_configDir_of_file w U _ hfind
    have hwm : wm = w := hpres d hd
    rw [hwm] at hf
    exact ⟨d0, hf⟩

/-- After a successful `Save` of a record that its encoding decodes back to,
`GetConfig` returns the record when the process may read `config.json` and
fails with `EACCES` when it may not. -/
theorem GetConfig_after_Save_mode {Cfg : Type} (J : Codec Cfg) (c : Cfg) (w1 : World) (U : Str)
    (b : Str) (md : Mode)
    (hvalid : ∀ b, J.MarshalIndent c [] [' ', ' '] = Except.ok b → J.Unmarshal b = Except.ok c)
    (hU : w1.userConfigDir = Except.ok U) (hb : J.MarshalIndent c [] [' ', ' '] = Except.ok b)
    (hres : w1.resolve (configFile U) = Except.ok (Node.file md b)) :
    GetConfig J w1 =
      (if mayRead w1.privileged md then Except.ok c else Except.error (Error.sys Errno.EACCES),
        w1) := by
  rw [GetConfig_of_file J w1 U hU md b hres, hvalid b hb]
  by_cases hm : mayRead w1.privileged md = true
  · simp [hm]
  · simp [hm]

theorem lookup_of_resolve (w : World) (P : Str) (n : Node) (h : w.resolve P = Except.ok n) :
    w.lookup P = Except.ok n := by
  unfold World.resolve at h
  cases hp : pathError P with
  | some e => simp [hp] at h
  | none =>
    simp only [hp] at h
    rw [lookup_eq_find _ _ (pathError_ne_nil P hp)]
    exact find_of_resolve _ _ _ _ h


/-! ## The claims about GetConfig, Save and init -/

/-- C1 as stated fails: in `writeOnlyWorld` the user configuration directory
resolves and `config.json` has mode 0200. `Save` of the valid record `true`
succeeds (the owner may write the file, whose mode `os.WriteFile` keeps), and
the `GetConfig` that follows fails with `EACCES`. -/
theorem Save_GetConfig_roundtrip_counterexample :
    writeOnlyWorld.userConfigDir = Except.ok sampleDir ∧
      sampleCodec.Unmarshal (lit "true") = Except.ok true ∧
      sampleCodec.MarshalIndent true [] [' ', ' '] = Except.ok (lit "true") ∧
      Stat writeOnlyWorld (configFile sampleDir) = Except.ok ⟨false, 0o200⟩ ∧
      (Save sampleCodec true writeOnlyWorld).1 = Except.ok () ∧
      (GetConfig sampleCodec (Save sampleCodec true writeOnlyWorld).2).1 =
        Except.error (Error.sys Errno.EACCES) := by
  refine ⟨rfl, by decide, by decide, by decide, by decide, by decide⟩

/-- C1, amended. When the user configuration directory resolves, the record is
valid (its indented JSON encoding decodes back to it) and `Save` succeeds,
`config.json` is a regular file that holds the encoding of the record; the
`GetConfig` that follows returns the record and leaves the state alone when the
permission bits of `config.json` let the process read it, and fails with
`EACCES` when they do not. The process may read the file when it is privileged,
when the file was there and readable before `Save`, and when `Save` has created
the file and the mask leaves the read bit of the owner. -/
theorem Save_GetConfig_roundtrip {Cfg : Type} (J : Codec Cfg) (c : Cfg) (w w1 : World) (U : Str)
    (hU : w.userConfigDir = Except.ok U)
    (hvalid : ∀ b, J.MarshalIndent c [] [' ', ' '] = Except.ok b → J.Unmarshal b = Except.ok c)
    (hsave : Save J c w = (Except.ok (), w1)) :
    (w1.readable (configFile U) = true → GetConfig J w1 = (Except.ok c, w1)) ∧
    (w1.readable (configFile U) = false →
      GetConfig J w1 = (Except.error (Error.sys Errno.EACCES), w1)) ∧
    (∃ b md, J.MarshalIndent c [] [' ', ' '] = Except.ok b ∧
      w1.lookup (configFile U) = Except.ok (Node.file md b)) ∧
    (w.privileged = true → w1.readable (configFile U) = true) ∧
    (w.readable (configFile U) = true → w1.readable (configFile U) = true) ∧
    ((∀ i, Stat w (configFile U) ≠ Except.ok i) →
      mayRead false (newMode 0o600 w.umask) = true → w1.readable (configFile U) = true) := by
  obtain ⟨U2, b, md, hU2, hse, hb, hres, hlook, hmode⟩ := Save_mode J c w w1 hsave
  rw [hU] at hU2
  cases hU2
  have hU1 : w1.userConfigDir = Except.ok U := by rw [hse.2.2.2, hU]
  have hrd := readable_of_lookup _ _ _ _ hlook
  have hg := GetConfig_after_Save_mode J c w1 U b md hvalid hU1 hb hres
  refine ⟨?_, ?_, ⟨b, md, hb, hlook⟩, ?_, ?_, ?_⟩
  · intro h
    rw [hrd] at h
    rw [hg, if_pos h]
  · intro h
    rw [hrd] at h
    rw [hg, h]
    rfl
  · intro hp
    rw [hrd, hse.2.2.1, hp]
    rfl
  · intro hr
    rcases hmode with ⟨hen, _⟩ | ⟨d0, hf⟩
    · unfold World.readable at hr
      rw [hen] at hr
      cases hr
    · rw [readable_of_lookup _ _ _ _ (lookup_of_resolve _ _ _ hf)] at hr
      rw [hrd, hse.2.2.1]
      exact hr
  · intro hmiss hmask
    rcases hmode with ⟨_, hmd⟩ | ⟨d0, hf⟩
    · rw [hrd, hmd]
      exact mayRead_mono _ _ hmask
    · exact absurd (Stat_of_resolve _ _ _ hf) (hmiss _)

theorem sampleCodec_valid (c : Bool) (b : Str)
    (h : sampleCodec.MarshalIndent c [] [' ', ' '] = Except.ok b) :
    sampleCodec.Unmarshal b = Except.ok c := by
  cases c
  · simp [sampleCodec] at h; subst h; decide
  · simp [sampleCodec] at h; subst h; decide

/-- C1, evaluated: saving the record `true` in `sampleWorld`, where there is
no `config.json` and the mask is 022, succeeds, and `GetConfig` then returns
`true`. -/
theorem Save_GetConfig_roundtrip_witness :
    (Save sampleCodec true sampleWorld).1 = Except.ok () ∧
      Stat sampleWorld (configFile sampleDir) = Except.error Errno.ENOENT ∧
      mayRead false (newMode 0o600 sampleWorld.umask) = true ∧
      (GetConfig sampleCodec (Save sampleCodec true sampleWorld).2).1 = Except.ok true :=
  ⟨by decide, by decide, by decide,
    congrArg Prod.fst ((Save_GetConfig_roundtrip sampleCodec true sampleWorld
      (Save sampleCodec true sampleWorld).2 sampleDir rfl (sampleCodec_valid true)
      (Prod.ext (by decide) rfl)).1 (by decide))⟩

/-- C2 as stated fails: in `blockedWorld` the user configuration directory
resolves and `config.json` does not exist (a regular file stands where the
directory `daytona` should be), yet `GetConfig` returns the error `ENOTDIR` of
the stat call, not the error "config file does not exist". -/
theorem GetConfig_notFound_counterexample :
    blockedWorld.userConfigDir = Except.ok sampleDir ∧
      Stat blockedWorld (configFile sampleDir) = Except.error Errno.ENOTDIR ∧
      (GetConfig sampleCodec blockedWorld).1 = Except.error (Error.sys Errno.ENOTDIR) ∧
      (GetConfig sampleCodec blockedWorld).1 ≠
        Except.error (Error.msg "config file does not exist") := by
  refine ⟨rfl, by decide, by decide, by decide⟩

/-- C2, amended. When the user configuration directory resolves and the stat of
`config.json` reports `ENOENT`, `GetConfig` returns no record and the error
"config file does not exist", and the state after the call is the state before
it. Every other error of the stat call is returned as it is, again with the
state unchanged. The stat reports `ENOENT` whenever the user configuration
directory is an absolute path, `config.json` does not exist, the path is one
the system accepts, and every existing component on the way is a directory
that the process may search and in which the next name is looked up without
being too long. -/
theorem GetConfig_notFound {Cfg : Type} (J : Codec Cfg) (w : World) (U : Str)
    (hU : w.userConfigDir = Except.ok U) :
    (Stat w (configFile U) = Except.error Errno.ENOENT →
      GetConfig J w = (Except.error (Error.msg "config file does not exist"), w)) ∧
    (∀ e, Stat w (configFile U) = Except.error e → e ≠ Errno.ENOENT →
      GetConfig J w = (Except.error (Error.sys e), w)) ∧
    (isRooted U = true → (∀ i, Stat w (configFile U) ≠ Except.ok i) →
      pathError (configFile U) = none →
      wayClear w.privileged w.root (w.locate (configFile U)) = true →
      Stat w (configFile U) = Except.error Errno.ENOENT ∧
        GetConfig J w = (Except.error (Error.msg "config file does not exist"), w)) := by
  have h1 : Stat w (configFile U) = Except.error Errno.ENOENT →
      GetConfig J w = (Except.error (Error.msg "config file does not exist"), w) := by
    intro hs
    rw [GetConfig_of_stat_error J w U hU _ hs, if_pos rfl]
  refine ⟨h1, ?_, ?_⟩
  · intro e hs he
    rw [GetConfig_of_stat_error J w U hU e hs, if_neg he]
  · intro _ hmissing hp hway
    cases hs : Stat w (configFile U) with
    | ok i => exact absurd hs (hmissing i)
    | error e =>
      have he := Stat_error_of_wayClear w _ e hp hway hs
      subst he
      exact ⟨rfl, h1 hs⟩

/-- C2, evaluated: `sampleWorld` has no `config.json` and nothing stands in the
way to it. -/
theorem GetConfig_notFound_witness :
    isRooted sampleDir = true ∧ pathError (configFile sampleDir) = none ∧
      wayClear sampleWorld.privileged sampleWorld.root
        (sampleWorld.locate (configFile sampleDir)) = true ∧
      GetConfig sampleCodec sampleWorld =
        (Except.error (Error.msg "config file does not exist"), sampleWorld) :=
  ⟨by decide, by decide, by decide,
    ((GetConfig_notFound sampleCodec sampleWorld sampleDir rfl).2.2 (by decide)
      (fun i h => by
        have h2 : Stat sampleWorld (configFile sampleDir) = Except.error Errno.ENOENT := by
          decide
        rw [h2] at h
        cases h)
      (by decide) (by decide)).2⟩

/-- How `init` goes when the first `GetConfig` fails and the default record is
saved. -/
theorem init_of_save {Cfg : Type} (J : Codec Cfg)
    (getDefaultConfig : World → Except Error Cfg × World) (w w2 w3 : World) (c : Cfg) (wa : World)
    (e : Error) (hg : GetConfig J w = (Except.error e, wa))
    (hd : getDefaultConfig wa = (Except.ok c, w2)) (hs : Save J c w2 = (Except.ok (), w3)) :
    init J getDefaultConfig w = InitResult.returned w3 := by
  unfold init
  simp only [hg, hd, hs]

/-- C3 as stated fails, in two ways. In `writeOnlyWorld`, where `config.json`
has mode 0200, the first `GetConfig` fails, `init` saves the default record
over the file and returns, and `GetConfig` called afterwards fails with
`EACCES`. With a codec that loses the record, `init` returns on the clean state
`sampleWorld` and `GetConfig` called afterwards returns a record that is not
the default record. -/
theorem init_then_GetConfig_counterexample :
    (init sampleCodec sampleDefault writeOnlyWorld =
        InitResult.returned (Save sampleCodec true writeOnlyWorld).2 ∧
      (GetConfig sampleCodec (Save sampleCodec true writeOnlyWorld).2).1 =
        Except.error (Error.sys Errno.EACCES)) ∧
    (init lossyCodec sampleDefault sampleWorld =
        InitResult.returned (Save lossyCodec true sampleWorld).2 ∧
      (sampleDefault sampleWorld).1 = Except.ok true ∧
      (GetConfig lossyCodec (Save lossyCodec true sampleWorld).2).1 = Except.ok false) :=
  ⟨⟨init_of_save sampleCodec sampleDefault writeOnlyWorld _ _ true writeOnlyWorld
      (Error.sys Errno.EACCES) (Prod.ext (by decide) (GetConfig_snd _ _)) rfl
      (Prod.ext (by decide) rfl), by decide⟩,
    ⟨init_of_save lossyCodec sampleDefault sampleWorld _ _ true sampleWorld
      (Error.msg "config file does not exist") (Prod.ext (by decide) (GetConfig_snd _ _)) rfl
      (Prod.ext (by decide) rfl), rfl, by decide⟩⟩

/-- C3, amended. When `init` returns (the process is not terminated): if the
first `GetConfig` had succeeded, `init` has left the state as it was and
`GetConfig` called afterwards returns the same record; if the first `GetConfig`
had failed, `getDefaultConfig` has produced a record and `Save` has stored it,
and, provided that record is valid (its indented JSON encoding decodes back to
it), `GetConfig` called afterwards returns it when the permission bits of
`config.json` let the process read the file and fails with `EACCES` when they
do not. The process may read the file when it is privileged and when `Save`
has created the file and the mask leaves the read bit of the owner. -/
theorem init_then_GetConfig {Cfg : Type} (J : Codec Cfg)
    (getDefaultConfig : World → Except Error Cfg × World) (w w1 : World)
    (hinit : init J getDefaultConfig w = InitResult.returned w1) :
    (∀ c, (GetConfig J w).1 = Except.ok c → w1 = w ∧ GetConfig J w1 = (Except.ok c, w1)) ∧
    (∀ e, (GetConfig J w).1 = Except.error e →
      ∃ c w2 U, getDefaultConfig w = (Except.ok c, w2) ∧ Save J c w2 = (Except.ok (), w1) ∧
        w1.userConfigDir = Except.ok U ∧
        ((∀ b, J.MarshalIndent c [] [' ', ' '] = Except.ok b → J.Unmarshal b = Except.ok c) →
          (w1.readable (configFile U) = true → GetConfig J w1 = (Except.ok c, w1)) ∧
          (w1.readable (configFile U) = false →
            GetConfig J w1 = (Except.error (Error.sys Errno.EACCES), w1))) ∧
        (w2.privileged = true → w1.readable (configFile U) = true) ∧
        ((∀ i, Stat w2 (configFile U) ≠ Except.ok i) →
          mayRead false (newMode 0o600 w2.umask) = true →
          w1.readable (configFile U) = true)) := by
  have hsnd := GetConfig_snd J w
  unfold init at hinit
  cases hg : GetConfig J w with
  | mk r wa =>
    rw [hg] at hsnd
    simp only at hsnd
    subst hsnd
    cases r with
    | ok c0 =>
      simp only [hg, InitResult.returned.injEq] at hinit
      subst hinit
      refine ⟨fun c hc => ?_, fun e he => (by cases he)⟩
      simp only [Except.ok.injEq] at hc
      subst hc
      exact ⟨rfl, hg⟩
    | error e0 =>
      simp only [hg] at hinit
      cases hd : getDefaultConfig wa with
      | mk rd w2 =>
        cases rd with
        | error e => simp [hd] at hinit
        | ok c =>
          simp only [hd] at hinit
          cases hsv : Save J c w2 with
          | mk rs w3 =>
            cases rs with
            | error e => simp [hsv] at hinit
            | ok u =>
              simp only [hsv, InitResult.returned.injEq] at hinit
              subst hinit
              refine ⟨fun c1 h1 => (by cases h1), fun _ _ => ?_⟩
              obtain ⟨U, b, md, hU, hse, hb, hres, hlook, hmode⟩ := Save_mode J c w2 w3 hsv
              have hU1 : w3.userConfigDir = Except.ok U := by rw [hse.2.2.2, hU]
              have hrd := readable_of_lookup _ _ _ _ hlook
              refine ⟨c, w2, U, rfl, hsv, hU1, ?_, ?_, ?_⟩
              · intro hvalid
                have hgc := GetConfig_after_Save_mode J c w3 U b md hvalid hU1 hb hres
                refine ⟨?_, ?_⟩
                · intro h
                  rw [hrd] at h
                  rw [hgc, if_pos h]
                · intro h
                  rw [hrd] at h
                  rw [hgc, h]
                  rfl
              · intro hp
                rw [hrd, hse.2.2.1, hp]
                rfl
              · intro hmiss hmask
                rcases hmode with ⟨_, hmd⟩ | ⟨d0, hf⟩
                · rw [hrd, hmd]
                  exact mayRead_mono _ _ hmask
                · exact absurd (Stat_of_resolve _ _ _ hf) (hmiss _)

/-- C3, evaluated on the clean state `sampleWorld`: `init` returns, and
`GetConfig` then returns the default record. -/
theorem init_then_GetConfig_witness :
    init sampleCodec sampleDefault sampleWorld =
        InitResult.returned (Save sampleCodec true sampleWorld).2 ∧
      GetConfig sampleCodec (Save sampleCodec true sampleWorld).2 =
        (Except.ok true, (Save sampleCodec true sampleWorld).2) := by
  have hinit : init sampleCodec sampleDefault sampleWorld =
      InitResult.returned (Save sampleCodec true sampleWorld).2 :=
    init_of_save sampleCodec sampleDefault sampleWorld _ _ true sampleWorld
      (Error.msg "config file does not exist")
      (Prod.ext (by decide) (GetConfig_snd _ _)) rfl (Prod.ext (by decide) rfl)
  obtain ⟨c, w2, U, hd, _, hU, hg, _, _⟩ := (init_then_GetConfig sampleCodec sampleDefault
    sampleWorld _ hinit).2 (Error.msg "config file does not exist") (by decide)
  have hc : c = true := by
    have := congrArg Prod.fst hd
    simp only [sampleDefault] at this
    injection this with this
    exact this.symm
  subst hc
  have hUe : U = sampleDir := by
    have h2 : (Save sampleCodec true sampleWorld).2.userConfigDir = Except.ok sampleDir := by
      decide
    rw [h2] at hU
    injection hU with hU
    exact hU.symm
  subst hUe
  exact ⟨hinit, (hg (sampleCodec_valid true)).1 (by decide)⟩

/-- C8. When the user configuration directory resolves and `config.json` is a
file that can be read but whose content `json.Unmarshal` rejects, `GetConfig`
returns the decoder's error and no record, and the state after the call is the
state before it. -/
theorem GetConfig_decode_error {Cfg : Type} (J : Codec Cfg) (w : World) (U : Str) (i : FileInfo)
    (content : Str) (e : Error) (hU : w.userConfigDir = Except.ok U)
    (hstat : Stat w (configFile U) = Except.ok i)
    (hread : ReadFile w (configFile U) = Except.ok content)
    (hbad : J.Unmarshal content = Except.error e) :
    GetConfig J w = (Except.error e, w) := by
  rw [GetConfig_of_stat J w U hU i hstat, hread]
  simp only [hbad]

/-- C8, evaluated: in `corruptWorld` the file holds `not json`. -/
theorem GetConfig_decode_error_witness :
    GetConfig sampleCodec corruptWorld = (Except.error (Error.msg "invalid character"), corruptWorld) :=
  GetConfig_decode_error sampleCodec corruptWorld sampleDir ⟨false, 0o600⟩ (lit "not json")
    (Error.msg "invalid character") rfl (by decide) (by decide) (by decide)


/-! ## The log paths and DeleteWorkspaceLogs -/

/-- The steps of a successful `GetWorkspaceLogFilePath`. -/
theorem GetWorkspaceLogFilePath_ok (wid : Str) (w w1 : World) (path : Str)
    (h : GetWorkspaceLogFilePath wid w = (Except.ok path, w1)) :
    ∃ U, w.userConfigDir = Except.ok U ∧ path = workspaceLog U wid ∧
      MkdirAll w (workspaceDir U wid) 0o755 = (Except.ok (), w1) := by
  cases hU : w.userConfigDir with
  | error e =>
    unfold GetWorkspaceLogFilePath GetWorkspaceLogsDir at h
    rw [GetConfigDir_error w e hU] at h
    simp at h
  | ok U =>
    unfold GetWorkspaceLogFilePath at h
    rw [GetWorkspaceLogsDir_ok w U hU] at h
    simp only at h
    have e1 : Join [logsDirPath U, wid, strLog] = workspaceLog U wid := rfl
    rw [e1, Dir_workspaceLog] at h
    cases hd : MkdirAll w (workspaceDir U wid) 0o755 with
    | mk r wm =>
      cases r with
      | error e => simp [hd] at h
      | ok u =>
        simp only [hd, Prod.mk.injEq, Except.ok.injEq] at h
        obtain ⟨h1, h2⟩ := h
        subst h1 h2
        exact ⟨U, rfl, rfl, hd⟩

/-- The steps of a successful `GetProjectLogFilePath`. -/
theorem GetProjectLogFilePath_ok (wid pid : Str) (w w1 : World) (path : Str)
    (h : GetProjectLogFilePath wid pid w = (Except.ok path, w1)) :
    ∃ U, w.userConfigDir = Except.ok U ∧ path = projectLog U wid pid ∧
      MkdirAll w (projectDir U wid pid) 0o755 = (Except.ok (), w1) := by
  cases hU : w.userConfigDir with
  | error e =>
    unfold GetProjectLogFilePath GetWorkspaceLogsDir at h
    rw [GetConfigDir_error w e hU] at h
    simp at h
  | ok U =>
    unfold GetProjectLogFilePath at h
    rw [GetWorkspaceLogsDir_ok w U hU] at h
    simp only at h
    have e1 : Join [logsDirPath U, wid, pid, strLog] = projectLog U wid pid := rfl
    rw [e1, Dir_projectLog] at h
    cases hd : MkdirAll w (projectDir U wid pid) 0o755 with
    | mk r wm =>
      cases r with
      | error e => simp [hd] at h
      | ok u =>
        simp only [hd, Prod.mk.injEq, Except.ok.injEq] at h
        obtain ⟨h1, h2⟩ := h
        subst h1 h2
        exact ⟨U, rfl, rfl, hd⟩

theorem DeleteWorkspaceLogs_of_stat_error (wid : Str) (w : World) (U : Str)
    (hU : w.userConfigDir = Except.ok U) (e : Errno)
    (hs : Stat w (workspaceDir U wid) = Except.error e) :
    DeleteWorkspaceLogs wid w =
      if e = Errno.ENOENT then (Except.ok (), w) else (Except.error (Error.sys e), w) := by
  unfold DeleteWorkspaceLogs
  rw [GetWorkspaceLogsDir_ok w U hU]
  simp only
  have e1 : Join [logsDirPath U, wid] = workspaceDir U wid := rfl
  rw [e1, hs]
  simp only [IsNotExist]
  by_cases he : e = Errno.ENOENT
  · simp [he]
  · simp [he]

/-- The ways a successful `DeleteWorkspaceLogs` ends: the stat reported that
nothing was there and nothing is done, or the node at the workspace directory
is removed. -/
theorem DeleteWorkspaceLogs_ok (wid : Str) (w w1 : World)
    (h : DeleteWorkspaceLogs wid w = (Except.ok (), w1)) :
    ∃ U, w.userConfigDir = Except.ok U ∧ SameEnv w w1 ∧
      ((w1 = w ∧ Stat w (workspaceDir U wid) = Except.error Errno.ENOENT) ∨
        (pathError (workspaceDir U wid) = none ∧
          ∃ q c n, w.locate (workspaceDir U wid) = q ++ [c] ∧
            Node.resolve w.privileged w.root (q ++ [c]) = Except.ok n ∧
            w1.root = Node.update (fun _ => Node.absent) w.root (q ++ [c]))) := by
  cases hU : w.userConfigDir with
  | error e =>
    unfold DeleteWorkspaceLogs GetWorkspaceLogsDir at h
    rw [GetConfigDir_error w e hU] at h
    simp at h
  | ok U =>
    refine ⟨U, rfl, ?_⟩
    cases hs : Stat w (workspaceDir U wid) with
    | error e =>
      rw [DeleteWorkspaceLogs_of_stat_error wid w U hU e hs] at h
      by_cases he : e = Errno.ENOENT
      · simp only [he, if_true, Prod.mk.injEq, true_and] at h
        subst h
        subst he
        exact ⟨SameEnv.refl _, Or.inl ⟨rfl, rfl⟩⟩
      · simp [he] at h
    | ok i =>
      unfold DeleteWorkspaceLogs at h
      rw [GetWorkspaceLogsDir_ok w U hU] at h
      simp only at h
      have e1 : Join [logsDirPath U, wid] = workspaceDir U wid := rfl
      rw [e1, hs] at h
      simp only at h
      cases hr : RemoveAll w (workspaceDir U wid) with
      | mk r wm =>
        cases r with
        | error e => simp [hr] at h
        | ok u =>
          simp only [hr, Prod.mk.injEq, true_and] at h
          subst h
          obtain ⟨hse, hcase⟩ := RemoveAll_ok w wm _ hr
          refine ⟨hse, ?_⟩
          rcases hcase with ⟨h1, h2⟩ | h2
          · rcases h2 with h2 | ⟨hp, h2⟩
            · exact absurd h2 (workspaceDir_ne_nil U wid)
            · rw [Stat_eq_statAt _ _ hp] at hs
              have := (statAt_error_iff _ _ _ _).mpr h2
              rw [hs] at this
              cases this
          · exact Or.inr h2

/-- After a successful `DeleteWorkspaceLogs` the lookup of the workspace
directory, and of anything below it, ends at a missing entry. -/
theorem DeleteWorkspaceLogs_gone_resolve (wid : Str) (w w1 : World) (U : Str)
    (hU : w.userConfigDir = Except.ok U)
    (h : DeleteWorkspaceLogs wid w = (Except.ok (), w1)) (r : Loc) :
    pathError (workspaceDir U wid) = none ∧
      Node.resolve w1.privileged w1.root (w1.locate (workspaceDir U wid) ++ r) =
        Except.error Errno.ENOENT := by
  obtain ⟨U2, hU2, hse, hcase⟩ := DeleteWorkspaceLogs_ok wid w w1 h
  rw [hU] at hU2
  cases hU2
  rw [hse.locate, hse.2.2.1]
  rcases hcase with ⟨h1, h2⟩ | ⟨hp, q, c, n, h1, h2, h3⟩
  · obtain ⟨hp, hres⟩ := resolve_of_Stat_enoent w _ (workspaceDir_ne_nil U wid) h2
    rw [h1]
    exact ⟨hp, resolve_append_error _ _ _ _ _ hres⟩
  · rw [h3, h1]
    exact ⟨hp, resolve_removed _ _ _ _ _ _ h2⟩

/-- After a successful `DeleteWorkspaceLogs` nothing is found at the workspace
directory or below it. -/
theorem DeleteWorkspaceLogs_gone (wid : Str) (w w1 : World) (U : Str)
    (hU : w.userConfigDir = Except.ok U)
    (h : DeleteWorkspaceLogs wid w = (Except.ok (), w1)) (x : Loc)
    (hx : w.locate (workspaceDir U wid) <+: x) :
    Node.find w1.root x = Except.error Errno.ENOENT := by
  obtain ⟨r, rfl⟩ := hx
  have := (DeleteWorkspaceLogs_gone_resolve wid w w1 U hU h r).2
  obtain ⟨U2, hU2, hse, _⟩ := DeleteWorkspaceLogs_ok wid w w1 h
  rw [hse.locate] at this
  exact find_of_resolve_enoent _ _ _ this

theorem snoc_not_le (L : Loc) (a b : Str) (r : Loc) (hab : a ≠ b) : ¬ L ++ [a] <+: L ++ b :: r := by
  intro h
  rw [List.prefix_append_right_inj] at h
  obtain ⟨t, ht⟩ := h
  simp at ht
  exact hab ht.1

theorem apart_of_ne (L : Loc) (a b : Str) (r s : Loc) (hab : a ≠ b) :
    ¬ L ++ a :: r <+: L ++ b :: s := by
  intro h
  rw [List.prefix_append_right_inj] at h
  obtain ⟨t, ht⟩ := h
  simp at ht
  exact hab ht.1

theorem longer_not_le (L r : Loc) (hr : r ≠ []) : ¬ L ++ r <+: L := by
  intro h
  have := h.length_le
  cases r with
  | nil => exact hr rfl
  | cons a r => simp at this

/-- C4 as stated fails. In `blockedLogsWorld` the directory of workspace `w1`
does not exist (a regular file stands where the directory `logs` should be),
yet `DeleteWorkspaceLogs` returns the error `ENOTDIR` of the stat call. In
`sampleWorld`, which holds no logs at all, the call for a workspaceId with a
NUL byte returns the error `EINVAL` of the stat call. -/
theorem DeleteWorkspaceLogs_absent_counterexample :
    blockedLogsWorld.userConfigDir = Except.ok sampleDir ∧
      Stat blockedLogsWorld (workspaceDir sampleDir (lit "w1")) = Except.error Errno.ENOTDIR ∧
      (DeleteWorkspaceLogs (lit "w1") blockedLogsWorld).1 =
        Except.error (Error.sys Errno.ENOTDIR) ∧
      Stat sampleWorld (workspaceDir sampleDir ['w', Char.ofNat 0, '1']) =
        Except.error Errno.EINVAL ∧
      (DeleteWorkspaceLogs ['w', Char.ofNat 0, '1'] sampleWorld).1 =
        Except.error (Error.sys Errno.EINVAL) := by
  refine ⟨rfl, by decide, by decide, by decide, by decide⟩

/-- C4, amended. When the user configuration directory resolves and the stat of
the directory of the workspace reports `ENOENT`, `DeleteWorkspaceLogs` returns
success and the state after the call is the state before it: nothing is created
and nothing is removed. Every other error of the stat call is returned as it
is, again with the state unchanged. The stat reports `ENOENT` whenever the
user configuration directory is an absolute path, the directory of the
workspace does not exist, the path is one the system accepts, and every
existing component on the way is a directory that the process may search and
in which the next name is looked up without being too long. -/
theorem DeleteWorkspaceLogs_absent (wid : Str) (w : World) (U : Str)
    (hU : w.userConfigDir = Except.ok U) :
    (Stat w (workspaceDir U wid) = Except.error Errno.ENOENT →
      DeleteWorkspaceLogs wid w = (Except.ok (), w)) ∧
    (∀ e, Stat w (workspaceDir U wid) = Except.error e → e ≠ Errno.ENOENT →
      DeleteWorkspaceLogs wid w = (Except.error (Error.sys e), w)) ∧
    (isRooted U = true → (∀ i, Stat w (workspaceDir U wid) ≠ Except.ok i) →
      pathError (workspaceDir U wid) = none →
      wayClear w.privileged w.root (w.locate (workspaceDir U wid)) = true →
      Stat w (workspaceDir U wid) = Except.error Errno.ENOENT ∧
        DeleteWorkspaceLogs wid w = (Except.ok (), w)) := by
  have h1 : Stat w (workspaceDir U wid) = Except.error Errno.ENOENT →
      DeleteWorkspaceLogs wid w = (Except.ok (), w) := by
    intro hs
    rw [DeleteWorkspaceLogs_of_stat_error wid w U hU _ hs, if_pos rfl]
  refine ⟨h1, ?_, ?_⟩
  · intro e hs he
    rw [DeleteWorkspaceLogs_of_stat_error wid w U hU e hs, if_neg he]
  · intro _ hmissing hp hway
    cases hs : Stat w (workspaceDir U wid) with
    | ok i => exact absurd hs (hmissing i)
    | error e =>
      have he := Stat_error_of_wayClear w _ e hp hway hs
      subst he
      exact ⟨rfl, h1 hs⟩

/-- C4, evaluated: `busyWorld` holds the logs of workspace `v1` and none for
workspace `w1`, and nothing stands in the way to them. -/
theorem DeleteWorkspaceLogs_absent_witness :
    isRooted sampleDir = true ∧ pathError (workspaceDir sampleDir (lit "w1")) = none ∧
      wayClear busyWorld.privileged busyWorld.root
        (busyWorld.locate (workspaceDir sampleDir (lit "w1"))) = true ∧
      DeleteWorkspaceLogs (lit "w1") busyWorld = (Except.ok (), busyWorld) :=
  ⟨by decide, by decide, by decide,
    ((DeleteWorkspaceLogs_absent (lit "w1") busyWorld sampleDir rfl).2.2 (by decide)
      (fun i h => by
        have h2 : Stat busyWorld (workspaceDir sampleDir (lit "w1")) =
            Except.error Errno.ENOENT := by decide
        rw [h2] at h
        cases h)
      (by decide) (by decide)).2⟩


/-! ## The claims about the log paths, the permissions and the deletion -/

theorem resolve_emptyDir_cons (priv : Bool) (md : Mode) (c : Str) (r : Loc) :
    ∃ e, Node.resolve priv (emptyDir md) (c :: r) = Except.error e ∧
      (stepError priv md c = none → e = Errno.ENOENT) := by
  unfold emptyDir
  rw [resolve_dir_cons]
  cases hs : stepError priv md c with
  | some e => exact ⟨e, rfl, fun h => by cases h⟩
  | none => exact ⟨Errno.ENOENT, resolve_absent priv r, fun _ => rfl⟩

/-- C5 as stated fails: with workspace `w1` and project `../w2` the path that
`GetProjectLogFilePath` returns is `.../logs/w2/log`; after bytes are written
to it and `DeleteWorkspaceLogs` has succeeded for `w1`, the file is still
there with its content. -/
theorem DeleteWorkspaceLogs_removes_counterexample :
    (GetProjectLogFilePath (lit "w1") (lit "../w2") sampleWorld).1 =
        Except.ok (lit "/home/u/.config/daytona/server/logs/w2/log") ∧
      (WriteFile (GetProjectLogFilePath (lit "w1") (lit "../w2") sampleWorld).2
        (lit "/home/u/.config/daytona/server/logs/w2/log") (lit "abc") 0o644).1 = Except.ok () ∧
      (DeleteWorkspaceLogs (lit "w1")
        (WriteFile (GetProjectLogFilePath (lit "w1") (lit "../w2") sampleWorld).2
          (lit "/home/u/.config/daytona/server/logs/w2/log") (lit "abc") 0o644).2).1 =
        Except.ok () ∧
      ReadFile (DeleteWorkspaceLogs (lit "w1")
        (WriteFile (GetProjectLogFilePath (lit "w1") (lit "../w2") sampleWorld).2
          (lit "/home/u/.config/daytona/server/logs/w2/log") (lit "abc") 0o644).2).2
        (lit "/home/u/.config/daytona/server/logs/w2/log") = Except.ok (lit "abc") := by
  refine ⟨by decide, by decide, by decide, by decide⟩

/-- C5, amended. After `GetProjectLogFilePath` has succeeded, bytes have been
written to the returned path and `DeleteWorkspaceLogs` has succeeded for the
same workspace, the directory of the workspace does not exist and nothing at or
below it exists; the returned project log file is gone too when the projectId
is a single path element (not empty, without `/`, not `.` or `..`). -/
theorem DeleteWorkspaceLogs_removes (wid pid bytes : Str) (perm : Nat) (w w1 w2 w3 : World)
    (path : Str) (h1 : GetProjectLogFilePath wid pid w = (Except.ok path, w1))
    (h2 : WriteFile w1 path bytes perm = (Except.ok (), w2))
    (h3 : DeleteWorkspaceLogs wid w2 = (Except.ok (), w3)) :
    ∃ U, w.userConfigDir = Except.ok U ∧ path = projectLog U wid pid ∧
      Stat w3 (workspaceDir U wid) = Except.error Errno.ENOENT ∧
      (∀ x, w3.locate (workspaceDir U wid) <+: x →
        Node.find w3.root x = Except.error Errno.ENOENT) ∧
      (isPlain pid = true → Stat w3 path = Except.error Errno.ENOENT) := by
  obtain ⟨U, hU, hpath, hmk⟩ := GetProjectLogFilePath_ok wid pid w w1 path h1
  obtain ⟨hse1, _⟩ := MkdirAll_ok w w1 _ _ (revShape_projectDir U wid pid) hmk
  obtain ⟨hse2, hpe2, _⟩ := WriteFile_ok w1 w2 _ _ _ h2
  obtain ⟨U3, hU3, hse3, _⟩ := DeleteWorkspaceLogs_ok wid w2 w3 h3
  have hU2 : w2.userConfigDir = Except.ok U := by rw [hse2.2.2.2, hse1.2.2.2, hU]
  have hgone : ∀ x, w3.locate (workspaceDir U wid) <+: x →
      Node.find w3.root x = Except.error Errno.ENOENT := by
    intro x hx
    rw [hse3.locate] at hx
    exact DeleteWorkspaceLogs_gone wid w2 w3 U hU2 h3 x hx
  refine ⟨U, hU, hpath, ?_, hgone, ?_⟩
  · obtain ⟨hp, hres⟩ := DeleteWorkspaceLogs_gone_resolve wid w2 w3 U hU2 h3 []
    rw [List.append_nil] at hres
    rw [Stat_eq_statAt _ _ hp, statAt_error_iff]
    exact hres
  · intro hp
    obtain ⟨_, hres⟩ := DeleteWorkspaceLogs_gone_resolve wid w2 w3 U hU2 h3 [pid, strLog]
    rw [Stat_eq_statAt _ _ hpe2, statAt_error_iff, hpath,
      locate_projectLog_plain w3 U wid pid hp]
    exact hres

/-- C5, evaluated with workspace `w1` and project `p1`. -/
theorem DeleteWorkspaceLogs_removes_witness :
    Stat (DeleteWorkspaceLogs (lit "w1")
      (WriteFile (GetProjectLogFilePath (lit "w1") (lit "p1") sampleWorld).2
        (projectLog sampleDir (lit "w1") (lit "p1")) (lit "abc") 0o644).2).2
      (projectLog sampleDir (lit "w1") (lit "p1")) = Except.error Errno.ENOENT := by
  obtain ⟨U, hU, hpath, _, _, h⟩ := DeleteWorkspaceLogs_removes (lit "w1") (lit "p1") (lit "abc")
    0o644 sampleWorld (GetProjectLogFilePath (lit "w1") (lit "p1") sampleWorld).2
    (WriteFile (GetProjectLogFilePath (lit "w1") (lit "p1") sampleWorld).2
      (projectLog sampleDir (lit "w1") (lit "p1")) (lit "abc") 0o644).2
    (DeleteWorkspaceLogs (lit "w1")
      (WriteFile (GetProjectLogFilePath (lit "w1") (lit "p1") sampleWorld).2
        (projectLog sampleDir (lit "w1") (lit "p1")) (lit "abc") 0o644).2).2
    (projectLog sampleDir (lit "w1") (lit "p1"))
    (Prod.ext (by decide) rfl) (Prod.ext (by decide) rfl) (Prod.ext (by decide) rfl)
  exact h (by decide)

/-- C6 as stated fails: for the workspaceId `..` the call succeeds and returns
`/home/u/.config/daytona/server/log`, a file directly in the configuration
directory; it is not a path through `logs`, and the directory `logs` does not
even exist after the call. -/
theorem GetWorkspaceLogFilePath_counterexample :
    (GetWorkspaceLogFilePath (lit "..") sampleWorld).1 =
        Except.ok (lit "/home/u/.config/daytona/server/log") ∧
      (lit "/home/u/.config/daytona/server/log") ≠
        sampleDir ++ lit "/daytona/server/logs/" ++ lit ".." ++ lit "/log" ∧
      sampleWorld.locate (lit "/home/u/.config/daytona/server/log") ≠
        sampleWorld.locate sampleDir ++ [strDaytona, strServer, strLogs, lit "..", strLog] ∧
      Stat (GetWorkspaceLogFilePath (lit "..") sampleWorld).2
        (lit "/home/u/.config/daytona/server/logs") = Except.error Errno.ENOENT := by
  refine ⟨by decide, by decide, by decide, by decide⟩

/-- The stat of the log file is not the same before and after the call in every
state: in `maskedWorld` the mask takes the search bit from the directory that
`GetWorkspaceLogFilePath` makes, so that the stat of the log file reports
`ENOENT` before the call and `EACCES` after it. What is in the tree at the path
is the same before and after. -/
theorem GetWorkspaceLogFilePath_stat_masked :
    (GetWorkspaceLogFilePath (lit "w1") maskedWorld).1 =
        Except.ok (workspaceLog sampleDir (lit "w1")) ∧
      Stat maskedWorld (workspaceLog sampleDir (lit "w1")) = Except.error Errno.ENOENT ∧
      Stat (GetWorkspaceLogFilePath (lit "w1") maskedWorld).2
        (workspaceLog sampleDir (lit "w1")) = Except.error Errno.EACCES := by
  refine ⟨by decide, by decide, by decide⟩

/-- C6, amended. When the user configuration directory `U` resolves and
`GetWorkspaceLogFilePath` succeeds, the parent directory of the returned path
exists as a directory after the call and the log file itself is as it was
before (it is not created): what is in the tree at the returned path is what
was there before, a stat of the path succeeds after the call exactly when it
succeeded before, with the same information, and the stat gives the same
result before and after when the process is privileged or the mask leaves the
search bit of the owner. When the workspaceId is a single path element (not
empty, without `/`, not `.` or `..`) the returned path is the file `log` in the
directory `<workspaceId>` in `U/daytona/server/logs`. -/
theorem GetWorkspaceLogFilePath_spec (wid : Str) (w w1 : World) (U path : Str)
    (hU : w.userConfigDir = Except.ok U)
    (h : GetWorkspaceLogFilePath wid w = (Except.ok path, w1)) :
    (∃ m, Stat w1 (Dir path) = Except.ok ⟨true, m⟩) ∧
      w1.locate path = w1.locate (Dir path) ++ [strLog] ∧
      (w1.lookup path = w.lookup path ∧
        (∀ i, Stat w1 path = Except.ok i ↔ Stat w path = Except.ok i) ∧
        ((w.privileged = true ∨ maySearch false (newMode 0o755 w.umask) = true) →
          Stat w1 path = Stat w path)) ∧
      (isPlain wid = true →
        w.locate path = w.locate U ++ [strDaytona, strServer, strLogs, wid, strLog]) := by
  obtain ⟨U2, hU2, hpath, hmk⟩ := GetWorkspaceLogFilePath_ok wid w w1 path h
  rw [hU] at hU2
  cases hU2
  subst hpath
  obtain ⟨hse, hpT, hkeep, hnew, hdir, hframe, _⟩ :=
    MkdirAll_ok w w1 _ _ (revShape_workspaceDir U wid) hmk
  rw [Dir_workspaceLog]
  refine ⟨hdir, ?_, ⟨?_, ?_⟩, ?_⟩
  · rw [locate_workspaceLog]
  · rw [lookup_eq_find _ _ (workspaceLog_ne_nil U wid),
      lookup_eq_find _ _ (workspaceLog_ne_nil U wid), hse.locate]
    apply hframe
    rw [locate_workspaceLog]
    exact longer_not_le _ _ (by simp)
  · cases hpe : pathError (workspaceLog U wid) with
    | some e =>
      rw [Stat_of_pathError _ _ _ hpe, Stat_of_pathError _ _ _ hpe]
      exact ⟨fun _ => Iff.rfl, fun _ => rfl⟩
    | none =>
      cases hs : Stat w (workspaceDir U wid) with
      | ok i0 =>
        rw [(hkeep i0 hs).1]
        exact ⟨fun _ => Iff.rfl, fun _ => rfl⟩
      | error e =>
        obtain ⟨he, hres⟩ := hnew e hs
        subst he
        obtain ⟨_, hbefore⟩ := resolve_of_Stat_enoent w _ (workspaceDir_ne_nil U wid) hs
        have hb : Stat w (workspaceLog U wid) = Except.error Errno.ENOENT := by
          rw [Stat_eq_statAt _ _ hpe, statAt_error_iff, locate_workspaceLog]
          exact resolve_append_error _ _ _ _ _ hbefore
        rw [resolve_eq _ _ hpT] at hres
        obtain ⟨e2, he2, hclear⟩ :=
          resolve_emptyDir_cons w1.privileged (newMode 0o755 w.umask) strLog []
        have ha : Stat w1 (workspaceLog U wid) = Except.error e2 := by
          rw [Stat_eq_statAt _ _ hpe, statAt_error_iff, locate_workspaceLog,
            resolve_append_ok _ _ _ _ _ hres]
          exact he2
        rw [ha, hb]
        refine ⟨fun i => ⟨fun hx => (by cases hx), fun hx => (by cases hx)⟩, fun hc => ?_⟩
        have hsearch : maySearch w1.privileged (newMode 0o755 w.umask) = true := by
          rcases hc with hc | hc
          · rw [hse.2.2.1, hc]
            rfl
          · exact maySearch_mono _ _ hc
        rw [hclear (stepError_of_clear _ _ _ hsearch (by decide))]
  · intro hp
    rw [locate_workspaceLog, locate_workspaceDir_plain w U wid hp, locate_logsDirPath,
      locate_configDirPath]
    simp

/-- C6, evaluated with workspace `w1`: the call returns
`/home/u/.config/daytona/server/logs/w1/log` and does not create that file. -/
theorem GetWorkspaceLogFilePath_spec_witness :
    (GetWorkspaceLogFilePath (lit "w1") sampleWorld).1 =
        Except.ok (lit "/home/u/.config/daytona/server/logs/w1/log") ∧
      Stat (GetWorkspaceLogFilePath (lit "w1") sampleWorld).2
        (lit "/home/u/.config/daytona/server/logs/w1/log") =
        Stat sampleWorld (lit "/home/u/.config/daytona/server/logs/w1/log") ∧
      sampleWorld.locate (lit "/home/u/.config/daytona/server/logs/w1/log") =
        sampleWorld.locate sampleDir ++ [strDaytona, strServer, strLogs, lit "w1", strLog] :=
  ⟨by decide,
    (GetWorkspaceLogFilePath_spec (lit "w1") sampleWorld
      (GetWorkspaceLogFilePath (lit "w1") sampleWorld).2 sampleDir
      (lit "/home/u/.config/daytona/server/logs/w1/log") rfl
      (Prod.ext (by decide) rfl)).2.2.1.2.2 (Or.inr (by decide)),
    (GetWorkspaceLogFilePath_spec (lit "w1") sampleWorld
      (GetWorkspaceLogFilePath (lit "w1") sampleWorld).2 sampleDir
      (lit "/home/u/.config/daytona/server/logs/w1/log") rfl (Prod.ext (by decide) rfl)).2.2.2
      (by decide)⟩

/-- C7 as stated fails: for the empty projectId `GetProjectLogFilePath` returns
the workspace's own log file path, and for the projectId `..` it returns
`.../logs/log`, which is not below the workspace's directory. -/
theorem GetProjectLogFilePath_counterexample :
    (GetProjectLogFilePath (lit "w1") [] sampleWorld).1 =
        Except.ok (lit "/home/u/.config/daytona/server/logs/w1/log") ∧
      (GetWorkspaceLogFilePath (lit "w1") sampleWorld).1 =
        Except.ok (lit "/home/u/.config/daytona/server/logs/w1/log") ∧
      (GetProjectLogFilePath (lit "w1") (lit "..") sampleWorld).1 =
        Except.ok (lit "/home/u/.config/daytona/server/logs/log") := by
  refine ⟨by decide, by decide, by decide⟩

/-- C7, amended. For a projectId that is a single path element (not empty,
without `/`, not `.` or `..`), a successful `GetProjectLogFilePath` returns the
file `log` in the directory `<projectId>` in the directory of the workspace,
which is the parent directory of the path `GetWorkspaceLogFilePath` returns:
the returned path is one level deeper than the workspace's log file path and
differs from it. -/
theorem GetProjectLogFilePath_nested (wid pid : Str) (w wa wb : World) (pp wp : Str)
    (hplain : isPlain pid = true)
    (hp : GetProjectLogFilePath wid pid w = (Except.ok pp, wa))
    (hw : GetWorkspaceLogFilePath wid w = (Except.ok wp, wb)) :
    w.locate pp = w.locate (Dir wp) ++ [pid, strLog] ∧
      w.locate wp = w.locate (Dir wp) ++ [strLog] ∧
      (w.locate pp).length = (w.locate wp).length + 1 ∧
      pp ≠ wp := by
  obtain ⟨U, hU, hpp, _⟩ := GetProjectLogFilePath_ok wid pid w wa _ hp
  obtain ⟨U2, hU2, hwp, _⟩ := GetWorkspaceLogFilePath_ok wid w wb _ hw
  rw [hU] at hU2
  cases hU2
  have e1 : w.locate pp = w.locate (Dir wp) ++ [pid, strLog] := by
    rw [hpp, hwp, locate_projectLog_plain w U wid pid hplain, locate_Dir_workspaceLog]
  have e2 : w.locate wp = w.locate (Dir wp) ++ [strLog] := by
    rw [hwp, locate_workspaceLog, locate_Dir_workspaceLog]
  have e3 : (w.locate pp).length = (w.locate wp).length + 1 := by
    rw [e1, e2]; simp
  refine ⟨e1, e2, e3, ?_⟩
  intro heq
  rw [heq] at e3
  omega

/-- C7, evaluated with workspace `w1` and project `p1`. -/
theorem GetProjectLogFilePath_nested_witness :
    (GetProjectLogFilePath (lit "w1") (lit "p1") sampleWorld).1 =
        Except.ok (lit "/home/u/.config/daytona/server/logs/w1/p1/log") ∧
      (GetWorkspaceLogFilePath (lit "w1") sampleWorld).1 =
        Except.ok (lit "/home/u/.config/daytona/server/logs/w1/log") ∧
      lit "/home/u/.config/daytona/server/logs/w1/p1/log" ≠
        lit "/home/u/.config/daytona/server/logs/w1/log" :=
  ⟨by decide, by decide,
    (GetProjectLogFilePath_nested (lit "w1") (lit "p1") sampleWorld
      (GetProjectLogFilePath (lit "w1") (lit "p1") sampleWorld).2
      (GetWorkspaceLogFilePath (lit "w1") sampleWorld).2
      (lit "/home/u/.config/daytona/server/logs/w1/p1/log")
      (lit "/home/u/.config/daytona/server/logs/w1/log") (by decide)
      (Prod.ext (by decide) rfl) (Prod.ext (by decide) rfl)).2.2.2⟩

/-- C9 as stated fails: when `GetWorkspaceLogFilePath` has made the directories
first, the configuration directory has mode 0755, and a `Save` that succeeds
afterwards leaves it at 0755. -/
theorem Save_permissions_counterexample :
    (Save sampleCodec true (GetWorkspaceLogFilePath (lit "w1") sampleWorld).2).1 = Except.ok () ∧
      Stat (Save sampleCodec true (GetWorkspaceLogFilePath (lit "w1") sampleWorld).2).2
        (lit "/home/u/.config/daytona/server") = Except.ok ⟨true, 0o755⟩ := by
  refine ⟨by decide, by decide⟩

/-- C9, amended. After `Save` succeeds the configuration directory is a
directory and `config.json` is a regular file. A configuration directory that
`Save` had to create has the bits 0700 less the bits of the process's mask, and
a `config.json` that `Save` had to create has the bits 0600 less the bits of
the mask; a directory or a file that was there before keeps the permission bits
it had. -/
theorem Save_permissions {Cfg : Type} (J : Codec Cfg) (c : Cfg) (w w1 : World) (U : Str)
    (hU : w.userConfigDir = Except.ok U) (h : Save J c w = (Except.ok (), w1)) :
    Stat w1 (configDirPath U) =
        Except.ok ⟨true,
          match Stat w (configDirPath U) with
          | Except.ok i => i.perm
          | Except.error _ => maskPerm 0o700 w.umask⟩ ∧
      Stat w1 (configFile U) =
        Except.ok ⟨false,
          match Stat w (configFile U) with
          | Except.ok i => i.perm
          | Except.error _ => maskPerm 0o600 w.umask⟩ := by
  obtain ⟨U2, b, wm, hU2, _, hmk, hwr⟩ := Save_ok J c w w1 h
  rw [hU] at hU2
  cases hU2
  obtain ⟨hse1, hpD, hkeep, hnew, hdirm, hframe, hpres⟩ :=
    MkdirAll_ok w wm _ _ (revShape_configDirPath U) hmk
  obtain ⟨hse2, hpF, q, k0, m, k, np, hloc, hq, hstep, hroot, _⟩ := WriteFile_ok wm w1 _ _ _ hwr
  have hlocF : wm.locate (configFile U) = wm.locate (configDirPath U) ++ [strConfigJson] :=
    locate_configFile wm U
  have hdir : Stat w1 (configDirPath U) = Stat wm (configDirPath U) := by
    rw [Stat_eq_statAt _ _ hpD, Stat_eq_statAt _ _ hpD, hse2.locate, hroot, ← hloc, hlocF,
      hse2.2.2.1]
    exact statAt_update _ _ _ _ _ (longer_not_le _ _ (by simp))
  constructor
  · rw [hdir]
    cases hs : Stat w (configDirPath U) with
    | ok i =>
      obtain ⟨hw, hi⟩ := hkeep i hs
      rw [hw, hs]
      cases i with
      | mk d p =>
        simp only at hi
        subst hi
        rfl
    | error e =>
      obtain ⟨_, hres⟩ := hnew e hs
      rw [Stat_of_resolve _ _ _ hres]
      rfl
  · obtain ⟨U3, b3, md, hU3, _, _, hres, _, hmode⟩ := Save_mode J c w w1 h
    rw [hU] at hU3
    cases hU3
    rw [Stat_of_resolve _ _ _ hres]
    rcases hmode with ⟨hen, hmd⟩ | ⟨d0, hf⟩
    · cases hs : Stat w (configFile U) with
      | ok i =>
        rw [Stat_eq_statAt _ _ hpF] at hs
        obtain ⟨n, hn, _⟩ := statAt_ok _ _ _ _ hs
        have := find_of_resolve _ _ _ _ hn
        rw [lookup_eq_find _ _ (configFile_ne_nil U), this] at hen
        cases hen
      | error e =>
        rw [hmd]
        rfl
    · rw [Stat_of_resolve _ _ _ hf]
      rfl

/-- C9, evaluated: in `sampleWorld`, with mask 022, `Save` makes the directory
with mode 0700 and the file with mode 0600. -/
theorem Save_permissions_witness :
    Stat (Save sampleCodec true sampleWorld).2 (configDirPath sampleDir) = Except.ok ⟨true, 0o700⟩ ∧
      Stat (Save sampleCodec true sampleWorld).2 (configFile sampleDir) =
        Except.ok ⟨false, 0o600⟩ := by
  have h := Save_permissions sampleCodec true sampleWorld (Save sampleCodec true sampleWorld).2
    sampleDir rfl (Prod.ext (by decide) rfl)
  have e1 : Stat sampleWorld (configDirPath sampleDir) = Except.error Errno.ENOENT := by decide
  have e2 : Stat sampleWorld (configFile sampleDir) = Except.error Errno.ENOENT := by decide
  rw [e1, e2] at h
  exact h

/-- C10 as stated fails: in `busyWorld`, which holds a saved configuration and
the log file of workspace `v1`, `DeleteWorkspaceLogs` for the workspaceId `..`
succeeds and removes the configuration directory, so that `config.json` and the
log file of `v1` are gone; for the empty workspaceId it succeeds and removes
the whole `logs` directory, the log file of `v1` included. -/
theorem DeleteWorkspaceLogs_frame_counterexample :
    Stat busyWorld (configFile sampleDir) = Except.ok ⟨false, 0o600⟩ ∧
      ReadFile busyWorld (workspaceLog sampleDir (lit "v1")) = Except.ok (lit "started") ∧
      (DeleteWorkspaceLogs (lit "..") busyWorld).1 = Except.ok () ∧
      Stat (DeleteWorkspaceLogs (lit "..") busyWorld).2 (configFile sampleDir) =
        Except.error Errno.ENOENT ∧
      Stat (DeleteWorkspaceLogs (lit "..") busyWorld).2 (workspaceLog sampleDir (lit "v1")) =
        Except.error Errno.ENOENT ∧
      (DeleteWorkspaceLogs [] busyWorld).1 = Except.ok () ∧
      Stat (DeleteWorkspaceLogs [] busyWorld).2 (workspaceLog sampleDir (lit "v1")) =
        Except.error Errno.ENOENT := by
  refine ⟨by decide, by decide, by decide, by decide, by decide, by decide, by decide⟩

/-- C10, amended. On a filesystem with case-sensitive names and without
symbolic links, for two different workspace ids that are single path elements
(not empty, without `/`, not `.` or `..`), a successful `DeleteWorkspaceLogs`
for the first leaves the log tree of the second and the file `config.json`
exactly as they were, and leaves the stat information of every location
outside the first workspace's log tree as it was. -/
theorem DeleteWorkspaceLogs_frame (wid vid : Str) (w w1 : World) (U : Str)
    (hU : w.userConfigDir = Except.ok U) (hw : isPlain wid = true) (hv : isPlain vid = true)
    (hne : wid ≠ vid) (h : DeleteWorkspaceLogs wid w = (Except.ok (), w1)) :
    w1.lookup (workspaceDir U vid) = w.lookup (workspaceDir U vid) ∧
      w1.lookup (configFile U) = w.lookup (configFile U) ∧
      (∀ x, ¬ w.locate (workspaceDir U wid) <+: x →
        statAt w1.privileged w1.root x = statAt w.privileged w.root x) := by
  obtain ⟨U2, hU2, hse, hcase⟩ := DeleteWorkspaceLogs_ok wid w w1 h
  rw [hU] at hU2
  cases hU2
  rw [lookup_eq_find _ _ (workspaceDir_ne_nil U vid), lookup_eq_find _ _ (workspaceDir_ne_nil U vid),
    lookup_eq_find _ _ (configFile_ne_nil U), lookup_eq_find _ _ (configFile_ne_nil U),
    hse.locate, hse.locate, hse.2.2.1]
  rcases hcase with ⟨h1, _⟩ | ⟨_, q, c, n, h1, _, h3⟩
  · rw [h1]
    exact ⟨rfl, rfl, fun _ _ => rfl⟩
  · rw [h3, ← h1]
    have hW : w.locate (workspaceDir U wid) = w.locate (logsDirPath U) ++ [wid] :=
      locate_workspaceDir_plain w U wid hw
    have hV : w.locate (workspaceDir U vid) = w.locate (logsDirPath U) ++ [vid] :=
      locate_workspaceDir_plain w U vid hv
    have hL : w.locate (logsDirPath U) = w.locate (configDirPath U) ++ [strLogs] :=
      locate_logsDirPath w U
    have hF : w.locate (configFile U) = w.locate (configDirPath U) ++ [strConfigJson] :=
      locate_configFile w U
    refine ⟨?_, ?_, ?_⟩
    · apply find_update_apart
      · rw [hW, hV]; exact snoc_not_le _ _ _ [] hne
      · rw [hW, hV]; exact snoc_not_le _ _ _ [] (Ne.symm hne)
    · have hW2 : w.locate (workspaceDir U wid) =
          w.locate (configDirPath U) ++ strLogs :: [wid] := by
        rw [hW, hL]; simp
      apply find_update_apart
      · rw [hW2, hF]
        exact apart_of_ne _ _ _ _ _ (by decide)
      · rw [hW2, hF]
        exact apart_of_ne _ _ _ _ _ (by decide)
    · intro x hx
      exact statAt_update _ _ _ _ _ hx

/-- C10, evaluated in `fullWorld`, which holds a saved configuration, the log
file of workspace `v1` and the log file of project `p1` of workspace `w1`:
deleting the logs of `w1` removes the directory of `w1`, which was there, and
leaves the log tree of `v1` and `config.json` as they were. -/
theorem DeleteWorkspaceLogs_frame_witness :
    Stat fullWorld (workspaceDir sampleDir (lit "w1")) = Except.ok ⟨true, 0o755⟩ ∧
      ReadFile fullWorld (projectLog sampleDir (lit "w1") (lit "p1")) = Except.ok (lit "built") ∧
      Stat (DeleteWorkspaceLogs (lit "w1") fullWorld).2 (workspaceDir sampleDir (lit "w1")) =
        Except.error Errno.ENOENT ∧
      ReadFile (DeleteWorkspaceLogs (lit "w1") fullWorld).2
        (workspaceLog sampleDir (lit "v1")) = Except.ok (lit "started") ∧
      (DeleteWorkspaceLogs (lit "w1") fullWorld).2.lookup (workspaceDir sampleDir (lit "v1")) =
        fullWorld.lookup (workspaceDir sampleDir (lit "v1")) ∧
      (DeleteWorkspaceLogs (lit "w1") fullWorld).2.lookup (configFile sampleDir) =
        fullWorld.lookup (configFile sampleDir) :=
  ⟨by decide, by decide, by decide, by decide,
    (DeleteWorkspaceLogs_frame (lit "w1") (lit "v1") fullWorld
      (DeleteWorkspaceLogs (lit "w1") fullWorld).2 sampleDir rfl (by decide) (by decide)
      (by decide) (Prod.ext (by decide) rfl)).1,
    (DeleteWorkspaceLogs_frame (lit "w1") (lit "v1") fullWorld
      (DeleteWorkspaceLogs (lit "w1") fullWorld).2 sampleDir rfl (by decide) (by decide)
      (by decide) (Prod.ext (by decide) rfl)).2.1⟩

end Config
